import Mathlib

/-!
# ProceduralLightning: the stochastic grammar and the segment generator

A shallow embedding of `LGrammar.cpp`, `LSystem.cpp` and `PhysicsModel.cpp`.

* `FString` is a list of characters, `TArray` a list in index order
  (`Add` appends at the end, `Top` is the last element, `Pop` drops it).
* `float` values are rationals and arithmetic is exact; the engine's
  transcendental functions are fields of `Engine`.
* Random draws are sequences handed to the operations; a counter in the state
  says how many have been consumed.
-/

namespace ProceduralLightning

/-! ## Engine strings -/

/-- An engine string: its characters in order. -/
abbrev FString := List Char

/-- The separator between the pattern symbol and the template. -/
def sepArrow : FString := [' ', '=', '>', ' ']

/-- The separator that opens the weight field. -/
def sepOpen : FString := [' ', '(']

/-- The character that closes the weight field. -/
def sepClose : FString := [')']

/-- The literal that `Iterate` writes for a replaced character (line 101). -/
def branchToken : FString := ['F', '[', '+', 'F', ']']

/-- Search of `sub` in `s` from index `i` on: the index of the first position at
which `sub` starts, `-1` when there is none. -/
def findFrom (sub : FString) : FString → Nat → Int
  | [], i => if sub = [] then (i : Int) else -1
  | c :: cs, i => if sub <+: c :: cs then (i : Int) else findFrom sub cs (i + 1)

/-- Model of `FString::Find(SubStr)`: index of the first occurrence, `INDEX_NONE = -1`
when absent. The engine searches ignoring case by default; the separators
searched for in this program contain no letter, for which the two searches
agree. -/
def FString.Find (s sub : FString) : Int := findFrom sub s 0

/-- Model of `FMath::Clamp` on integers. -/
def clampInt (x lo hi : Int) : Int := if x < lo then lo else if x < hi then x else hi

/-- Model of `FString::Mid(Start, Count)`: `Count` characters from index `Start`, both
clamped to the string; empty for a negative `Count`. -/
def FString.Mid (s : FString) (Start Count : Int) : FString :=
  if 0 ≤ Count then
    let Length : Int := s.length
    let start := clampInt Start 0 Length
    let stop := clampInt (Count + Start) start Length
    (s.drop start.toNat).take (stop - start).toNat
  else []

/-- ASCII lower-casing, the folding of the engine's case-insensitive compare. -/
def lowerAscii (c : Char) : Char :=
  if 'A' ≤ c ∧ c ≤ 'Z' then Char.ofNat (c.toNat + 32) else c

/-- Model of `operator==` on `FString`. In the engine this is
`Lhs.Equals(Rhs, ESearchCase::IgnoreCase)`: equal lengths and equal characters
up to ASCII case. -/
def FString.Equals (a b : FString) : Bool :=
  decide (a.map lowerAscii = b.map lowerAscii)

/-! ## `FCString::Atof` -/

/-- The white space `atof` skips. -/
def isSpaceC (c : Char) : Bool :=
  c = ' ' || c = '\t' || c = '\n' || c = '\r' || c.toNat = 11 || c.toNat = 12

/-- The number a list of decimal digits denotes. -/
def digitsVal (ds : List Char) : Nat :=
  ds.foldl (fun acc d => 10 * acc + (d.toNat - '0'.toNat)) 0

/-- An optional sign: whether it is a minus, and the rest. -/
def takeSign : FString → Bool × FString
  | '-' :: t => (true, t)
  | '+' :: t => (false, t)
  | s => (false, s)

/-- The exponent part `e[+-]digits` at the head of `s`, `0` when there is none. -/
def parseExponent : FString → Int
  | c :: t =>
    if c = 'e' ∨ c = 'E' then
      let sg := takeSign t
      let ds := sg.2.takeWhile Char.isDigit
      if ds = [] then 0 else if sg.1 then -(digitsVal ds : Int) else (digitsVal ds : Int)
    else 0
  | [] => 0

/-- The parts `atof` reads from the head of a string: sign, the digits of the
integer and fractional parts, and the exponent; `none` when no digit is there. -/
def atofParts (s : FString) : Option (Bool × List Char × List Char × Int) :=
  let sg := takeSign (s.dropWhile isSpaceC)
  let ip := sg.2.takeWhile Char.isDigit
  let r1 := sg.2.dropWhile Char.isDigit
  let fr : List Char × FString :=
    match r1 with
    | '.' :: t => (t.takeWhile Char.isDigit, t.dropWhile Char.isDigit)
    | _ => ([], r1)
  if ip = [] ∧ fr.1 = [] then none else some (sg.1, ip, fr.1, parseExponent fr.2)

/-- Model of `FCString::Atof`: the decimal number written at the head of the string
(leading white space, sign, digits, fraction, exponent), `0` when the string
does not start with one; what follows the number is ignored. The value is
exact; the spellings `inf`, `nan` and hexadecimal floats are not modelled. -/
def Atof (s : FString) : ℚ :=
  match atofParts s with
  | none => 0
  | some (neg, ip, fp, e) =>
    (if neg then -1 else 1) * (digitsVal (ip ++ fp) : ℚ) * (10 : ℚ) ^ (e - (fp.length : Int))

/-! ## `LRule`, `LGrammar`, `LSystem` -/

/-- Model of `class LRule` (LRule.h). -/
structure LRule where
  Rule : FString
  ToReplace : FString
  Probability : ℚ
deriving DecidableEq

/-- Modelled from the spec: `LRule.cpp` is not among the sources. The
three-argument constructor `LRule(v, r, p)` stores the pattern symbol, the
template and the weight of a rule. -/
def LRule.create (v r : FString) (p : ℚ) : LRule :=
  { Rule := r, ToReplace := v, Probability := p }

/-- Modelled from the spec: `LRule.cpp` is not among the sources. The default
constructor `LRule()` leaves both strings empty; only `ToReplace` of such a
rule is ever read. -/
def LRule.blank : LRule :=
  { Rule := [], ToReplace := [], Probability := 0 }

/-- Model of `class LGrammar` (LGrammar.h). -/
structure LGrammar where
  Condition : FString
  RulesArray : List LRule
  TotalProbability : ℚ
deriving DecidableEq

namespace LGrammar

/-- The body of the constructor's loop (LGrammar.cpp lines 16-34) for one rule
description. -/
def addRule (g : LGrammar) (desc : FString) : LGrammar :=
  let pos1 := desc.Find sepArrow
  let pos2 := desc.Find sepOpen
  let pos3 := desc.Find sepClose
  if pos1 ≠ -1 ∧ pos2 ≠ -1 then
    let stringToReplace := desc.Mid 0 pos1
    let rule := desc.Mid (pos1 + 4) (pos2 - pos1 - 4)
    let probability := desc.Mid (pos2 + 3) pos3
    let r := LRule.create stringToReplace rule (Atof probability)
    { g with RulesArray := g.RulesArray ++ [r],
             TotalProbability := g.TotalProbability + r.Probability }
  else g

/-- Model of `LGrammar::LGrammar(axiom, rules)` (lines 4-37). -/
def ctor (ax : FString) (rules : List FString) : LGrammar :=
  rules.foldl addRule { Condition := ax, RulesArray := [], TotalProbability := 0 }

/-- Model of `LGrammar::GetResult` (lines 44-47). -/
def GetResult (g : LGrammar) : FString := g.Condition

/-- The selection loop (lines 72-88): the value of `randomRule` after it. -/
def selectRule : List LRule → ℚ → LRule
  | [], _ => LRule.blank
  | rule :: rest, random =>
    if random ≤ rule.Probability then rule else selectRule rest (random - rule.Probability)

/-- Lines 90-102: the string appended for the character `c` when the draw is
`random`. -/
def rewriteChar (rules : List LRule) (random : ℚ) (c : Char) : FString :=
  let randomRule := selectRule rules random
  let current : FString := [c]
  if FString.Equals randomRule.ToReplace current then branchToken else current

/-- The loop over the positions of the string (lines 66-106): `draws k` is the
value of the `k`-th call of `FMath::RandRange(0, TotalProbability)` and `k`
counts the positions handled so far (`loopCount`). -/
def rewriteFrom (rules : List LRule) (draws : Nat → ℚ) : FString → Nat → FString
  | [], _ => []
  | c :: cs, k => rewriteChar rules (draws k) c ++ rewriteFrom rules draws cs (k + 1)

/-- One pass of the outer loop (lines 57-113), with `loopCount` before it. -/
def pass (g : LGrammar) (draws : Nat → ℚ) (loopCount : Nat) : LGrammar × Nat :=
  ({ g with Condition := rewriteFrom g.RulesArray draws g.Condition loopCount },
   loopCount + g.Condition.length)

/-- The outer loop run `n` times from `loopCount`. -/
def passes (draws : Nat → ℚ) : Nat → LGrammar → Nat → LGrammar × Nat
  | 0, g, k => (g, k)
  | n + 1, g, k => passes draws n (pass g draws k).1 (pass g draws k).2

/-- Model of `LGrammar::Iterate(its)` (lines 50-118): the loop body runs for
`i = 0 .. its - 1`, so not at all for `its ≤ 0`. -/
def Iterate (g : LGrammar) (draws : Nat → ℚ) (its : Int) : LGrammar :=
  (passes draws its.toNat g 0).1

end LGrammar

/-- Model of `class LSystem` (LSystem.cpp). -/
structure LSystem where
  Result : FString

/-- Model of `LSystem::Build` (LSystem.cpp lines 12-22). -/
def LSystem.Build (_self : LSystem) (ax : FString) (rules : List FString) (iterations : Int)
    (draws : Nat → ℚ) : LSystem :=
  { Result := ((LGrammar.ctor ax rules).Iterate draws iterations).GetResult }

/-- Model of `LSystem::GetResult` (LSystem.cpp lines 25-28). -/
def LSystem.GetResult (self : LSystem) : FString := self.Result

/-! ## Definitions used in the statements about the grammar -/

/-- The rule the constructor builds from a description that has both
separators (lines 24-29). -/
def parsedRule (desc : FString) : LRule :=
  LRule.create (desc.Mid 0 (desc.Find sepArrow))
    (desc.Mid (desc.Find sepArrow + 4) (desc.Find sepOpen - desc.Find sepArrow - 4))
    (Atof (desc.Mid (desc.Find sepOpen + 3) (desc.Find sepClose)))

/-- Whether a description has both separators. -/
def hasSeparators (desc : FString) : Bool :=
  decide (sepArrow <:+: desc ∧ sepOpen <:+: desc)

/-- The grammar of the counterexample to C1: the string `f` with one rule for `F`. -/
def c1Grammar : LGrammar :=
  { Condition := ['f'], RulesArray := [LRule.create ['F'] ['X'] 1], TotalProbability := 1 }

/-- The failing input of C4: a rule description with the weight field `1.0`. -/
def c4Desc : FString := "F => F[+F] (1.0)".toList

/-- The example description of the spec, with the weight field `0.5`. -/
def exampleDesc : FString := "X => Y (0.5)".toList

/-! ## The segment generator: data -/

/-- Model of `FVector`: three coordinates. -/
structure FVector where
  X : ℚ
  Y : ℚ
  Z : ℚ
deriving DecidableEq

/-- Model of `FVector + FVector`. -/
def FVector.add (a b : FVector) : FVector :=
  { X := a.X + b.X, Y := a.Y + b.Y, Z := a.Z + b.Z }

/-- Model of `FVector * float`. -/
def FVector.scale (a : FVector) (k : ℚ) : FVector :=
  { X := a.X * k, Y := a.Y * k, Z := a.Z * k }

/-- Model of `FRotator(InPitch, InYaw, InRoll)`. -/
structure FRotator where
  Pitch : ℚ
  Yaw : ℚ
  Roll : ℚ
deriving DecidableEq

/-- The engine functions the generator calls whose values are not rational
expressions of their arguments: `FMath::Pow`, `FMath::Sqrt` and
`FRotator::RotateVector`. -/
structure Engine where
  Pow : ℚ → ℚ → ℚ
  Sqrt : ℚ → ℚ
  RotateVector : FRotator → FVector → FVector

/-- Model of `struct Segment` (PhysicsModel.h). The pointer `Parent` is only
dereferenced in the loop iteration that sets it, where the embedding passes the
segment it points to; `BranchAngle` and `HasEnded` are never read or written. -/
structure Segment where
  StartPos : FVector
  EndPos : FVector
  Direction : FVector
  Length : ℚ
  Diameter : ℚ
  Pressure : ℚ
  Temp : ℚ
  MinDiameter : ℚ
deriving DecidableEq

/-- The values one call of `GenerateSegments` draws or finds.
* `constA`: the sample of `constDistribution`;
* `normalLen k`, `normalAngle k`: the samples of `lenDistribution` and
  `angleDistribution` used for the segment generated `k`-th (the root is the
  0-th);
* `frand k`: the `k`-th value of `FMath::FRand()` behind `RandRange` and
  `FRandRange`;
* `randBool k`: the value of `FMath::RandBool()` for the `k`-th segment;
* `fresh k`: the indeterminate contents of the local `Segment segment;` of the
  iteration that generates the `k`-th segment. -/
structure Draws where
  constA : ℚ
  normalLen : Nat → ℚ
  normalAngle : Nat → ℚ
  frand : Nat → ℚ
  randBool : Nat → Bool
  fresh : Nat → Segment

/-- Model of `class PhysicsModel` (PhysicsModel.h): the configuration, the two ranges set
by `GenerateSegments`, the stored result, and the value of `*bIs3DEnabled`. -/
structure PhysicsModel where
  PressureMultiplier : ℚ
  Scale : ℚ
  Voltage : ℚ
  ConstantnV : ℚ
  ConstantA : ℚ
  ConstantADeviation : ℚ
  Length : ℚ
  LengthDeviation : ℚ
  Angle : ℚ
  AngleDeviation : ℚ
  heightRange : ℚ × ℚ
  tempRange : ℚ × ℚ
  StartHeight : ℚ
  SeaLevelHeight : ℚ
  SeaLevelTemp : ℚ
  bUseSegmentLimit : Bool
  MaxSegments : Int
  BranchChance : ℚ
  InitialAngleRange : ℚ
  bPackagedBuildFix : Bool
  LightningSegments : List Segment
  bIs3DEnabled : Bool

/-- The locals of `GenerateSegments` (lines 70-84) with the stored result, the
counters of the draws consumed, and the history `Walks` of the branches walked
so far (a record kept for the statements; the code does not read it). -/
structure GenState where
  LightningSegments : List Segment
  branchDirection : List FVector
  branchPoints : List Segment
  currentBranch : List Segment
  bIsGenerating : Bool
  firstSegment : Bool
  secondSegment : Bool
  bIsBranchFinished : Bool
  Steps : Nat
  FRands : Nat
  Walks : List (List Segment)

/-! ## The segment generator: engine arithmetic -/

/-- Model of `FMath::FRandRange(InMin, InMax)` (and `RandRange` on floats) for the value
`u` of `FRand()`. -/
def FRandRange (InMin InMax u : ℚ) : ℚ := InMin + (InMax - InMin) * u

/-- Model of `FMath::GetRangePct`: the position of `Value` in the range, and for a range
of width at most `1e-8` whether `Value` reaches its end. -/
def GetRangePct (MinValue MaxValue Value : ℚ) : ℚ :=
  if |MaxValue - MinValue| ≤ 1 / 100000000 then (if MaxValue ≤ Value then 1 else 0)
  else (Value - MinValue) / (MaxValue - MinValue)

/-- Model of `FMath::Lerp`. -/
def Lerp (A B Alpha : ℚ) : ℚ := A + Alpha * (B - A)

/-- Model of `FMath::GetMappedRangeValueUnclamped`. -/
def GetMappedRangeValueUnclamped (InputRange OutputRange : ℚ × ℚ) (Value : ℚ) : ℚ :=
  Lerp OutputRange.1 OutputRange.2 (GetRangePct InputRange.1 InputRange.2 Value)

/-! ## The segment generator: operations -/

namespace PhysicsModel

/-- Model of `PhysicsModel::CalculatePressure` (lines 232-238). -/
def CalculatePressure (e : Engine) (height : ℚ) : ℚ :=
  (101325 * e.Pow (1 - 2.25577 * e.Pow 10 (-5) * height) 5.25588) / 100000

/-- Model of `PhysicsModel::CalculateTemp` (lines 293-299). -/
def CalculateTemp (m : PhysicsModel) (segment : Segment) : ℚ :=
  GetMappedRangeValueUnclamped m.heightRange m.tempRange segment.StartPos.Z

/-- Model of `PhysicsModel::CalculateMinDiameter` (lines 301-307). -/
def CalculateMinDiameter (segment : Segment) (constA : ℚ) : ℚ :=
  (constA * (segment.Temp / 293)) / segment.Pressure

/-- Model of `PhysicsModel::CalculateDiameter` (lines 309-315); `parent` is
`*segment.Parent`. -/
def CalculateDiameter (e : Engine) (segment parent : Segment) : ℚ :=
  e.Sqrt (1 / 2) * (parent.Diameter / parent.MinDiameter) * segment.MinDiameter

/-- Model of `PhysicsModel::CalculateInitDiameter` (lines 317-323). -/
def CalculateInitDiameter (m : PhysicsModel) : ℚ := m.Voltage * m.ConstantnV

/-- Model of `PhysicsModel::CalculateLength` (lines 325-331) for the sample `sample` of
`lenDistribution`. -/
def CalculateLength (m : PhysicsModel) (sample : ℚ) (segment : Segment) : ℚ :=
  sample * segment.Diameter * m.Scale

/-- The part shared by both kinds of segment (lines 126-134 and 248-257):
pressure, temperature and minimum diameter at the start position. -/
def withAmbient (e : Engine) (m : PhysicsModel) (constA : ℚ) (segment : Segment) : Segment :=
  let s1 := { segment with
    Pressure := CalculatePressure e segment.StartPos.Z * m.PressureMultiplier }
  let s2 := { s1 with Temp := CalculateTemp m s1 }
  { s2 with MinDiameter := CalculateMinDiameter s2 constA }

/-- The end of both kinds of segment (lines 190-194 and 280-289): diameter,
length and end position. -/
def withExtent (m : PhysicsModel) (sample diameter : ℚ) (segment : Segment) : Segment :=
  let s1 := { segment with Diameter := diameter }
  let s2 := { s1 with Length := CalculateLength m sample s1 }
  { s2 with EndPos := s2.StartPos.add (s2.Direction.scale s2.Length) }

/-- Model of `PhysicsModel::GenerateFirstSegment` (lines 241-291) on the local `segment`,
with the value `u` of `FRand()` and the sample `sample` of `lenDistribution`. -/
def GenerateFirstSegment (e : Engine) (m : PhysicsModel) (segment : Segment) (A u sample : ℚ) :
    Segment :=
  let s1 := { segment with StartPos := { X := 0, Y := 0, Z := m.StartHeight } }
  let s2 := withAmbient e m A s1
  let randomAngle := FRandRange (-m.InitialAngleRange) m.InitialAngleRange u
  let startRotation : FRotator :=
    if m.bIs3DEnabled then { Pitch := randomAngle, Yaw := randomAngle, Roll := 0 }
    else { Pitch := randomAngle, Yaw := 0, Roll := 0 }
  let s3 := { s2 with Direction := e.RotateVector startRotation { X := 0, Y := 0, Z := -1 } }
  withExtent m sample (CalculateInitDiameter m) s3

/-- Model of `PhysicsModel::BranchLogic` (lines 369-411). `parent` is what
`*segment.Parent` holds when line 393 reads its heading, that is after the
`Add` of line 380 (see `parentAtPush`); the draw of line 377 is `frand` at the
counter. -/
def BranchLogic (e : Engine) (m : PhysicsModel) (d : Draws) (st : GenState)
    (segment parent : Segment) (splitAngle splitAngleOffset diameter : ℚ) : GenState :=
  if segment.MinDiameter < diameter then
    let st1 := { st with FRands := st.FRands + 1 }
    if FRandRange 0 1 (d.frand st.FRands) < m.BranchChance then
      let rotation : FRotator :=
        if m.bIs3DEnabled then
          { Pitch := -splitAngle + splitAngleOffset, Yaw := splitAngle + splitAngleOffset,
            Roll := 0 }
        else { Pitch := -splitAngle + splitAngleOffset, Yaw := 0, Roll := 0 }
      let st2 := { st1 with
        branchPoints := st1.branchPoints ++ [segment],
        branchDirection := st1.branchDirection ++ [e.RotateVector rotation parent.Direction] }
      if st2.secondSegment && m.bPackagedBuildFix then
        { st2 with secondSegment := false, branchPoints := st2.branchPoints ++ [segment] }
      else st2
    else if st1.secondSegment then { st1 with secondSegment := false }
    else st1
  else { st with bIsBranchFinished := true }

/-- Lines 99-116: the parent of the next segment, with the state after a pop.
`none` is the `break` of line 109: a new branch with no branch point left. -/
def selectParent (st : GenState) : Option (Segment × GenState) :=
  match st.currentBranch.getLast? with
  | some p => some (p, st)
  | none =>
    match st.branchPoints.getLast? with
    | some p => some (p, { st with branchPoints := st.branchPoints.dropLast })
    | none => none

/-- Lines 123-134: the new segment starts at the end of its parent; pressure,
temperature and minimum diameter follow from that position. -/
def startSegment (e : Engine) (m : PhysicsModel) (d : Draws) (constA : ℚ) (st : GenState)
    (parent : Segment) : Segment :=
  withAmbient e m constA { d.fresh st.Steps with StartPos := parent.EndPos }

/-- Line 155: the offset of the split, drawn in `[-branchAngle / 2, branchAngle / 2]`. -/
def splitAngleOffset (d : Draws) (st : GenState) : ℚ :=
  FRandRange (-(d.normalAngle st.Steps) / 2) (d.normalAngle st.Steps / 2) (d.frand st.FRands)

/-- Lines 149-157: half the branching angle, with the sign flipped when
`RandBool()` says so. -/
def splitAngle (d : Draws) (st : GenState) : ℚ :=
  if d.randBool st.Steps then -(d.normalAngle st.Steps / 2) else d.normalAngle st.Steps / 2

/-- Lines 161-168: the rotation applied to the heading of the parent. -/
def stepRotation (m : PhysicsModel) (d : Draws) (st : GenState) : FRotator :=
  if m.bIs3DEnabled then
    { Pitch := splitAngle d st + splitAngleOffset d st,
      Yaw := splitAngle d st + splitAngleOffset d st, Roll := 0 }
  else { Pitch := splitAngle d st + splitAngleOffset d st, Yaw := 0, Roll := 0 }

/-- Lines 171-182: the heading. The first segment of a branch takes the top of
`branchDirection` when there is one (and keeps what the local held otherwise);
a later segment takes the rotated heading of its parent. -/
def headedSegment (e : Engine) (m : PhysicsModel) (d : Draws) (constA : ℚ) (st : GenState)
    (parent : Segment) : Segment :=
  if st.currentBranch.isEmpty then
    match st.branchDirection.getLast? with
    | some dir => { startSegment e m d constA st parent with Direction := dir }
    | none => startSegment e m d constA st parent
  else
    { startSegment e m d constA st parent with
      Direction := e.RotateVector (stepRotation m d st) parent.Direction }

/-- Lines 189-194: the segment as it is added to the branch, with the diameter
of line 140, its length and its end position. -/
def nextSegment (e : Engine) (m : PhysicsModel) (d : Draws) (constA : ℚ) (st : GenState)
    (parent : Segment) : Segment :=
  withExtent m (d.normalLen st.Steps)
    (CalculateDiameter e (startSegment e m d constA st parent) parent)
    (headedSegment e m d constA st parent)

/-- What `*segment.Parent` holds when `BranchLogic` reads its heading (line 393).
For a later segment of a branch the pointer aims at the last segment of
`currentBranch` (line 115), which is `parent`. For the first segment of a
branch it aims at the slot of `branchPoints` that held the popped branch point
(lines 103-104); the array keeps its storage, so the `Add` of line 380 writes
the new segment into that slot before line 393 reads it, and the heading read
there is the new segment's own. -/
def parentAtPush (e : Engine) (m : PhysicsModel) (d : Draws) (constA : ℚ) (st : GenState)
    (parent : Segment) : Segment :=
  if st.currentBranch.isEmpty then headedSegment e m d constA st parent else parent

/-- Lines 118-199: one segment after the root is generated from `parent` and
added to the branch. `BranchLogic` sees the segment before its diameter,
length and end position are set. -/
def generateSegment (e : Engine) (m : PhysicsModel) (d : Draws) (constA : ℚ) (st : GenState)
    (parent : Segment) : GenState :=
  let st1 := { st with
    FRands := st.FRands + 1,
    branchDirection :=
      if st.currentBranch.isEmpty then st.branchDirection.dropLast else st.branchDirection }
  let st2 := BranchLogic e m d st1 (headedSegment e m d constA st parent)
    (parentAtPush e m d constA st parent)
    (splitAngle d st) (splitAngleOffset d st)
    (CalculateDiameter e (startSegment e m d constA st parent) parent)
  { st2 with
    currentBranch := st2.currentBranch ++ [nextSegment e m d constA st parent],
    Steps := st2.Steps + 1 }

/-- Lines 90-96: the iteration that generates the root segment. -/
def generateRoot (e : Engine) (m : PhysicsModel) (d : Draws) (constA : ℚ) (st : GenState) :
    GenState :=
  { st with
    firstSegment := false,
    currentBranch := st.currentBranch ++
      [GenerateFirstSegment e m (d.fresh st.Steps) constA (d.frand st.FRands)
        (d.normalLen st.Steps)],
    secondSegment := true,
    Steps := st.Steps + 1,
    FRands := st.FRands + 1 }

/-- The inner loop (lines 87-201) run for at most `fuel` tests of its condition;
`none` when it has not ended by then. -/
def branchWalk (e : Engine) (m : PhysicsModel) (d : Draws) (constA : ℚ) :
    Nat → GenState → Option GenState
  | 0, _ => none
  | fuel + 1, st =>
    if st.bIsBranchFinished then some st
    else if st.firstSegment then branchWalk e m d constA fuel (generateRoot e m d constA st)
    else
      match selectParent st with
      | none => some { st with bIsGenerating := false }
      | some (parent, st1) =>
        branchWalk e m d constA fuel (generateSegment e m d constA st1 parent)

/-- Lines 203-210: the branch just walked is appended to the result. -/
def appendBranch (st : GenState) : GenState :=
  { st with
    LightningSegments := st.LightningSegments ++ st.currentBranch,
    Walks := if st.currentBranch.isEmpty then st.Walks else st.Walks ++ [st.currentBranch] }

/-- The outer loop (lines 80-227) run for at most `fuel` iterations, each inner
loop with as much fuel; `none` when it has not ended by then, and when the
popping of lines 219-222 runs off an empty array (`MaxSegments < 0`). -/
def generateLoop (e : Engine) (m : PhysicsModel) (d : Draws) (constA : ℚ) :
    Nat → GenState → Option GenState
  | 0, _ => none
  | fuel + 1, st =>
    if st.bIsGenerating then
      match branchWalk e m d constA (fuel + 1)
          { st with currentBranch := [], bIsBranchFinished := false } with
      | none => none
      | some st1 =>
        if m.bUseSegmentLimit ∧ m.MaxSegments ≤ ((appendBranch st1).LightningSegments.length : Int)
        then
          if m.MaxSegments < 0 then none
          else some { appendBranch st1 with
            bIsGenerating := false,
            LightningSegments :=
              (appendBranch st1).LightningSegments.take m.MaxSegments.toNat }
        else generateLoop e m d constA fuel (appendBranch st1)
    else some st

/-- Lines 39-54: the stored result is emptied and the two ranges are set. -/
def setup (m : PhysicsModel) : PhysicsModel :=
  { m with
    LightningSegments := [],
    heightRange := (m.SeaLevelHeight, m.StartHeight),
    tempRange := (m.SeaLevelTemp, m.SeaLevelTemp - m.StartHeight / 1000 * 6.5) }

/-- Lines 61-68: the constant `A`, not below `0.01`. -/
def clampA (sample : ℚ) : ℚ := if sample < 1 / 100 then 1 / 100 else sample

/-- Lines 70-77: the locals at the start of the outer loop, beside an empty
stored list. -/
def initialState : GenState :=
  { LightningSegments := [], branchDirection := [], branchPoints := [], currentBranch := [],
    bIsGenerating := true, firstSegment := true, secondSegment := false,
    bIsBranchFinished := false, Steps := 0, FRands := 0, Walks := [] }

/-- The state in which the outer loop starts on the object `m`: the locals of
lines 70-77 and the member `LightningSegments` as the object holds it. -/
def startState (m : PhysicsModel) : GenState :=
  { initialState with LightningSegments := m.LightningSegments }

/-- Model of `PhysicsModel::GenerateSegments` (lines 35-229) with its locals: the state
at the return. The loop runs on the object as lines 39-54 leave it, and
appends to its member `LightningSegments`. -/
def GenerateSegmentsTrace (e : Engine) (m : PhysicsModel) (d : Draws) (fuel : Nat) :
    Option GenState :=
  generateLoop e (setup m) d (clampA d.constA) fuel (startState (setup m))

/-- Model of `PhysicsModel::GenerateSegments` (lines 35-229): the object after the call. -/
def GenerateSegments (e : Engine) (m : PhysicsModel) (d : Draws) (fuel : Nat) :
    Option PhysicsModel :=
  (GenerateSegmentsTrace e m d fuel).map
    (fun st => { setup m with LightningSegments := st.LightningSegments })

/-- Model of `PhysicsModel::GetSegments`. -/
def GetSegments (m : PhysicsModel) : List Segment := m.LightningSegments

/-- Model of `PhysicsModel::PhysicsModel` (lines 4-28): the default values. -/
def defaults : PhysicsModel :=
  { PressureMultiplier := 1, Scale := 9.5, Voltage := 300000000, ConstantnV := 0.00000001,
    ConstantA := 0.21, ConstantADeviation := 0.02, Length := 11, LengthDeviation := 4,
    Angle := 43, AngleDeviation := 12.3, heightRange := (0, 0), tempRange := (0, 0),
    StartHeight := 2000, SeaLevelHeight := 0, SeaLevelTemp := 310, bUseSegmentLimit := true,
    MaxSegments := 500, BranchChance := 0.8, InitialAngleRange := 20, bPackagedBuildFix := true,
    LightningSegments := [], bIs3DEnabled := false }

end PhysicsModel

/-! ## Definitions used in the statements about the generator -/

/-- Consecutive segments of the list are connected: each one starts where the
one before it ends. -/
def Connected (w : List Segment) : Prop :=
  List.Chain' (fun a b : Segment => b.StartPos = a.EndPos) w

/-- Every segment of the list that is followed by another one has a diameter
above its minimum diameter. -/
def ViableButLast (w : List Segment) : Prop :=
  ∀ s ∈ w.dropLast, s.MinDiameter < s.Diameter

/-- The property `ViableButLast` of every walk, the root segment (the first segment of the
first walk) left aside. -/
def WalksViable : List (List Segment) → Prop
  | [] => True
  | w0 :: rest => ViableButLast w0.tail ∧ ∀ w ∈ rest, ViableButLast w

/-- What holds of the state during the walk of one branch that starts in the
state `st0`; `k` is 1 for the walk that starts with the root and 0 otherwise. -/
def WalkInv (k : Nat) (st0 st : GenState) : Prop :=
  st.LightningSegments = st0.LightningSegments ∧ st.Walks = st0.Walks ∧
  (st.firstSegment = true → st.currentBranch = [] ∧ k = 1 ∧ st.bIsBranchFinished = false) ∧
  (st.firstSegment = false → k ≤ st.currentBranch.length) ∧
  Connected st.currentBranch ∧ ViableButLast (st.currentBranch.drop k) ∧
  (st.bIsBranchFinished = false →
    ∀ s ∈ (st.currentBranch.drop k).getLast?, s.MinDiameter < s.Diameter)

/-- What holds of the state when the walk of a branch has ended. -/
def WalkPost (k : Nat) (st0 st : GenState) : Prop :=
  st.LightningSegments = st0.LightningSegments ∧ st.Walks = st0.Walks ∧
  st.firstSegment = false ∧ k ≤ st.currentBranch.length ∧
  Connected st.currentBranch ∧ ViableButLast (st.currentBranch.drop k)

/-- What holds of the state at the head of the outer loop. -/
def LoopInv (st : GenState) : Prop :=
  (st.firstSegment = true → st.Walks = []) ∧ (st.firstSegment = false → st.Walks ≠ []) ∧
  (∀ w ∈ st.Walks, Connected w) ∧ WalksViable st.Walks ∧
  st.LightningSegments = st.Walks.flatten

/-- What holds of the state when `GenerateSegments` returns. -/
def LoopPost (st : GenState) : Prop :=
  (∀ w ∈ st.Walks, Connected w) ∧ WalksViable st.Walks ∧
  st.LightningSegments <+: st.Walks.flatten

/-- The root segment of a run: what the first iteration of the inner loop adds. -/
def rootSegment (e : Engine) (m : PhysicsModel) (d : Draws) : Segment :=
  PhysicsModel.GenerateFirstSegment e (PhysicsModel.setup m) (d.fresh 0)
    (PhysicsModel.clampA d.constA) (d.frand 0) (d.normalLen 0)

/-- The ratio of a segment's diameter to its minimum diameter. -/
def ratio (s : Segment) : ℚ := s.Diameter / s.MinDiameter

/-- An engine to evaluate the definitions on examples: `Pow` has the value 1
(that of a power of 1), the square root of one half is taken as `7071 / 10000`,
and vectors are not rotated. -/
def sampleEngine : Engine :=
  { Pow := fun _ _ => 1, Sqrt := fun _ => 7071 / 10000, RotateVector := fun _ v => v }

/-- A segment with all fields zero, for the contents of an unset local. -/
def zeroSegment : Segment :=
  { StartPos := ⟨0, 0, 0⟩, EndPos := ⟨0, 0, 0⟩, Direction := ⟨0, 0, 0⟩, Length := 0,
    Diameter := 0, Pressure := 0, Temp := 0, MinDiameter := 0 }

/-- Draws to evaluate the definitions on examples. -/
def sampleDraws : Draws :=
  { constA := 21 / 100, normalLen := fun _ => 11, normalAngle := fun _ => 43,
    frand := fun k => if k % 3 = 0 then 1 / 2 else 9 / 10,
    randBool := fun k => k % 2 = 0, fresh := fun _ => zeroSegment }

/-- The default configuration, started at height 0. -/
def groundModel : PhysicsModel := { PhysicsModel.defaults with StartHeight := 0 }

/-- The configuration of the counterexample to C8: the defaults with the limit
of one segment, started at height 0, with no voltage and the pressure
multiplier `-1`. -/
def c8Model : PhysicsModel :=
  { PhysicsModel.defaults with
    Voltage := 0, PressureMultiplier := -1, StartHeight := 0, MaxSegments := 1 }

/-- The configuration of the counterexample to C10: the defaults, started at
height 0, with no voltage. -/
def c10Model : PhysicsModel :=
  { PhysicsModel.defaults with Voltage := 0, StartHeight := 0 }

/-! ## Definitions used in the statements about rule selection and templates -/

/-- The sum of the weights of the first `k + 1` rules of a list. -/
def weightUpTo (rules : List LRule) (k : Nat) : ℚ :=
  ((rules.take (k + 1)).map LRule.Probability).sum

/-- The first occurrence of `sub` in `s` starts at index `i`. -/
def FirstAt (sub s : FString) (i : Nat) : Prop :=
  sub <+: s.drop i ∧ i ≤ s.length ∧ ∀ j, j < i → ¬ sub <+: s.drop j

/-- The rule list of the counterexample to C15: one rule for `F` of weight 1. -/
def c15Rules : List LRule := [LRule.create ['F'] ['X'] 1]

/-- Two rules of weight 1, for `A` and for `B`. -/
def abRules : List LRule := [LRule.create ['A'] ['x'] 1, LRule.create ['B'] ['y'] 1]

/-- The description of the counterexample to C16: the pattern symbol holds the
separator that opens the weight field. -/
def c16Desc : FString := "A (x) => B (0.5)".toList

/-- Two rule lists agree in every pattern symbol and weight. -/
def SameButTemplates (rs1 rs2 : List LRule) : Prop :=
  List.Forall₂ (fun a b : LRule => a.ToReplace = b.ToReplace ∧ a.Probability = b.Probability)
    rs1 rs2

/-! ## Definitions used in the statements about pressure and diameters -/

/-- An engine that is exact where a rational value exists: `Pow` is the power
at an integer exponent and 1 at any other exponent (the value of a power of 1);
the square root of one half is taken as `7071 / 10000`, and vectors are not
rotated. -/
def decimalEngine : Engine :=
  { Pow := fun x y => if y.den = 1 then x ^ y.num else 1,
    Sqrt := fun _ => 7071 / 10000,
    RotateVector := fun _ v => v }

/-- The diameter of a segment follows from its parent by the recurrence of
`CalculateDiameter`, with `sqrtHalf` the value of `Sqrt(0.5)`. -/
def DiameterStep (sqrtHalf : ℚ) (p s : Segment) : Prop :=
  s.Diameter = sqrtHalf * (p.Diameter / p.MinDiameter) * s.MinDiameter ∧
  (s.MinDiameter ≠ 0 → s.Diameter / s.MinDiameter = sqrtHalf * (p.Diameter / p.MinDiameter))

/-- The minimum diameter of a segment is `A * (temperature / 293) / pressure`. -/
def MinDiameterLaw (A : ℚ) (s : Segment) : Prop :=
  s.MinDiameter = A * (s.Temp / 293) / s.Pressure

/-! ## The segment generator step by step -/

namespace PhysicsModel

/-- The points of `GenerateSegments` at which its state is observed: the test
of the outer loop (line 80), the test of the inner loop (line 87), the end of
the inner loop (line 202), and the return. -/
inductive Point where
  | loopHead
  | walkHead
  | walkExit
  | returned
deriving DecidableEq

/-- One step of `GenerateSegments` (lines 80-227) from one point to the next:
the test of the outer loop, one iteration of the inner loop or its exit, and
the code after the inner loop (lines 203-225). `none` after the return, and
when the popping of lines 219-222 runs off an empty array. -/
def step (e : Engine) (m : PhysicsModel) (d : Draws) (constA : ℚ) :
    Point × GenState → Option (Point × GenState)
  | (Point.loopHead, st) =>
    if st.bIsGenerating then
      some (Point.walkHead, { st with currentBranch := [], bIsBranchFinished := false })
    else some (Point.returned, st)
  | (Point.walkHead, st) =>
    if st.bIsBranchFinished then some (Point.walkExit, st)
    else if st.firstSegment then some (Point.walkHead, generateRoot e m d constA st)
    else
      match selectParent st with
      | none => some (Point.walkExit, { st with bIsGenerating := false })
      | some (parent, st1) => some (Point.walkHead, generateSegment e m d constA st1 parent)
  | (Point.walkExit, st) =>
    if m.bUseSegmentLimit ∧ m.MaxSegments ≤ ((appendBranch st).LightningSegments.length : Int)
    then
      if m.MaxSegments < 0 then none
      else some (Point.returned, { appendBranch st with
        bIsGenerating := false,
        LightningSegments := (appendBranch st).LightningSegments.take m.MaxSegments.toNat })
    else some (Point.loopHead, appendBranch st)
  | (Point.returned, _) => none

/-- The point and state `n` steps after `x`, if the run goes on that long. -/
def runSteps (e : Engine) (m : PhysicsModel) (d : Draws) (constA : ℚ) :
    Nat → Point × GenState → Option (Point × GenState)
  | 0, x => some x
  | n + 1, x => (runSteps e m d constA n x).bind (step e m d constA)

/-- The call of `GenerateSegments` on `m` with the draws `d` is at the point
`pt` in the state `st` after `n` steps. -/
def ReachedAt (e : Engine) (m : PhysicsModel) (d : Draws) (n : Nat) (pt : Point)
    (st : GenState) : Prop :=
  runSteps e (setup m) d (clampA d.constA) n (Point.loopHead, startState (setup m)) =
    some (pt, st)

/-- Lines 383-390: the rotation of the heading stored for the new branch. -/
def branchRotation (m : PhysicsModel) (splitAngle splitAngleOffset : ℚ) : FRotator :=
  if m.bIs3DEnabled then
    { Pitch := -splitAngle + splitAngleOffset, Yaw := splitAngle + splitAngleOffset, Roll := 0 }
  else { Pitch := -splitAngle + splitAngleOffset, Yaw := 0, Roll := 0 }

end PhysicsModel

/-! ## Definitions used in the statements about branch points -/

/-- The test of lines 373-377 for the segment generated from `parent` in the
state `st`: its diameter exceeds its minimum diameter and the draw of
`FRandRange(0, 1)` is below `BranchChance`. -/
def Branches (e : Engine) (m : PhysicsModel) (d : Draws) (constA : ℚ) (st : GenState)
    (parent : Segment) : Prop :=
  (PhysicsModel.nextSegment e m d constA st parent).MinDiameter <
      (PhysicsModel.nextSegment e m d constA st parent).Diameter ∧
    FRandRange 0 1 (d.frand (st.FRands + 1)) < m.BranchChance

/-- The heading that `BranchLogic` stores when the segment generated from
`parent` in the state `st` branches (lines 383-393): the rotated heading of
what `*segment.Parent` holds then, the parent for a later segment of a branch
and the new segment itself for the first segment of a branch. -/
def storedDirection (e : Engine) (m : PhysicsModel) (d : Draws) (constA : ℚ) (st : GenState)
    (parent : Segment) : FVector :=
  e.RotateVector
    (PhysicsModel.branchRotation m (PhysicsModel.splitAngle d st)
      (PhysicsModel.splitAngleOffset d st))
    (PhysicsModel.parentAtPush e m d constA st parent).Direction

/-- What holds of a run that records no branch point, at the point `pt` in the
state `st`; `root` is the root segment. Either the first walk is under way, or
it has been stored as the only walk, cut short only by the segment limit. -/
def SingleWalk (m : PhysicsModel) (root : Segment) (pt : PhysicsModel.Point) (st : GenState) :
    Prop :=
  st.branchPoints = [] ∧ st.branchDirection = [] ∧
  ((st.Walks = [] ∧ st.LightningSegments = [] ∧ st.bIsGenerating = true ∧
      pt ≠ PhysicsModel.Point.returned ∧
      (st.firstSegment = true →
        st.currentBranch = [] ∧ st.Steps = 0 ∧ st.FRands = 0 ∧ st.bIsBranchFinished = false ∧
          pt ≠ PhysicsModel.Point.walkExit) ∧
      (st.firstSegment = false →
        pt ≠ PhysicsModel.Point.loopHead ∧ st.currentBranch.head? = some root ∧
          Connected st.currentBranch)) ∨
    (∃ w, st.Walks = [w] ∧ w.head? = some root ∧ Connected w ∧ st.LightningSegments <+: w ∧
      st.firstSegment = false ∧
      (pt = PhysicsModel.Point.walkHead →
        st.currentBranch = [] ∧ st.bIsBranchFinished = false) ∧
      (pt = PhysicsModel.Point.walkExit → st.currentBranch = []) ∧
      (¬ (m.bUseSegmentLimit = true ∧ m.MaxSegments ≤ (w.length : Int)) →
        st.LightningSegments = w)))

/-- The default configuration with `BranchChance` 0. -/
def c20Model : PhysicsModel := { PhysicsModel.defaults with BranchChance := 0 }

/-! ## Definitions used in the statements about the two stacks -/

/-- The state in which only the root segment has been generated. -/
def rootState (e : Engine) (m : PhysicsModel) (d : Draws) : GenState :=
  PhysicsModel.generateRoot e (PhysicsModel.setup m) d (PhysicsModel.clampA d.constA)
    PhysicsModel.initialState

/-- The segment generated right after the root, as `BranchLogic` sees it: the
copy that is recorded, twice under `bPackagedBuildFix`, when it branches. -/
def secondSegmentCopy (e : Engine) (m : PhysicsModel) (d : Draws) : Segment :=
  PhysicsModel.headedSegment e (PhysicsModel.setup m) d (PhysicsModel.clampA d.constA)
    (rootState e m d) (rootSegment e m d)

/-- Some iteration of the inner loop of the run generates a segment that
branches: `BranchLogic` records the copy `s` of it together with the heading
`dir`, the segment is added to its walk as `seg`, and it is the `k`-th segment
generated. -/
def Recorded (e : Engine) (m : PhysicsModel) (d : Draws) (s : Segment) (dir : FVector)
    (seg : Segment) (k : Nat) : Prop :=
  ∃ (n : Nat) (st : GenState) (p : Segment) (st1 : GenState),
    PhysicsModel.ReachedAt e m d n PhysicsModel.Point.walkHead st ∧
    st.bIsBranchFinished = false ∧ st.firstSegment = false ∧
    PhysicsModel.selectParent st = some (p, st1) ∧
    Branches e (PhysicsModel.setup m) d (PhysicsModel.clampA d.constA) st1 p ∧
    s = PhysicsModel.headedSegment e (PhysicsModel.setup m) d (PhysicsModel.clampA d.constA)
      st1 p ∧
    dir = storedDirection e (PhysicsModel.setup m) d (PhysicsModel.clampA d.constA) st1 p ∧
    seg = PhysicsModel.nextSegment e (PhysicsModel.setup m) d (PhysicsModel.clampA d.constA)
      st1 p ∧
    k = st1.Steps

/-- The branch point `s` and the heading `dir` were pushed together, by one
call of `BranchLogic` in the run. -/
def PushedTogether (e : Engine) (m : PhysicsModel) (d : Draws) (s : Segment) (dir : FVector) :
    Prop :=
  ∃ seg k, Recorded e m d s dir seg k

/-- The two stacks hold matching pairs, from the bottom to the top, but for one
more branch point `dup` at the bottom of the first when `fix` is set. -/
def Stacked (PT : Segment → FVector → Prop) (fix : Bool) (dup : Segment)
    (bp : List Segment) (bd : List FVector) : Prop :=
  List.Forall₂ PT bp bd ∨
    (fix = true ∧ ∃ paired, bp = dup :: paired ∧ List.Forall₂ PT paired bd ∧ ∃ dir, PT dup dir)

/-- What holds of the stacks from the third step of a run on. -/
def LateInv (e : Engine) (m : PhysicsModel) (d : Draws) (pt : PhysicsModel.Point)
    (st : GenState) : Prop :=
  2 ≤ st.Steps ∧ st.firstSegment = false ∧
  Stacked (PushedTogether e m d) m.bPackagedBuildFix (secondSegmentCopy e m d)
    st.branchPoints st.branchDirection ∧
  (m.bPackagedBuildFix = true → st.secondSegment = true →
    st.branchPoints = [] ∧
      (pt = PhysicsModel.Point.walkHead → st.bIsBranchFinished = true ∨ st.currentBranch = []))

/-- What holds of the stacks at the point `pt` in the state `st` after `n`
steps of a run. -/
def StackInv (e : Engine) (m : PhysicsModel) (d : Draws) (n : Nat) (pt : PhysicsModel.Point)
    (st : GenState) : Prop :=
  (n = 0 ∧ pt = PhysicsModel.Point.loopHead ∧ st = PhysicsModel.initialState) ∨
  (n = 1 ∧ pt = PhysicsModel.Point.walkHead ∧ st = PhysicsModel.initialState) ∨
  (n = 2 ∧ pt = PhysicsModel.Point.walkHead ∧ st = rootState e m d) ∨
  (3 ≤ n ∧ LateInv e m d pt st)

/-- Draws to evaluate the definitions on examples: as `sampleDraws`, with every
value of `FRand()` equal to `1 / 2`. -/
def c11Draws : Draws := { sampleDraws with frand := fun _ => 1 / 2 }

/-- The default configuration with the voltage `4e7`, so that the root segment
has the diameter `0.4`. -/
def c11Model : PhysicsModel := { PhysicsModel.defaults with Voltage := 40000000 }

/-! ## Definitions used in the statements about the temperature and the patterns -/

/-- The temperature of the spec at the height `h`: the line through the two
calibration points `(SeaLevelHeight, SeaLevelTemp)` and
`(StartHeight, SeaLevelTemp - StartHeight / 1000 * 6.5)`, as the mean of the two
temperatures weighted by the distances of `h` to the other height. -/
def calibrationLine (m : PhysicsModel) (h : ℚ) : ℚ :=
  (m.SeaLevelTemp * (m.StartHeight - h) +
      (m.SeaLevelTemp - m.StartHeight / 1000 * 6.5) * (h - m.SeaLevelHeight)) /
    (m.StartHeight - m.SeaLevelHeight)

/-- The default configuration started at the height `1e-9`. -/
def c21Model : PhysicsModel := { PhysicsModel.defaults with StartHeight := 1 / 1000000000 }

/-- A segment with all fields zero but the height `h` of its start. -/
def segmentAt (h : ℚ) : Segment := { zeroSegment with StartPos := { X := 0, Y := 0, Z := h } }

/-- Two rule descriptions, with the patterns `FF` and the empty string. -/
def c23Rules : List FString := ["FF => X (1.0)".toList, " => Y (1.0)".toList]

/-- The axiom `FF+F`. -/
def c23Axiom : FString := "FF+F".toList

/-! ## Definitions used in the statement about the end of a branch walk -/

namespace PhysicsModel

/-- One iteration of the inner loop (lines 87-201) from the test of its
condition; `none` when the loop ends there, by its condition or by the `break`
of line 109. -/
def walkStep (e : Engine) (m : PhysicsModel) (d : Draws) (constA : ℚ) (st : GenState) :
    Option GenState :=
  if st.bIsBranchFinished then none
  else if st.firstSegment then some (generateRoot e m d constA st)
  else
    match selectParent st with
    | none => none
    | some (parent, st1) => some (generateSegment e m d constA st1 parent)

/-- The state after `k` iterations of the inner loop, when it runs that long. -/
def walkPrefix (e : Engine) (m : PhysicsModel) (d : Draws) (constA : ℚ) :
    Nat → GenState → Option GenState
  | 0, st => some st
  | k + 1, st => (walkPrefix e m d constA k st).bind (walkStep e m d constA)

end PhysicsModel

/-- Every minimum diameter that the inner loop started in the state `st` reads
or computes is positive: that of the parent and that of the new segment, in
every iteration after the root's. -/
def MinDiametersPositive (e : Engine) (m : PhysicsModel) (d : Draws) (constA : ℚ)
    (st : GenState) : Prop :=
  ∀ (k : Nat) (st' : GenState) (p : Segment) (st1 : GenState),
    PhysicsModel.walkPrefix e m d constA k st = some st' →
    st'.bIsBranchFinished = false → st'.firstSegment = false →
    PhysicsModel.selectParent st' = some (p, st1) →
    0 < p.MinDiameter ∧ 0 < (PhysicsModel.nextSegment e m d constA st1 p).MinDiameter

/-- The first parent of the walk that starts in the state `st`: the root segment
when the walk starts with it, the branch point that is popped otherwise. -/
def FirstParent (e : Engine) (m : PhysicsModel) (d : Draws) (constA : ℚ) (st : GenState)
    (p0 : Segment) : Prop :=
  (st.firstSegment = true ∧
    p0 = PhysicsModel.GenerateFirstSegment e m (d.fresh st.Steps) constA (d.frand st.FRands)
      (d.normalLen st.Steps)) ∨
  (st.firstSegment = false ∧ st.branchPoints.getLast? = some p0)

/-- The ratio of diameter to minimum diameter of `b` is `sqrtHalf` times that
of `a`. -/
def RatioStep (sqrtHalf : ℚ) (a b : Segment) : Prop := ratio b = sqrtHalf * ratio a

/-- How the walk that starts in the state `st` and ends in the state `st'` went:
either there was no branch point left and no segment was generated (the
`break` of line 109), or it generated the segments `segs` after its first
parent `p0`, each with `sqrtHalf` times the ratio of the one before, all but
the last with a diameter above the minimum diameter, the last one not, and
at most `n + 1` of them for every `n` with `sqrtHalf ^ (n + 1) * ratio p0 ≤ 1`. -/
def WalkEnded (e : Engine) (m : PhysicsModel) (d : Draws) (constA : ℚ) (st st' : GenState) :
    Prop :=
  (st.firstSegment = false ∧ st.branchPoints = [] ∧ st' = { st with bIsGenerating := false }) ∨
  (∃ p0 segs, FirstParent e m d constA st p0 ∧ st'.bIsBranchFinished = true ∧
    st'.currentBranch = (if st.firstSegment then [p0] else []) ++ segs ∧ segs ≠ [] ∧
    List.Chain' (RatioStep (e.Sqrt (1 / 2))) (p0 :: segs) ∧
    (∀ s ∈ segs.dropLast, s.MinDiameter < s.Diameter) ∧
    (∀ s ∈ segs.getLast?, s.Diameter ≤ s.MinDiameter) ∧
    (∀ n : Nat, e.Sqrt (1 / 2) ^ (n + 1) * ratio p0 ≤ 1 → segs.length ≤ n + 1))

/-- The test of `MinDiametersPositive` at the `k`-th iteration of the inner loop
started in the state `st`, as a computation. -/
def minDiametersCheck (e : Engine) (m : PhysicsModel) (d : Draws) (constA : ℚ) (k : Nat)
    (st : GenState) : Bool :=
  match PhysicsModel.walkPrefix e m d constA k st with
  | none => true
  | some st' =>
    st'.bIsBranchFinished || st'.firstSegment ||
      match PhysicsModel.selectParent st' with
      | none => true
      | some (p, st1) =>
        decide (0 < p.MinDiameter ∧
          0 < (PhysicsModel.nextSegment e m d constA st1 p).MinDiameter)

/-! ## Further examples -/

/-- An engine with a pressure that falls with the height: `Pow` is the power at
the integer part of the exponent (so `Pow(10, -5)` is `1e-5`, and the power of
`5.25588` is taken as the fifth power); the square root of one half is taken
as `7071 / 10000`, and vectors are not rotated. -/
def floorEngine : Engine :=
  { Pow := fun x y => x ^ (y.num / (y.den : Int)),
    Sqrt := fun _ => 7071 / 10000,
    RotateVector := fun _ v => v }

/-- The configuration `c11Model` with the limit of one segment. -/
def limitOneModel : PhysicsModel := { c11Model with MaxSegments := 1 }

/-- The configuration `c11Model` with `bPackagedBuildFix` off. -/
def fixOffModel : PhysicsModel := { c11Model with bPackagedBuildFix := false }

/-- At some point of the run a branch is started by popping a branch point
while no direction is pending: its first segment keeps the heading that the
unset local holds. -/
def UnpairedPop (e : Engine) (m : PhysicsModel) (d : Draws) : Prop :=
  ∃ (k : Nat) (st : GenState) (p : Segment) (st1 : GenState),
    PhysicsModel.ReachedAt e m d k PhysicsModel.Point.walkHead st ∧
    st.bIsBranchFinished = false ∧ st.firstSegment = false ∧ st.currentBranch = [] ∧
    PhysicsModel.selectParent st = some (p, st1) ∧ st.branchDirection = [] ∧
    (PhysicsModel.nextSegment e (PhysicsModel.setup m) d (PhysicsModel.clampA d.constA)
      st1 p).Direction = (d.fresh st.Steps).Direction

/-- The value at `h` of the line through the two points `(hr.1, tr.1)` and
`(hr.2, tr.2)`, as the mean of the two temperatures weighted by the distances
of `h` to the other height. -/
def rangeLine (hr tr : ℚ × ℚ) (h : ℚ) : ℚ :=
  (tr.1 * (hr.2 - h) + tr.2 * (h - hr.1)) / (hr.2 - hr.1)

/-- The default configuration started at the height `1 / 1000`, with the two
ranges as single-precision arithmetic stores them: the temperature
`310 - 6.5e-6` of the second point is stored as `310`. -/
def roundedModel : PhysicsModel :=
  { PhysicsModel.defaults with
    StartHeight := 1 / 1000, heightRange := (0, 1 / 1000), tempRange := (310, 310) }

/-! ## Facts about the string operations -/

theorem findFrom_spec (sub : FString) : ∀ (s : FString) (i : Nat),
    (findFrom sub s i = -1 ∧ ¬ sub <:+: s) ∨
    (∃ k : Nat, findFrom sub s i = ((i + k : Nat) : Int) ∧ sub <+: s.drop k ∧ k ≤ s.length ∧
      ∀ j, j < k → ¬ sub <+: s.drop j) := by
  intro s
  induction s with
  | nil =>
    intro i
    by_cases h : sub = []
    · right
      exact ⟨0, by simp [findFrom, h], by simp [h], by simp, by intro j hj; omega⟩
    · left
      exact ⟨by simp [findFrom, h], by simpa using h⟩
  | cons c cs ih =>
    intro i
    by_cases h : sub <+: c :: cs
    · right
      exact ⟨0, by simp [findFrom, h], by simpa using h, by simp, by intro j hj; omega⟩
    · rcases ih (i + 1) with ⟨h1, h2⟩ | ⟨k, h1, h2, h3, h4⟩
      · left
        refine ⟨by simp [findFrom, h, h1], ?_⟩
        rw [List.infix_cons_iff]
        tauto
      · right
        refine ⟨k + 1, ?_, by simpa using h2, by simpa using h3, ?_⟩
        · simp only [findFrom, h, if_false, h1]
          push_cast
          ring
        · intro j hj
          cases j with
          | zero => simpa using h
          | succ j => simpa using h4 j (by omega)

theorem Find_eq_neg_one_iff (s sub : FString) : s.Find sub = -1 ↔ ¬ sub <:+: s := by
  unfold FString.Find
  rcases findFrom_spec sub s 0 with ⟨h1, h2⟩ | ⟨k, h1, h2, h3, h4⟩
  · simp [h1, h2]
  · have hin : sub <:+: s := by
      obtain ⟨t, ht⟩ := h2
      exact ⟨s.take k, t, by rw [List.append_assoc, ht, List.take_append_drop]⟩
    simp only [h1, hin, not_true_eq_false, iff_false]
    omega

theorem Find_found (s sub : FString) (h : sub <:+: s) :
    ∃ k : Nat, s.Find sub = (k : Int) ∧ sub <+: s.drop k ∧ k ≤ s.length ∧
      ∀ j, j < k → ¬ sub <+: s.drop j := by
  unfold FString.Find
  rcases findFrom_spec sub s 0 with ⟨h1, h2⟩ | ⟨k, h1, h2, h3, h4⟩
  · exact absurd h h2
  · exact ⟨k, by simpa using h1, h2, h3, h4⟩

theorem Mid_zero (s : FString) (k : Nat) (hk : k ≤ s.length) : s.Mid 0 (k : Int) = s.take k := by
  have h0 : (0 : Int) ≤ (k : Int) := by omega
  have hstart : clampInt 0 0 (s.length : Int) = 0 := by
    unfold clampInt
    split_ifs <;> omega
  have hstop : clampInt (k : Int) 0 (s.length : Int) = (k : Int) := by
    unfold clampInt
    split_ifs <;> omega
  simp [FString.Mid, h0, hstart, hstop]

/-! ## The constructor -/

theorem addRule_of_lacking (g : LGrammar) (d : FString)
    (h : ¬ sepArrow <:+: d ∨ ¬ sepOpen <:+: d) : g.addRule d = g := by
  have h2 : ¬ (d.Find sepArrow ≠ -1 ∧ d.Find sepOpen ≠ -1) := by
    rw [Ne, Ne, Find_eq_neg_one_iff, Find_eq_neg_one_iff]
    tauto
  simp only [LGrammar.addRule, h2, if_false]

theorem addRule_of_having (g : LGrammar) (d : FString)
    (h : sepArrow <:+: d ∧ sepOpen <:+: d) :
    g.addRule d = { Condition := g.Condition, RulesArray := g.RulesArray ++ [parsedRule d],
                    TotalProbability := g.TotalProbability + (parsedRule d).Probability } := by
  have h2 : d.Find sepArrow ≠ -1 ∧ d.Find sepOpen ≠ -1 := by
    rw [Ne, Ne, Find_eq_neg_one_iff, Find_eq_neg_one_iff]
    tauto
  simp only [LGrammar.addRule, parsedRule]
  rw [if_pos h2]

theorem foldl_addRule (rules : List FString) : ∀ g : LGrammar,
    rules.foldl LGrammar.addRule g =
      { Condition := g.Condition,
        RulesArray := g.RulesArray ++ (rules.filter hasSeparators).map parsedRule,
        TotalProbability := g.TotalProbability +
          ((rules.filter hasSeparators).map (fun d => (parsedRule d).Probability)).sum } := by
  induction rules with
  | nil => intro g; simp
  | cons d ds ih =>
    intro g
    rw [List.foldl_cons, ih]
    by_cases h : sepArrow <:+: d ∧ sepOpen <:+: d
    · have hb : hasSeparators d = true := by simp [hasSeparators, h]
      rw [addRule_of_having g d h]
      simp [List.filter_cons, hb, add_assoc]
    · have hb : hasSeparators d = false := by simp [hasSeparators, h]
      rw [addRule_of_lacking g d (by tauto)]
      simp [List.filter_cons, hb]

theorem ctor_eq (ax : FString) (rules : List FString) :
    LGrammar.ctor ax rules =
      { Condition := ax,
        RulesArray := (rules.filter hasSeparators).map parsedRule,
        TotalProbability :=
          ((rules.filter hasSeparators).map (fun d => (parsedRule d).Probability)).sum } := by
  unfold LGrammar.ctor
  rw [foldl_addRule]
  simp

/-! ## Rewriting -/

theorem rewriteChar_length (rules : List LRule) (random : ℚ) (c : Char) :
    1 ≤ (LGrammar.rewriteChar rules random c).length := by
  simp only [LGrammar.rewriteChar]
  split_ifs <;> simp [branchToken]

theorem rewriteFrom_length (rules : List LRule) (draws : Nat → ℚ) :
    ∀ (s : FString) (k : Nat), s.length ≤ (LGrammar.rewriteFrom rules draws s k).length := by
  intro s
  induction s with
  | nil => intro k; simp [LGrammar.rewriteFrom]
  | cons c cs ih =>
    intro k
    have h1 := rewriteChar_length rules (draws k) c
    have h2 := ih (k + 1)
    simp only [LGrammar.rewriteFrom, List.length_append, List.length_cons]
    omega

theorem passes_Condition_length (draws : Nat → ℚ) : ∀ (n : Nat) (g : LGrammar) (k : Nat),
    g.Condition.length ≤ (LGrammar.passes draws n g k).1.Condition.length := by
  intro n
  induction n with
  | zero => intro g k; simp [LGrammar.passes]
  | succ n ih =>
    intro g k
    simp only [LGrammar.passes]
    refine le_trans ?_ (ih _ _)
    exact rewriteFrom_length _ _ _ _

theorem rewriteFrom_single (r : LRule) (c : Char) (draws : Nat → ℚ)
    (hc : r.ToReplace = [c]) (hd : ∀ k, draws k ≤ r.Probability) :
    ∀ (s : FString) (k : Nat), LGrammar.rewriteFrom [r] draws s k =
      s.flatMap (fun x => if lowerAscii x = lowerAscii c then branchToken else [x]) := by
  intro s
  induction s with
  | nil => intro k; simp [LGrammar.rewriteFrom]
  | cons x xs ih =>
    intro k
    simp only [LGrammar.rewriteFrom, ih, List.flatMap_cons]
    congr 1
    simp only [LGrammar.rewriteChar, LGrammar.selectRule, hd k, if_true, hc, FString.Equals,
      List.map_cons, List.map_nil, decide_eq_true_eq, List.cons.injEq, and_true]
    by_cases h : lowerAscii x = lowerAscii c
    · simp [h]
    · have h2 : ¬ lowerAscii c = lowerAscii x := fun e => h e.symm
      simp [h, h2]

/-! ## Claims C1 to C6 -/

/-- C1, as stated, fails: with the single rule for `F` of weight 1 and the draw 0,
one pass turns the string `f` into `F[+F]`, although `f` is not an occurrence of
`F`; the claim has it copied unchanged. -/
theorem C1_counterexample :
    (c1Grammar.Iterate (fun _ => 0) 1).Condition = branchToken ∧
    (c1Grammar.Iterate (fun _ => 0) 1).Condition ≠
      c1Grammar.Condition.flatMap (fun x => if x = 'F' then branchToken else [x]) := by
  decide

/-- C1 (amended): for a grammar whose rule list is one rule with the one-character
pattern `c` and weight `w`, and draws in `[0, w]` (so `w` is non-negative), `Iterate(1)`
replaces every character equal to `c` up to ASCII case by `F[+F]` and copies every
other character unchanged; on the string `c` itself the result is exactly
`F[+F]`, whatever the template. -/
theorem C1_single_rule_pass (g : LGrammar) (r : LRule) (c : Char) (draws : Nat → ℚ)
    (hrules : g.RulesArray = [r]) (hc : r.ToReplace = [c])
    (hd : ∀ k, 0 ≤ draws k ∧ draws k ≤ r.Probability) :
    (g.Iterate draws 1).Condition =
        g.Condition.flatMap (fun x => if lowerAscii x = lowerAscii c then branchToken else [x]) ∧
    (g.Condition = [c] → (g.Iterate draws 1).GetResult = branchToken) := by
  have h1 : (g.Iterate draws 1).Condition =
      g.Condition.flatMap (fun x => if lowerAscii x = lowerAscii c then branchToken else [x]) := by
    have : (1 : Int).toNat = 1 := rfl
    simp only [LGrammar.Iterate, this, LGrammar.passes, LGrammar.pass, hrules]
    exact rewriteFrom_single r c draws hc (fun k => (hd k).2) _ _
  refine ⟨h1, ?_⟩
  intro hcond
  rw [LGrammar.GetResult, h1, hcond]
  simp

/-- C1 (amended) at the axiom `F` with one rule for `F` of weight 1 and the
template `anything`: the result is `F[+F]`. -/
theorem C1_single_rule_pass_witness :
    (({ Condition := ['F'],
        RulesArray := [LRule.create ['F'] "anything".toList 1],
        TotalProbability := 1 } : LGrammar).Iterate (fun _ => 1 / 2) 1).GetResult
      = branchToken :=
  (C1_single_rule_pass
    { Condition := ['F'], RulesArray := [LRule.create ['F'] "anything".toList 1],
      TotalProbability := 1 }
    (LRule.create ['F'] "anything".toList 1) 'F' (fun _ => 1 / 2) rfl rfl
    (by intro k; simp [LRule.create]; norm_num)).2 rfl

/-- C2: for every axiom, rule descriptions, iteration count and draws, the
string returned by `GetResult` after `Iterate(n)` is at least as long as the
axiom; a pass never shortens the string, since it writes for every character
either the character itself or the 5-character literal. -/
theorem C2_result_length_ge_axiom (ax : FString) (rules : List FString) (n : Int)
    (draws : Nat → ℚ) :
    ax.length ≤ ((LGrammar.ctor ax rules).Iterate draws n).GetResult.length ∧
    (∀ (g : LGrammar) (k : Nat), g.Condition.length ≤ (g.pass draws k).1.Condition.length) ∧
    (∀ (rs : List LRule) (random : ℚ) (c : Char),
      LGrammar.rewriteChar rs random c = [c] ∨
      (LGrammar.rewriteChar rs random c = branchToken ∧ branchToken.length = 5)) := by
  refine ⟨?_, ?_, ?_⟩
  · have h := passes_Condition_length draws n.toNat (LGrammar.ctor ax rules) 0
    rw [ctor_eq] at h
    rw [ctor_eq]
    exact h
  · intro g k
    exact rewriteFrom_length _ _ _ _
  · intro rs random c
    simp only [LGrammar.rewriteChar]
    split_ifs
    · right; exact ⟨rfl, rfl⟩
    · left; rfl

/-- C3: for every axiom and rule descriptions, `Iterate(0)` leaves the grammar
unchanged, `GetResult` then returns the axiom, and `LSystem::Build` with 0
iterations followed by `LSystem::GetResult` returns the axiom. -/
theorem C3_zero_iterations (ax : FString) (rules : List FString) (draws : Nat → ℚ)
    (self : LSystem) :
    (LGrammar.ctor ax rules).Iterate draws 0 = LGrammar.ctor ax rules ∧
    ((LGrammar.ctor ax rules).Iterate draws 0).GetResult = ax ∧
    (self.Build ax rules 0 draws).GetResult = ax := by
  have h0 : ∀ g : LGrammar, g.Iterate draws 0 = g := by
    intro g
    simp [LGrammar.Iterate, LGrammar.passes]
  refine ⟨h0 _, ?_, ?_⟩
  · rw [h0, ctor_eq]
    rfl
  · simp only [LSystem.GetResult, LSystem.Build]
    rw [h0, ctor_eq]
    rfl

/-- C4 (the code at the failing input): the description `F => F[+F] (1.0)` gets
the weight 0, not 1.0, since the weight text is taken from three characters
after the start of the separator ` (`, which skips the first character of the
field; `X => Y (0.5)` gets 0.5 only because the skipped character is a `0`. -/
theorem C4_weight_field_loses_first_char :
    (c4Desc.Mid (c4Desc.Find sepOpen + 3) (c4Desc.Find sepClose) = ".0)".toList) ∧
    ((LGrammar.ctor ['F'] [c4Desc]).RulesArray.map LRule.Probability = [0]) ∧
    ((LGrammar.ctor ['F'] [c4Desc]).TotalProbability = 0) ∧
    ((LGrammar.ctor ['F'] [exampleDesc]).RulesArray.map LRule.Probability = [1 / 2]) := by
  have hm : c4Desc.Mid (c4Desc.Find sepOpen + 3) (c4Desc.Find sepClose) = ".0)".toList := by
    decide
  have hm2 : exampleDesc.Mid (exampleDesc.Find sepOpen + 3) (exampleDesc.Find sepClose)
      = ".5)".toList := by decide
  have hf : List.filter hasSeparators [c4Desc] = [c4Desc] := by decide
  have hf2 : List.filter hasSeparators [exampleDesc] = [exampleDesc] := by decide
  have ha : Atof ".0)".toList = 0 := by
    have hp : atofParts ".0)".toList = some (false, [], ['0'], 0) := by decide
    have hd : digitsVal ([] ++ ['0']) = 0 := by decide
    simp only [Atof, hp, hd]
    norm_num
  have ha2 : Atof ".5)".toList = 1 / 2 := by
    have hp : atofParts ".5)".toList = some (false, [], ['5'], 0) := by decide
    have hd : digitsVal ([] ++ ['5']) = 5 := by decide
    simp only [Atof, hp, hd]
    norm_num
  refine ⟨hm, ?_, ?_, ?_⟩
  · rw [ctor_eq]
    simp only [hf, List.map_cons, List.map_nil, parsedRule, LRule.create, hm, ha]
  · rw [ctor_eq]
    simp only [hf, List.map_cons, List.map_nil, parsedRule, LRule.create, hm, ha]
    simp
  · rw [ctor_eq]
    simp only [hf2, List.map_cons, List.map_nil, parsedRule, LRule.create, hm2, ha2]

/-- C5: every description that has both separators adds exactly one rule, in
the order of the descriptions, and the pattern symbol of that rule is the text
before the first occurrence of the separator ` => `; the pattern of
`X => Y (0.5)` is `X`. -/
theorem C5_pattern_before_first_arrow (ax : FString) (rules : List FString) :
    List.Forall₂
      (fun (r : LRule) (d : FString) =>
        (∃ rest, d = r.ToReplace ++ sepArrow ++ rest) ∧
        ∀ p rest, d = p ++ sepArrow ++ rest → r.ToReplace.length ≤ p.length)
      (LGrammar.ctor ax rules).RulesArray
      (rules.filter (fun d => decide (sepArrow <:+: d ∧ sepOpen <:+: d))) ∧
    (LGrammar.ctor ax [exampleDesc]).RulesArray.map LRule.ToReplace = [['X']] := by
  constructor
  · rw [ctor_eq]
    show List.Forall₂ _ ((rules.filter hasSeparators).map parsedRule) (rules.filter hasSeparators)
    rw [List.forall₂_map_left_iff, List.forall₂_same]
    intro d hd
    have hs : sepArrow <:+: d ∧ sepOpen <:+: d := by
      have := (List.mem_filter.mp hd).2
      simpa [hasSeparators] using this
    obtain ⟨k, hk1, hk2, hk3, hk4⟩ := Find_found d sepArrow hs.1
    have hpat : (parsedRule d).ToReplace = d.take k := by
      simp only [parsedRule, LRule.create, hk1]
      exact Mid_zero d k hk3
    rw [hpat]
    constructor
    · obtain ⟨t, ht⟩ := hk2
      exact ⟨t, by rw [List.append_assoc, ht, List.take_append_drop]⟩
    · intro p rest hp
      rw [List.length_take]
      by_contra hlt
      have hlt2 : p.length < k := by omega
      apply hk4 p.length hlt2
      rw [hp]
      simp
  · rw [ctor_eq]
    have hf : List.filter hasSeparators [exampleDesc] = [exampleDesc] := by decide
    have hm : exampleDesc.Mid 0 (exampleDesc.Find sepArrow) = ['X'] := by decide
    simp only [hf, List.map_cons, List.map_nil, parsedRule, LRule.create, hm]

/-- C6: a description that lacks ` => ` or lacks ` (` adds no rule and leaves the
total weight unchanged; the grammar built from a list of descriptions is the one
built from the list without such descriptions; and the total weight is the sum
of the weights of the rules added. -/
theorem C6_malformed_descriptions_skipped (ax : FString) (rules : List FString) :
    (∀ (g : LGrammar) (d : FString), (¬ sepArrow <:+: d ∨ ¬ sepOpen <:+: d) → g.addRule d = g) ∧
    LGrammar.ctor ax rules =
      LGrammar.ctor ax (rules.filter (fun d => decide (sepArrow <:+: d ∧ sepOpen <:+: d))) ∧
    (LGrammar.ctor ax rules).TotalProbability =
      ((LGrammar.ctor ax rules).RulesArray.map LRule.Probability).sum := by
  refine ⟨addRule_of_lacking, ?_, ?_⟩
  · show _ = LGrammar.ctor ax (rules.filter hasSeparators)
    rw [ctor_eq, ctor_eq, List.filter_filter]
    simp
  · rw [ctor_eq]
    simp [List.map_map, Function.comp_def]

open PhysicsModel

/-! ## Facts about the steps of the generator -/

/-- The outer loop starts with an empty stored list: lines 40-43 have emptied
it. -/
theorem startState_setup (m : PhysicsModel) : startState (setup m) = initialState := rfl

theorem BranchLogic_frame (e : Engine) (m : PhysicsModel) (d : Draws) (st : GenState)
    (segment parent : Segment) (a b dia : ℚ) :
    (BranchLogic e m d st segment parent a b dia).LightningSegments = st.LightningSegments ∧
    (BranchLogic e m d st segment parent a b dia).Walks = st.Walks ∧
    (BranchLogic e m d st segment parent a b dia).currentBranch = st.currentBranch ∧
    (BranchLogic e m d st segment parent a b dia).firstSegment = st.firstSegment ∧
    (BranchLogic e m d st segment parent a b dia).bIsGenerating = st.bIsGenerating ∧
    (BranchLogic e m d st segment parent a b dia).Steps = st.Steps := by
  simp only [BranchLogic]
  repeat' split
  all_goals simp

theorem BranchLogic_finished (e : Engine) (m : PhysicsModel) (d : Draws) (st : GenState)
    (segment parent : Segment) (a b dia : ℚ) :
    (BranchLogic e m d st segment parent a b dia).bIsBranchFinished =
      (st.bIsBranchFinished || !decide (segment.MinDiameter < dia)) := by
  simp only [BranchLogic]
  repeat' split
  all_goals simp [*]

theorem withExtent_fields (m : PhysicsModel) (sample dia : ℚ) (s : Segment) :
    (withExtent m sample dia s).StartPos = s.StartPos ∧
    (withExtent m sample dia s).MinDiameter = s.MinDiameter ∧
    (withExtent m sample dia s).Diameter = dia ∧
    (withExtent m sample dia s).Direction = s.Direction ∧
    (withExtent m sample dia s).Length = sample * dia * m.Scale ∧
    (withExtent m sample dia s).EndPos =
      (withExtent m sample dia s).StartPos.add
        ((withExtent m sample dia s).Direction.scale (withExtent m sample dia s).Length) := by
  simp [withExtent, CalculateLength]

theorem withAmbient_StartPos (e : Engine) (m : PhysicsModel) (c : ℚ) (s : Segment) :
    (withAmbient e m c s).StartPos = s.StartPos := by
  simp [withAmbient]

theorem headedSegment_fields (e : Engine) (m : PhysicsModel) (d : Draws) (c : ℚ)
    (st : GenState) (parent : Segment) :
    (headedSegment e m d c st parent).StartPos = parent.EndPos ∧
    (headedSegment e m d c st parent).MinDiameter =
      (startSegment e m d c st parent).MinDiameter := by
  simp only [headedSegment]
  repeat' split
  all_goals simp [startSegment, withAmbient]

theorem nextSegment_fields (e : Engine) (m : PhysicsModel) (d : Draws) (c : ℚ)
    (st : GenState) (parent : Segment) :
    (nextSegment e m d c st parent).StartPos = parent.EndPos ∧
    (nextSegment e m d c st parent).MinDiameter = (startSegment e m d c st parent).MinDiameter ∧
    (nextSegment e m d c st parent).Diameter =
      e.Sqrt (1 / 2) * (parent.Diameter / parent.MinDiameter) *
        (startSegment e m d c st parent).MinDiameter ∧
    (nextSegment e m d c st parent).EndPos =
      (nextSegment e m d c st parent).StartPos.add
        ((nextSegment e m d c st parent).Direction.scale (nextSegment e m d c st parent).Length) := by
  have h := headedSegment_fields e m d c st parent
  have w := withExtent_fields m (d.normalLen st.Steps)
    (CalculateDiameter e (startSegment e m d c st parent) parent) (headedSegment e m d c st parent)
  refine ⟨?_, ?_, ?_, ?_⟩
  · rw [nextSegment, w.1, h.1]
  · rw [nextSegment, w.2.1, h.2]
  · rw [nextSegment, w.2.2.1, CalculateDiameter]
  · exact w.2.2.2.2.2

theorem generateSegment_fields (e : Engine) (m : PhysicsModel) (d : Draws) (c : ℚ)
    (st : GenState) (parent : Segment) :
    (generateSegment e m d c st parent).currentBranch =
      st.currentBranch ++ [nextSegment e m d c st parent] ∧
    (generateSegment e m d c st parent).bIsBranchFinished =
      (st.bIsBranchFinished ||
        !decide ((nextSegment e m d c st parent).MinDiameter <
          (nextSegment e m d c st parent).Diameter)) ∧
    (generateSegment e m d c st parent).LightningSegments = st.LightningSegments ∧
    (generateSegment e m d c st parent).Walks = st.Walks ∧
    (generateSegment e m d c st parent).firstSegment = st.firstSegment ∧
    (generateSegment e m d c st parent).bIsGenerating = st.bIsGenerating := by
  have n := nextSegment_fields e m d c st parent
  have h := headedSegment_fields e m d c st parent
  simp only [generateSegment, BranchLogic_frame, BranchLogic_finished, n.2.1, n.2.2.1, h.2,
    CalculateDiameter]
  simp

theorem selectParent_some (st st1 : GenState) (p : Segment)
    (h : selectParent st = some (p, st1)) :
    (st.currentBranch.getLast? = some p ∧ st1 = st) ∨
    (st.currentBranch = [] ∧ st.branchPoints.getLast? = some p ∧
      st1 = { st with branchPoints := st.branchPoints.dropLast }) := by
  unfold selectParent at h
  cases hc : st.currentBranch.getLast? with
  | some q =>
    rw [hc] at h
    simp only [Option.some.injEq, Prod.mk.injEq] at h
    left
    exact ⟨by rw [h.1], h.2.symm⟩
  | none =>
    rw [hc] at h
    right
    have hnil : st.currentBranch = [] := List.getLast?_eq_none_iff.mp hc
    cases hb : st.branchPoints.getLast? with
    | some q =>
      rw [hb] at h
      simp only [Option.some.injEq, Prod.mk.injEq] at h
      exact ⟨hnil, by rw [h.1], h.2.symm⟩
    | none =>
      rw [hb] at h
      simp at h

theorem selectParent_none (st : GenState) (h : selectParent st = none) :
    st.currentBranch = [] ∧ st.branchPoints = [] := by
  unfold selectParent at h
  cases hc : st.currentBranch.getLast? with
  | some q => rw [hc] at h; simp at h
  | none =>
    rw [hc] at h
    cases hb : st.branchPoints.getLast? with
    | some q => rw [hb] at h; simp at h
    | none =>
      exact ⟨List.getLast?_eq_none_iff.mp hc, List.getLast?_eq_none_iff.mp hb⟩

theorem selectParent_of_getLast (st : GenState) (p : Segment)
    (h : st.currentBranch.getLast? = some p) : selectParent st = some (p, st) := by
  unfold selectParent
  rw [h]

/-- The rule for the inner loop: a property `P` kept by each iteration gives
`Q` at the exit of the loop, be it by the loop condition or by the `break`. -/
theorem branchWalk_rule (e : Engine) (m : PhysicsModel) (d : Draws) (c : ℚ)
    (P Q : GenState → Prop)
    (hdone : ∀ st, P st → st.bIsBranchFinished = true → Q st)
    (hbreak : ∀ st, P st → st.bIsBranchFinished = false → st.firstSegment = false →
      selectParent st = none → Q { st with bIsGenerating := false })
    (hroot : ∀ st, P st → st.bIsBranchFinished = false → st.firstSegment = true →
      P (generateRoot e m d c st))
    (hseg : ∀ st p st1, P st → st.bIsBranchFinished = false → st.firstSegment = false →
      selectParent st = some (p, st1) → P (generateSegment e m d c st1 p)) :
    ∀ (fuel : Nat) (st st' : GenState), P st → branchWalk e m d c fuel st = some st' → Q st' := by
  intro fuel
  induction fuel with
  | zero => intro st st' _ h; simp [branchWalk] at h
  | succ n ih =>
    intro st st' hP h
    rw [branchWalk] at h
    by_cases hf : st.bIsBranchFinished = true
    · rw [if_pos hf] at h
      cases h
      exact hdone st hP hf
    · rw [if_neg hf] at h
      have hf2 : st.bIsBranchFinished = false := by simpa using hf
      by_cases h1 : st.firstSegment = true
      · rw [if_pos h1] at h
        exact ih _ _ (hroot st hP hf2 h1) h
      · rw [if_neg h1] at h
        have h12 : st.firstSegment = false := by simpa using h1
        cases hs : selectParent st with
        | none =>
          rw [hs] at h
          cases h
          exact hbreak st hP hf2 h12 hs
        | some ps =>
          obtain ⟨p, st1⟩ := ps
          rw [hs] at h
          exact ih _ _ (hseg st p st1 hP hf2 h12 hs) h

/-- The rule for the outer loop: `P` holds at the head of the loop, `R` after a
branch has been walked and appended, `Q` at the return, be it by the loop
condition or by the segment limit. -/
theorem generateLoop_rule (e : Engine) (m : PhysicsModel) (d : Draws) (c : ℚ)
    (P R Q : GenState → Prop)
    (hexit : ∀ st, P st → st.bIsGenerating = false → Q st)
    (hwalk : ∀ (fuel : Nat) (st st1 : GenState), P st → st.bIsGenerating = true →
      branchWalk e m d c fuel { st with currentBranch := [], bIsBranchFinished := false }
        = some st1 → R (appendBranch st1))
    (htrim : ∀ st, R st → m.bUseSegmentLimit = true →
      m.MaxSegments ≤ (st.LightningSegments.length : Int) → 0 ≤ m.MaxSegments →
      Q { st with bIsGenerating := false,
                  LightningSegments := st.LightningSegments.take m.MaxSegments.toNat })
    (hcont : ∀ st, R st →
      ¬ (m.bUseSegmentLimit = true ∧ m.MaxSegments ≤ (st.LightningSegments.length : Int)) →
      P st) :
    ∀ (fuel : Nat) (st st' : GenState), P st → generateLoop e m d c fuel st = some st' → Q st' := by
  intro fuel
  induction fuel with
  | zero => intro st st' _ h; simp [generateLoop] at h
  | succ n ih =>
    intro st st' hP h
    rw [generateLoop] at h
    by_cases hg : st.bIsGenerating = true
    · rw [if_pos hg] at h
      cases hw : branchWalk e m d c (n + 1)
          { st with currentBranch := [], bIsBranchFinished := false } with
      | none => rw [hw] at h; simp at h
      | some st1 =>
        rw [hw] at h
        simp only at h
        have hR := hwalk _ _ _ hP hg hw
        by_cases h1 : m.bUseSegmentLimit = true ∧
            m.MaxSegments ≤ ((appendBranch st1).LightningSegments.length : Int)
        · rw [if_pos h1] at h
          by_cases h2 : m.MaxSegments < 0
          · rw [if_pos h2] at h
            simp at h
          · rw [if_neg h2] at h
            cases h
            exact htrim _ hR h1.1 h1.2 (by omega)
        · rw [if_neg h1] at h
          exact ih _ _ (hcont _ hR h1) h
    · rw [if_neg hg] at h
      cases h
      exact hexit st hP (by simpa using hg)

theorem ViableButLast_append_singleton (w : List Segment) (s : Segment)
    (h1 : ViableButLast w) (h2 : ∀ x ∈ w.getLast?, x.MinDiameter < x.Diameter) :
    ViableButLast (w ++ [s]) := by
  intro x hx
  rw [List.dropLast_concat] at hx
  cases hl : w.getLast? with
  | none =>
    rw [List.getLast?_eq_none_iff] at hl
    subst hl
    simp at hx
  | some a =>
    have hw := List.dropLast_append_getLast? a (by rw [hl]; rfl)
    rw [← hw, List.mem_append] at hx
    rcases hx with hx | hx
    · exact h1 x hx
    · simp only [List.mem_singleton] at hx
      subst hx
      exact h2 x (by rw [hl]; rfl)

theorem Connected_append_singleton (w : List Segment) (s : Segment)
    (h1 : Connected w) (h2 : ∀ x ∈ w.getLast?, s.StartPos = x.EndPos) :
    Connected (w ++ [s]) := by
  unfold Connected at *
  rw [List.chain'_append]
  refine ⟨h1, List.chain'_singleton s, ?_⟩
  intro x hx y hy
  simp only [List.head?_cons, Option.mem_def, Option.some.injEq] at hy
  subst hy
  exact h2 x hx

theorem WalkInv_root (e : Engine) (m : PhysicsModel) (d : Draws) (c : ℚ) (k : Nat)
    (st0 st : GenState) (hP : WalkInv k st0 st) (h1 : st.firstSegment = true) :
    WalkInv k st0 (generateRoot e m d c st) := by
  obtain ⟨hL, hW, hF, -, -, -, -⟩ := hP
  obtain ⟨hcb, hk, hfin⟩ := hF h1
  subst hk
  refine ⟨hL, hW, ?_, ?_, ?_, ?_, ?_⟩
  · intro h; simp [generateRoot] at h
  · intro _; simp [generateRoot, hcb]
  · simp [generateRoot, hcb, Connected]
  · simp [generateRoot, hcb, ViableButLast]
  · intro _ s hs; simp [generateRoot, hcb] at hs

theorem WalkInv_segment (e : Engine) (m : PhysicsModel) (d : Draws) (c : ℚ) (k : Nat)
    (st0 st st1 : GenState) (p : Segment) (hP : WalkInv k st0 st)
    (hfin : st.bIsBranchFinished = false) (h1 : st.firstSegment = false)
    (hs : selectParent st = some (p, st1)) :
    WalkInv k st0 (generateSegment e m d c st1 p) := by
  obtain ⟨hL, hW, -, hK, hC, hV, hlast⟩ := hP
  have hk := hK h1
  have g := generateSegment_fields e m d c st1 p
  have n := nextSegment_fields e m d c st1 p
  have hst1 : st1.currentBranch = st.currentBranch ∧ st1.LightningSegments = st.LightningSegments ∧
      st1.Walks = st.Walks ∧ st1.firstSegment = st.firstSegment ∧
      st1.bIsBranchFinished = st.bIsBranchFinished ∧
      (∀ x ∈ st.currentBranch.getLast?, x = p) := by
    rcases selectParent_some st st1 p hs with ⟨h, rfl⟩ | ⟨h, -, rfl⟩
    · refine ⟨rfl, rfl, rfl, rfl, rfl, ?_⟩
      intro x hx
      rw [h] at hx
      simpa using hx.symm
    · refine ⟨rfl, rfl, rfl, rfl, rfl, ?_⟩
      intro x hx
      rw [h] at hx
      simp at hx
  obtain ⟨e1, e2, e3, e4, e5, e6⟩ := hst1
  have hdrop : (st.currentBranch ++ [nextSegment e m d c st1 p]).drop k =
      st.currentBranch.drop k ++ [nextSegment e m d c st1 p] :=
    List.drop_append_of_le_length hk
  refine ⟨?_, ?_, ?_, ?_, ?_, ?_, ?_⟩
  · rw [g.2.2.1, e2, hL]
  · rw [g.2.2.2.1, e3, hW]
  · intro h; rw [g.2.2.2.2.1, e4, h1] at h; simp at h
  · intro _; rw [g.1, e1, List.length_append]; omega
  · rw [g.1, e1]
    apply Connected_append_singleton _ _ hC
    intro x hx
    rw [n.1, e6 x hx]
  · rw [g.1, e1, hdrop]
    exact ViableButLast_append_singleton _ _ hV (hlast hfin)
  · intro hf s hs2
    rw [g.2.1, e5, hfin] at hf
    rw [g.1, e1, hdrop] at hs2
    rw [List.getLast?_concat] at hs2
    simp only [Option.mem_def, Option.some.injEq] at hs2
    subst hs2
    simpa using hf

theorem branchWalk_post (e : Engine) (m : PhysicsModel) (d : Draws) (c : ℚ) (k : Nat)
    (fuel : Nat) (st0 st' : GenState) (hP : WalkInv k st0 st0)
    (h : branchWalk e m d c fuel st0 = some st') : WalkPost k st0 st' := by
  refine branchWalk_rule e m d c (WalkInv k st0) (WalkPost k st0) ?_ ?_ ?_ ?_ fuel st0 st' hP h
  · intro st ⟨hL, hW, hF, hK, hC, hV, _⟩ hfin
    have h1 : st.firstSegment = false := by
      by_contra hne
      have := (hF (by simpa using hne)).2.2
      rw [hfin] at this
      simp at this
    exact ⟨hL, hW, h1, hK h1, hC, hV⟩
  · intro st ⟨hL, hW, _, hK, hC, hV, _⟩ _ h1 _
    exact ⟨hL, hW, h1, hK h1, hC, hV⟩
  · intro st hP _ h1
    exact WalkInv_root e m d c k st0 st hP h1
  · intro st p st1 hP hfin h1 hs
    exact WalkInv_segment e m d c k st0 st st1 p hP hfin h1 hs

theorem LoopInv_walk (e : Engine) (m : PhysicsModel) (d : Draws) (c : ℚ) (fuel : Nat)
    (st st1 : GenState) (hP : LoopInv st)
    (h : branchWalk e m d c fuel { st with currentBranch := [], bIsBranchFinished := false }
      = some st1) : LoopInv (appendBranch st1) := by
  obtain ⟨hF, hN, hC, hV, hL⟩ := hP
  by_cases h1 : st.firstSegment = true
  · have hw0 := hF h1
    have hinv : WalkInv 1 { st with currentBranch := [], bIsBranchFinished := false }
        { st with currentBranch := [], bIsBranchFinished := false } :=
      ⟨rfl, rfl, fun _ => ⟨rfl, rfl, rfl⟩, fun hh => by simp [h1] at hh,
        by simp [Connected], by simp [ViableButLast], by intro _ s hs; simp at hs⟩
    obtain ⟨pL, pW, pF, pK, pC, pV⟩ := branchWalk_post e m d c 1 fuel _ st1 hinv h
    simp only at pL pW
    have hne : st1.currentBranch ≠ [] := by
      intro hnil
      rw [hnil] at pK
      simp at pK
    have hemp : st1.currentBranch.isEmpty = false := by
      cases hcb : st1.currentBranch with
      | nil => exact absurd hcb hne
      | cons a l => rfl
    refine ⟨?_, ?_, ?_, ?_, ?_⟩
    · intro hh; simp [appendBranch, pF] at hh
    · intro _; simp [appendBranch, hemp, pW, hw0]
    · intro w hw
      simp only [appendBranch, hemp, pW, hw0, List.nil_append, List.mem_singleton,
        Bool.false_eq_true, if_false] at hw
      subst hw
      exact pC
    · simp only [appendBranch, hemp, pW, hw0, List.nil_append, WalksViable, Bool.false_eq_true,
        if_false]
      refine ⟨?_, by simp⟩
      rw [← List.drop_one]
      exact pV
    · simp [appendBranch, hemp, pW, pL, hL, hw0]
  · have h1f : st.firstSegment = false := by simpa using h1
    have hinv : WalkInv 0 { st with currentBranch := [], bIsBranchFinished := false }
        { st with currentBranch := [], bIsBranchFinished := false } :=
      ⟨rfl, rfl, fun hh => by simp [h1f] at hh, fun _ => by simp,
        by simp [Connected], by simp [ViableButLast], by intro _ s hs; simp at hs⟩
    obtain ⟨pL, pW, pF, -, pC, pV⟩ := branchWalk_post e m d c 0 fuel _ st1 hinv h
    simp only at pL pW
    rw [List.drop_zero] at pV
    have hne := hN h1f
    obtain ⟨w0, rest, hws⟩ := List.exists_cons_of_ne_nil hne
    cases hcb : st1.currentBranch with
    | nil =>
      refine ⟨?_, ?_, ?_, ?_, ?_⟩
      · intro hh; simp [appendBranch, pF] at hh
      · intro _; simpa [appendBranch, hcb, pW] using hne
      · intro w hw
        simp only [appendBranch, hcb, pW, List.isEmpty_nil, if_true] at hw
        exact hC w hw
      · simpa [appendBranch, hcb, pW] using hV
      · simp [appendBranch, hcb, pW, pL, hL]
    | cons a l =>
      refine ⟨?_, ?_, ?_, ?_, ?_⟩
      · intro hh; simp [appendBranch, pF] at hh
      · intro _; simp [appendBranch, hcb]
      · intro w hw
        simp only [appendBranch, hcb, pW, List.isEmpty_cons, Bool.false_eq_true, if_false,
          List.mem_append, List.mem_singleton] at hw
        rcases hw with hw | hw
        · exact hC w hw
        · subst hw
          rw [← hcb]
          exact pC
      · rw [hws] at hV
        simp only [appendBranch, hcb, pW, hws, List.isEmpty_cons, Bool.false_eq_true, if_false,
          List.cons_append, WalksViable]
        refine ⟨hV.1, ?_⟩
        intro w hw
        rw [List.mem_append, List.mem_singleton] at hw
        rcases hw with hw | hw
        · exact hV.2 w hw
        · subst hw
          rw [← hcb]
          exact pV
      · simp [appendBranch, hcb, pW, pL, hL]

theorem generateLoop_post (e : Engine) (m : PhysicsModel) (d : Draws) (c : ℚ) (fuel : Nat)
    (st st' : GenState) (hP : LoopInv st) (h : generateLoop e m d c fuel st = some st') :
    LoopPost st' := by
  refine generateLoop_rule e m d c LoopInv LoopInv LoopPost ?_ ?_ ?_ ?_ fuel st st' hP h
  · intro st ⟨_, _, hC, hV, hL⟩ _
    exact ⟨hC, hV, by rw [hL]⟩
  · intro fuel st st1 hP _ hw
    exact LoopInv_walk e m d c fuel st st1 hP hw
  · intro st ⟨_, _, hC, hV, hL⟩ _ _ _
    refine ⟨hC, hV, ?_⟩
    show List.take _ st.LightningSegments <+: st.Walks.flatten
    rw [hL]
    exact List.take_prefix _ _
  · intro st hR _
    exact hR

theorem LoopInv_initialState : LoopInv initialState :=
  ⟨fun _ => rfl, fun h => by simp [initialState] at h, by simp [initialState],
    by simp [initialState, WalksViable], by simp [initialState]⟩

/-- C9: in every run of `GenerateSegments`, within each branch walk every
segment after the first starts at the end position of the segment generated
just before it in that walk; the stored list is a prefix of the walks laid end
to end, so consecutive segments of a walk are connected in the result. -/
theorem C9_walk_segments_connected (e : Engine) (m : PhysicsModel) (d : Draws) (fuel : Nat)
    (st : GenState) (h : GenerateSegmentsTrace e m d fuel = some st) :
    (∀ w ∈ st.Walks, List.Chain' (fun a b : Segment => b.StartPos = a.EndPos) w) ∧
    st.LightningSegments <+: st.Walks.flatten ∧
    GenerateSegments e m d fuel =
      some { setup m with LightningSegments := st.LightningSegments } := by
  have hp := generateLoop_post e (setup m) d (clampA d.constA) fuel initialState st
    LoopInv_initialState h
  exact ⟨hp.1, hp.2.2, by simp [GenerateSegments, h]⟩

/-- C10 (amended): in every run of `GenerateSegments`, every segment that is
followed by another segment of its branch walk, the root segment (the first
segment of the first walk) left aside, has a diameter strictly above its own
minimum diameter. -/
theorem C10_non_terminal_viable (e : Engine) (m : PhysicsModel) (d : Draws) (fuel : Nat)
    (st : GenState) (h : GenerateSegmentsTrace e m d fuel = some st) :
    (∀ w0 rest, st.Walks = w0 :: rest →
      (∀ s ∈ w0.tail.dropLast, s.MinDiameter < s.Diameter) ∧
      (∀ w ∈ rest, ∀ s ∈ w.dropLast, s.MinDiameter < s.Diameter)) ∧
    st.LightningSegments <+: st.Walks.flatten := by
  have hp := generateLoop_post e (setup m) d (clampA d.constA) fuel initialState st
    LoopInv_initialState h
  refine ⟨?_, hp.2.2⟩
  intro w0 rest hw
  have hv := hp.2.1
  rw [hw] at hv
  exact hv

theorem branchWalk_LightningSegments (e : Engine) (m : PhysicsModel) (d : Draws) (c : ℚ)
    (fuel : Nat) (st st' : GenState) (h : branchWalk e m d c fuel st = some st') :
    st'.LightningSegments = st.LightningSegments := by
  refine branchWalk_rule e m d c (fun s => s.LightningSegments = st.LightningSegments)
    (fun s => s.LightningSegments = st.LightningSegments) ?_ ?_ ?_ ?_ fuel st st' rfl h
  · intro s hs _; exact hs
  · intro s hs _ _ _; exact hs
  · intro s hs _ _; exact hs
  · intro s p s1 hs _ _ hsel
    rw [(generateSegment_fields e m d c s1 p).2.2.1]
    rcases selectParent_some s s1 p hsel with ⟨_, rfl⟩ | ⟨_, _, rfl⟩
    · exact hs
    · exact hs

theorem branchWalk_congr (e : Engine) (m1 m2 : PhysicsModel) (d : Draws) (c : ℚ)
    (hr : generateRoot e m1 d c = generateRoot e m2 d c)
    (hs : generateSegment e m1 d c = generateSegment e m2 d c) :
    ∀ (fuel : Nat) (st : GenState), branchWalk e m1 d c fuel st = branchWalk e m2 d c fuel st := by
  intro fuel
  induction fuel with
  | zero => intro st; rfl
  | succ n ih =>
    intro st
    rw [branchWalk, branchWalk, hr, hs]
    simp only [ih]

theorem generateLoop_unlimited_prefix (e : Engine) (m : PhysicsModel) (d : Draws) (c : ℚ)
    (hm : m.bUseSegmentLimit = false) (fuel : Nat) (st st' : GenState)
    (h : generateLoop e m d c fuel st = some st') :
    st.LightningSegments <+: st'.LightningSegments := by
  refine generateLoop_rule e m d c (fun s => st.LightningSegments <+: s.LightningSegments)
    (fun s => st.LightningSegments <+: s.LightningSegments)
    (fun s => st.LightningSegments <+: s.LightningSegments) ?_ ?_ ?_ ?_ fuel st st'
    (List.prefix_refl _) h
  · intro s hs _; exact hs
  · intro f s s1 hs _ hw
    have hL := branchWalk_LightningSegments e m d c f _ s1 hw
    simp only at hL
    show st.LightningSegments <+: s1.LightningSegments ++ s1.currentBranch
    rw [hL]
    exact hs.trans (List.prefix_append _ _)
  · intro s _ hlim
    rw [hm] at hlim
    simp at hlim
  · intro s hs _; exact hs

theorem generateLoop_limited_length (e : Engine) (m : PhysicsModel) (d : Draws) (c : ℚ)
    (N : Nat) (hm : m.bUseSegmentLimit = true) (hN : m.MaxSegments = (N : Int))
    (fuel : Nat) (st st' : GenState)
    (hst : st.bIsGenerating = true ∨ st.LightningSegments.length < N)
    (h : generateLoop e m d c fuel st = some st') :
    st'.LightningSegments.length ≤ N := by
  refine generateLoop_rule e m d c
    (fun s => s.bIsGenerating = true ∨ s.LightningSegments.length < N) (fun _ => True)
    (fun s => s.LightningSegments.length ≤ N) ?_ ?_ ?_ ?_ fuel st st' hst h
  · intro s hs hg
    rcases hs with hs | hs
    · rw [hg] at hs; simp at hs
    · omega
  · intro _ _ _ _ _ _; trivial
  · intro s _ _ _ _
    show (List.take m.MaxSegments.toNat s.LightningSegments).length ≤ N
    rw [hN, List.length_take]
    simp
  · intro s _ hc
    right
    rw [hm, hN] at hc
    simp only [true_and, Nat.cast_le, not_le] at hc
    exact hc

theorem generateLoop_limit_take (e : Engine) (mU mL : PhysicsModel) (d : Draws) (c : ℚ)
    (N : Nat) (hU : mU.bUseSegmentLimit = false) (hL1 : mL.bUseSegmentLimit = true)
    (hL2 : mL.MaxSegments = (N : Int))
    (hw : ∀ fuel st, branchWalk e mL d c fuel st = branchWalk e mU d c fuel st) :
    ∀ (fuel : Nat) (st stU : GenState),
      (st.bIsGenerating = true ∨ st.LightningSegments.length < N) →
      generateLoop e mU d c fuel st = some stU →
      ∃ stL, generateLoop e mL d c fuel st = some stL ∧
        stL.LightningSegments = stU.LightningSegments.take N := by
  intro fuel
  induction fuel with
  | zero => intro st stU _ h; simp [generateLoop] at h
  | succ n ih =>
    intro st stU hst h
    rw [generateLoop] at h
    rw [generateLoop, hw]
    by_cases hg : st.bIsGenerating = true
    · rw [if_pos hg] at h
      rw [if_pos hg]
      cases hwk : branchWalk e mU d c (n + 1)
          { st with currentBranch := [], bIsBranchFinished := false } with
      | none => rw [hwk] at h; simp at h
      | some st1 =>
        rw [hwk] at h
        simp only [hU, Bool.false_eq_true, false_and, if_false] at h
        simp only [hL1, hL2, true_and, Nat.cast_le]
        have hpre := generateLoop_unlimited_prefix e mU d c hU n _ stU h
        by_cases hlen : N ≤ (appendBranch st1).LightningSegments.length
        · rw [if_pos hlen]
          have hneg : ¬ ((N : Int) < 0) := by omega
          rw [if_neg hneg]
          refine ⟨_, rfl, ?_⟩
          obtain ⟨t, ht⟩ := hpre
          show List.take (N : Int).toNat (appendBranch st1).LightningSegments = _
          rw [← ht, Int.toNat_ofNat, List.take_append_of_le_length hlen]
        · rw [if_neg hlen]
          exact ih _ stU (Or.inr (by omega)) h
    · rw [if_neg hg] at h
      rw [if_neg hg]
      cases h
      refine ⟨st, rfl, ?_⟩
      rcases hst with hst | hst
      · exact absurd hst hg
      · rw [List.take_of_length_le (by omega)]

theorem setup_limit (m : PhysicsModel) (b : Bool) (n : Int) :
    setup { m with bUseSegmentLimit := b, MaxSegments := n } =
      { setup m with bUseSegmentLimit := b, MaxSegments := n } := rfl

theorem branchWalk_limit_irrelevant (e : Engine) (m : PhysicsModel) (d : Draws) (c : ℚ)
    (b : Bool) (n : Int) (fuel : Nat) (st : GenState) :
    branchWalk e { m with bUseSegmentLimit := b, MaxSegments := n } d c fuel st =
      branchWalk e m d c fuel st :=
  branchWalk_congr e { m with bUseSegmentLimit := b, MaxSegments := n } m d c rfl rfl fuel st

/-- C7: with the limit enabled and `MaxSegments = N ≥ 0`, whenever the run with
the limit disabled yields a result, the run with the limit (same configuration,
same draws) yields the first `min N naturalCount` segments of it, so its length
is `min N naturalCount`; and whatever a run with the limit stores has at most
`N` segments. -/
theorem C7_segment_limit (e : Engine) (m : PhysicsModel) (d : Draws) (fuel : Nat) (N : Nat)
    (mU : PhysicsModel)
    (h : GenerateSegments e { m with bUseSegmentLimit := false } d fuel = some mU) :
    (∃ mL, GenerateSegments e { m with bUseSegmentLimit := true, MaxSegments := (N : Int) } d fuel
          = some mL ∧
        mL.GetSegments = mU.GetSegments.take N ∧
        mL.GetSegments.length ≤ N ∧
        mL.GetSegments.length = min N mU.GetSegments.length) ∧
    (∀ fuel2 mL2,
        GenerateSegments e { m with bUseSegmentLimit := true, MaxSegments := (N : Int) } d fuel2
          = some mL2 → mL2.GetSegments.length ≤ N) := by
  constructor
  · simp only [GenerateSegments, GenerateSegmentsTrace, startState_setup, Option.map_eq_some'] at h
    obtain ⟨stU, hU, rfl⟩ := h
    have hw : ∀ fuel st,
        branchWalk e (setup { m with bUseSegmentLimit := true, MaxSegments := (N : Int) }) d
          (clampA d.constA) fuel st =
        branchWalk e (setup { m with bUseSegmentLimit := false }) d (clampA d.constA) fuel st :=
      fun fuel st => branchWalk_congr e
        (setup { m with bUseSegmentLimit := true, MaxSegments := (N : Int) })
        (setup { m with bUseSegmentLimit := false }) d _ rfl rfl fuel st
    obtain ⟨stL, hL, hLS⟩ := generateLoop_limit_take e
      (setup { m with bUseSegmentLimit := false })
      (setup { m with bUseSegmentLimit := true, MaxSegments := (N : Int) }) d (clampA d.constA) N
      rfl rfl rfl hw fuel initialState stU (Or.inl rfl) hU
    refine ⟨{ setup { m with bUseSegmentLimit := true, MaxSegments := (N : Int) } with
        LightningSegments := stL.LightningSegments }, ?_, ?_, ?_, ?_⟩
    · simp only [GenerateSegments, GenerateSegmentsTrace, startState_setup, hL, Option.map_some']
    · simpa [GetSegments] using hLS
    · simp [GetSegments, hLS, List.length_take]
    · simp [GetSegments, hLS, List.length_take]
  · intro fuel2 mL2 h2
    simp only [GenerateSegments, GenerateSegmentsTrace, startState_setup, Option.map_eq_some'] at h2
    obtain ⟨stL, hL, rfl⟩ := h2
    exact generateLoop_limited_length e _ d _ N rfl rfl fuel2 initialState stL (Or.inl rfl) hL

/-- C7 on an example: the sample run without limit yields a result, and with
`MaxSegments = 3` the first three segments of it are stored. -/
theorem C7_segment_limit_witness :
    ∃ mU mL : PhysicsModel,
      GenerateSegments sampleEngine { defaults with bUseSegmentLimit := false } sampleDraws 20
        = some mU ∧
      GenerateSegments sampleEngine { defaults with bUseSegmentLimit := true, MaxSegments := 3 }
        sampleDraws 20 = some mL ∧
      mL.GetSegments = mU.GetSegments.take 3 ∧ mL.GetSegments.length = 3 := by
  have hsome : (GenerateSegments sampleEngine { defaults with bUseSegmentLimit := false }
      sampleDraws 20).isSome = true := by decide!
  obtain ⟨mU, hU⟩ := Option.isSome_iff_exists.mp hsome
  obtain ⟨mL, hL, htake, -, hlen⟩ := (C7_segment_limit sampleEngine defaults sampleDraws 20 3 mU hU).1
  have hlen3 : (GenerateSegments sampleEngine
      { defaults with bUseSegmentLimit := true, MaxSegments := 3 } sampleDraws 20).map
      (fun x => x.GetSegments.length) = some 3 := by decide!
  refine ⟨mU, mL, hU, hL, htake, ?_⟩
  have hL2 : GenerateSegments sampleEngine
      { defaults with bUseSegmentLimit := true, MaxSegments := 3 } sampleDraws 20 = some mL := hL
  rw [hL2] at hlen3
  simpa using hlen3

theorem rootSegment_fields (e : Engine) (m : PhysicsModel) (d : Draws) :
    (rootSegment e m d).StartPos = { X := 0, Y := 0, Z := m.StartHeight } ∧
    (rootSegment e m d).Diameter = m.Voltage * m.ConstantnV ∧
    (rootSegment e m d).EndPos =
      (rootSegment e m d).StartPos.add
        ((rootSegment e m d).Direction.scale (rootSegment e m d).Length) ∧
    (rootSegment e m d).Length = d.normalLen 0 * (m.Voltage * m.ConstantnV) * m.Scale ∧
    (rootSegment e m d).MinDiameter =
      (withAmbient e (setup m) (clampA d.constA)
        { d.fresh 0 with StartPos := { X := 0, Y := 0, Z := m.StartHeight } }).MinDiameter := by
  simp only [rootSegment, GenerateFirstSegment, withExtent_fields, CalculateInitDiameter, setup]
  simp [withAmbient]

/-- The walk that starts with the root: when it ends, the branch holds the root
followed by at least one more segment. -/
theorem branchWalk_root_first (e : Engine) (m : PhysicsModel) (d : Draws) (fuel : Nat)
    (st1 : GenState)
    (h : branchWalk e (setup m) d (clampA d.constA) fuel initialState = some st1) :
    ∃ s tail, st1.currentBranch = rootSegment e m d :: s :: tail := by
  refine branchWalk_rule e (setup m) d (clampA d.constA)
    (fun st =>
      (st.firstSegment = true ∧ st.currentBranch = [] ∧ st.bIsBranchFinished = false ∧
        st.Steps = 0 ∧ st.FRands = 0) ∨
      (st.firstSegment = false ∧ st.currentBranch = [rootSegment e m d] ∧
        st.bIsBranchFinished = false) ∨
      (st.firstSegment = false ∧ ∃ s tail, st.currentBranch = rootSegment e m d :: s :: tail))
    (fun st => ∃ s tail, st.currentBranch = rootSegment e m d :: s :: tail)
    ?_ ?_ ?_ ?_ fuel initialState st1 (Or.inl ⟨rfl, rfl, rfl, rfl, rfl⟩) h
  · intro st hP hfin
    rcases hP with ⟨_, _, hf, _⟩ | ⟨_, _, hf⟩ | ⟨_, hC⟩
    · rw [hfin] at hf; simp at hf
    · rw [hfin] at hf; simp at hf
    · exact hC
  · intro st hP _ h1 hsel
    have hnil := (selectParent_none st hsel).1
    rcases hP with ⟨hf, _⟩ | ⟨_, hcb, _⟩ | ⟨_, s, tail, hcb⟩
    · rw [h1] at hf; simp at hf
    · rw [hnil] at hcb; simp at hcb
    · rw [hnil] at hcb; simp at hcb
  · intro st hP _ h1
    rcases hP with ⟨_, hcb, hf, hS, hR⟩ | ⟨hf, _⟩ | ⟨hf, _⟩
    · right; left
      refine ⟨rfl, ?_, hf⟩
      simp [generateRoot, hcb, hS, hR, rootSegment]
    · rw [h1] at hf; simp at hf
    · rw [h1] at hf; simp at hf
  · intro st p s1 hP _ h1 hsel
    have g := (generateSegment_fields e (setup m) d (clampA d.constA) s1 p)
    have hcb1 : s1.currentBranch = st.currentBranch ∧ s1.firstSegment = st.firstSegment := by
      rcases selectParent_some st s1 p hsel with ⟨_, rfl⟩ | ⟨_, _, rfl⟩
      · exact ⟨rfl, rfl⟩
      · exact ⟨rfl, rfl⟩
    right; right
    refine ⟨by rw [g.2.2.2.2.1, hcb1.2, h1], ?_⟩
    rw [g.1, hcb1.1]
    rcases hP with ⟨hf, _⟩ | ⟨_, hcb, _⟩ | ⟨_, s, tail, hcb⟩
    · rw [h1] at hf; simp at hf
    · exact ⟨_, [], by rw [hcb]; rfl⟩
    · exact ⟨s, tail ++ [_], by rw [hcb]; rfl⟩

theorem generateLoop_limit_one (e : Engine) (m : PhysicsModel) (d : Draws) (fuel : Nat)
    (hlim : m.bUseSegmentLimit = true) (hmax : m.MaxSegments = 1) (st : GenState)
    (h : generateLoop e (setup m) d (clampA d.constA) fuel initialState = some st) :
    st.LightningSegments = [rootSegment e m d] := by
  cases fuel with
  | zero => simp [generateLoop] at h
  | succ n =>
    rw [generateLoop] at h
    have hg : initialState.bIsGenerating = true := rfl
    rw [if_pos hg] at h
    have hinit : ({ initialState with currentBranch := [], bIsBranchFinished := false } : GenState)
        = initialState := rfl
    rw [hinit] at h
    cases hw : branchWalk e (setup m) d (clampA d.constA) (n + 1) initialState with
    | none => rw [hw] at h; simp at h
    | some st1 =>
      rw [hw] at h
      obtain ⟨s, tail, hcb⟩ := branchWalk_root_first e m d (n + 1) st1 hw
      have hLS := branchWalk_LightningSegments e (setup m) d (clampA d.constA) (n + 1) _ st1 hw
      have happ : (appendBranch st1).LightningSegments = rootSegment e m d :: s :: tail := by
        simp [appendBranch, hLS, hcb, initialState]
      have hl : (setup m).bUseSegmentLimit = true := hlim
      have hx : (setup m).MaxSegments = 1 := hmax
      simp only [hl, hx, happ, List.length_cons, true_and] at h
      have h1 : (1 : Int) ≤ ((tail.length + 1 + 1 : Nat) : Int) := by omega
      rw [if_pos h1] at h
      have h2 : ¬ ((1 : Int) < 0) := by omega
      rw [if_neg h2] at h
      cases h
      simp

theorem exists_pow_mul_le_one (s r : ℚ) (hs0 : 0 ≤ s) (hs1 : s < 1) :
    ∃ n : Nat, s ^ (n + 1) * r ≤ 1 := by
  by_cases hr : r ≤ 0
  · refine ⟨0, ?_⟩
    have : s ^ (0 + 1) * r ≤ 0 := mul_nonpos_of_nonneg_of_nonpos (pow_nonneg hs0 _) hr
    linarith
  · have hr0 : 0 < r := lt_of_not_ge hr
    obtain ⟨n, hn⟩ := exists_pow_lt_of_lt_one (one_div_pos.mpr hr0) hs1
    refine ⟨n, ?_⟩
    have h1 : s ^ n * r < 1 := by
      have := mul_lt_mul_of_pos_right hn hr0
      rwa [one_div, inv_mul_cancel₀ (ne_of_gt hr0)] at this
    have h2 : 0 ≤ s ^ n * r := mul_nonneg (pow_nonneg hs0 _) (le_of_lt hr0)
    have h3 : s ^ (n + 1) * r = s * (s ^ n * r) := by ring
    rw [h3]
    nlinarith

theorem clampA_pos (x : ℚ) : 0 < clampA x := by
  unfold clampA
  split_ifs with h
  · norm_num
  · linarith

theorem nextSegment_Length (e : Engine) (m : PhysicsModel) (d : Draws) (c : ℚ)
    (st : GenState) (parent : Segment) :
    (nextSegment e m d c st parent).Length =
      d.normalLen st.Steps * (nextSegment e m d c st parent).Diameter * m.Scale := by
  simp [nextSegment, withExtent, CalculateLength]

theorem FVector_add_scale_zero (a b : FVector) : a.add (b.scale 0) = a := by
  simp [FVector.add, FVector.scale]

theorem c8_minDiameter_neg (e : Engine) (c : ℚ) (hc : 0 < c) (hp : e.Pow 1 5.25588 = 1)
    (seg : Segment) (hz : seg.StartPos.Z = 0) :
    (withAmbient e (setup c8Model) c seg).MinDiameter < 0 := by
  simp only [withAmbient, CalculateMinDiameter, CalculateTemp, CalculatePressure, setup, c8Model,
    defaults, GetMappedRangeValueUnclamped, Lerp, hz, mul_zero, sub_zero, hp]
  norm_num
  apply div_neg_of_pos_of_neg
  · positivity
  · norm_num

/-- The inner loop of the counterexample to C8 never ends: the diameter stays 0
and the minimum diameter is negative, so the loop condition stays true. -/
theorem c8_branchWalk_none (e : Engine) (d : Draws) (c : ℚ) (hc : 0 < c)
    (hp : e.Pow 1 5.25588 = 1) :
    ∀ (fuel : Nat) (st : GenState) (p : Segment), st.bIsBranchFinished = false →
      st.firstSegment = false → st.currentBranch.getLast? = some p → p.Diameter = 0 →
      p.EndPos = { X := 0, Y := 0, Z := 0 } →
      branchWalk e (setup c8Model) d c fuel st = none := by
  intro fuel
  induction fuel with
  | zero => intro st p _ _ _ _ _; rfl
  | succ n ih =>
    intro st p hfin h1 hlast hd hend
    have g := generateSegment_fields e (setup c8Model) d c st p
    have nx := nextSegment_fields e (setup c8Model) d c st p
    have hD : (nextSegment e (setup c8Model) d c st p).Diameter = 0 := by
      rw [nx.2.2.1, hd]
      simp
    have hM : (nextSegment e (setup c8Model) d c st p).MinDiameter < 0 := by
      rw [nx.2.1]
      exact c8_minDiameter_neg e c hc hp _ (by simp [hend])
    have hL : (nextSegment e (setup c8Model) d c st p).Length = 0 := by
      rw [nextSegment_Length, hD]
      simp
    rw [branchWalk]
    simp only [hfin, Bool.false_eq_true, if_false, h1, selectParent_of_getLast st p hlast]
    apply ih (generateSegment e (setup c8Model) d c st p) (nextSegment e (setup c8Model) d c st p)
    · rw [g.2.1, hfin, hD]
      simpa using hM
    · rw [g.2.2.2.2.1, h1]
    · rw [g.1, List.getLast?_concat]
    · exact hD
    · rw [nx.2.2.2, hL, FVector_add_scale_zero, nx.1, hend]

theorem c8_never_returns (e : Engine) (hp : e.Pow 1 5.25588 = 1) (fuel : Nat) :
    GenerateSegments e c8Model sampleDraws fuel = none := by
  have hloop : generateLoop e (setup c8Model) sampleDraws (clampA sampleDraws.constA) fuel
      initialState = none := by
    cases fuel with
    | zero => rfl
    | succ n =>
      rw [generateLoop]
      have hg : initialState.bIsGenerating = true := rfl
      rw [if_pos hg]
      have hinit : ({ initialState with currentBranch := [], bIsBranchFinished := false }
          : GenState) = initialState := rfl
      rw [hinit]
      have hroot : (generateRoot e (setup c8Model) sampleDraws (clampA sampleDraws.constA)
          initialState).currentBranch.getLast? = some (rootSegment e c8Model sampleDraws) := by
        simp [generateRoot, initialState, rootSegment]
      have r := rootSegment_fields e c8Model sampleDraws
      have hD : (rootSegment e c8Model sampleDraws).Diameter = 0 := by
        rw [r.2.1]
        simp [c8Model]
      have hE : (rootSegment e c8Model sampleDraws).EndPos = { X := 0, Y := 0, Z := 0 } := by
        rw [r.2.2.1, r.2.2.2.1, r.1]
        simp [c8Model, FVector.add, FVector.scale]
      have hnone : branchWalk e (setup c8Model) sampleDraws (clampA sampleDraws.constA) (n + 1)
          initialState = none := by
        rw [branchWalk]
        simp only [initialState, Bool.false_eq_true, if_false, if_true]
        exact c8_branchWalk_none e sampleDraws _ (clampA_pos _) hp n _ _ rfl rfl hroot hD hE
      rw [hnone]
  simp only [GenerateSegments, GenerateSegmentsTrace, startState_setup, hloop, Option.map_none']

/-- C8, as stated, fails: with the limit of one segment there are
configurations for which the call stores nothing at all. With no voltage and
the pressure multiplier `-1`, at height 0, every segment after the root has
diameter 0 and a negative minimum diameter, so the loop of the first walk never
ends: the call returns for no fuel, on the sample engine (first part) and on
every engine for which a power of 1 is 1 (second part). -/
theorem C8_counterexample :
    (∀ fuel, GenerateSegments sampleEngine c8Model sampleDraws fuel = none) ∧
    ¬ ∃ (e : Engine) (fuel : Nat) (m' : PhysicsModel),
      e.Pow 1 5.25588 = 1 ∧ GenerateSegments e c8Model sampleDraws fuel = some m' := by
  refine ⟨fun fuel => c8_never_returns sampleEngine rfl fuel, ?_⟩
  rintro ⟨e, fuel, m', hp, h⟩
  rw [c8_never_returns e hp fuel] at h
  simp at h

theorem BranchLogic_of_not_viable (e : Engine) (m : PhysicsModel) (d : Draws) (st : GenState)
    (segment parent : Segment) (a b dia : ℚ) (h : ¬ segment.MinDiameter < dia) :
    BranchLogic e m d st segment parent a b dia = { st with bIsBranchFinished := true } := by
  simp [BranchLogic, h]

theorem c10_minDiameter_pos (e : Engine) (c : ℚ) (hc : 0 < c) (hp : e.Pow 1 5.25588 = 1)
    (seg : Segment) (hz : seg.StartPos.Z = 0) :
    0 < (withAmbient e (setup c10Model) c seg).MinDiameter := by
  simp only [withAmbient, CalculateMinDiameter, CalculateTemp, CalculatePressure, setup, c10Model,
    defaults, GetMappedRangeValueUnclamped, Lerp, hz, mul_zero, sub_zero, hp]
  norm_num
  positivity

/-- The run of the counterexample to C10: the first walk is the root and one
more segment, no branch point is recorded, and the call returns with both
segments stored. -/
theorem c10_run (e : Engine) (d : Draws) (hp : e.Pow 1 5.25588 = 1) :
    ∃ st next, GenerateSegmentsTrace e c10Model d 3 = some st ∧
      st.Walks = [[rootSegment e c10Model d, next]] ∧
      st.LightningSegments = [rootSegment e c10Model d, next] := by
  have r := rootSegment_fields e c10Model d
  have hD : (rootSegment e c10Model d).Diameter = 0 := by
    rw [r.2.1]
    simp [c10Model]
  have hE : (rootSegment e c10Model d).EndPos = { X := 0, Y := 0, Z := 0 } := by
    rw [r.2.2.1, r.2.2.2.1, r.1]
    simp [c10Model, FVector.add, FVector.scale]
  have hnv : ¬ (headedSegment e (setup c10Model) d (clampA d.constA)
      (generateRoot e (setup c10Model) d (clampA d.constA) initialState)
      (rootSegment e c10Model d)).MinDiameter <
      CalculateDiameter e (startSegment e (setup c10Model) d (clampA d.constA)
        (generateRoot e (setup c10Model) d (clampA d.constA) initialState)
        (rootSegment e c10Model d)) (rootSegment e c10Model d) := by
    rw [(headedSegment_fields _ _ _ _ _ _).2, CalculateDiameter, hD]
    have := c10_minDiameter_pos e (clampA d.constA) (clampA_pos _) hp
      { d.fresh (generateRoot e (setup c10Model) d (clampA d.constA) initialState).Steps with
        StartPos := (rootSegment e c10Model d).EndPos } (by simp [hE])
    simp only [zero_div, mul_zero, zero_mul, not_lt]
    exact le_of_lt this
  have hst1 : generateSegment e (setup c10Model) d (clampA d.constA)
      (generateRoot e (setup c10Model) d (clampA d.constA) initialState)
      (rootSegment e c10Model d) =
      { initialState with
        firstSegment := false, secondSegment := true, bIsBranchFinished := true,
        currentBranch := [rootSegment e c10Model d,
          nextSegment e (setup c10Model) d (clampA d.constA)
            (generateRoot e (setup c10Model) d (clampA d.constA) initialState)
            (rootSegment e c10Model d)],
        Steps := 2, FRands := 2 } := by
    rw [generateSegment, BranchLogic_of_not_viable _ _ _ _ _ _ _ _ _ hnv]
    rfl
  have hA : branchWalk e (setup c10Model) d (clampA d.constA) 3 initialState =
      some (generateSegment e (setup c10Model) d (clampA d.constA)
        (generateRoot e (setup c10Model) d (clampA d.constA) initialState)
        (rootSegment e c10Model d)) := by
    have h1 : branchWalk e (setup c10Model) d (clampA d.constA) 3 initialState =
        branchWalk e (setup c10Model) d (clampA d.constA) 1
          (generateSegment e (setup c10Model) d (clampA d.constA)
            (generateRoot e (setup c10Model) d (clampA d.constA) initialState)
            (rootSegment e c10Model d)) := rfl
    rw [h1, hst1]
    rfl
  refine ⟨{ initialState with
      firstSegment := false, secondSegment := true, bIsGenerating := false,
      LightningSegments := [rootSegment e c10Model d,
        nextSegment e (setup c10Model) d (clampA d.constA)
          (generateRoot e (setup c10Model) d (clampA d.constA) initialState)
          (rootSegment e c10Model d)],
      Walks := [[rootSegment e c10Model d,
        nextSegment e (setup c10Model) d (clampA d.constA)
          (generateRoot e (setup c10Model) d (clampA d.constA) initialState)
          (rootSegment e c10Model d)]],
      Steps := 2, FRands := 2 },
    nextSegment e (setup c10Model) d (clampA d.constA)
      (generateRoot e (setup c10Model) d (clampA d.constA) initialState)
      (rootSegment e c10Model d), ?_, rfl, rfl⟩
  have hB : GenerateSegmentsTrace e c10Model d 3 =
      (match branchWalk e (setup c10Model) d (clampA d.constA) 3 initialState with
      | none => none
      | some st1 =>
        if (setup c10Model).bUseSegmentLimit ∧
            (setup c10Model).MaxSegments ≤ ((appendBranch st1).LightningSegments.length : Int)
        then
          if (setup c10Model).MaxSegments < 0 then none
          else some { appendBranch st1 with
            bIsGenerating := false,
            LightningSegments :=
              (appendBranch st1).LightningSegments.take (setup c10Model).MaxSegments.toNat }
        else generateLoop e (setup c10Model) d (clampA d.constA) 2 (appendBranch st1)) := rfl
  rw [hB, hA, hst1]
  rfl

/-- C10, as stated, fails for the root segment. With the default configuration
started at height 0 and no voltage, the root has diameter 0, below its
(positive) minimum diameter, and is still followed by a second segment of the
same walk; both are stored. This holds on the sample engine (first part) and
on every engine for which a power of 1 is 1 (second part). -/
theorem C10_counterexample :
    (∃ st root next, GenerateSegmentsTrace sampleEngine c10Model sampleDraws 3 = some st ∧
      st.Walks = [[root, next]] ∧ st.LightningSegments = [root, next] ∧
      root.Diameter = 0 ∧ 0 < root.MinDiameter) ∧
    ¬ ∃ e : Engine, e.Pow 1 5.25588 = 1 ∧
      ∀ fuel st, GenerateSegmentsTrace e c10Model sampleDraws fuel = some st →
        ∀ w ∈ st.Walks, ∀ s ∈ w.dropLast, s.MinDiameter < s.Diameter := by
  have key : ∀ e : Engine, e.Pow 1 5.25588 = 1 →
      ∃ st root next, GenerateSegmentsTrace e c10Model sampleDraws 3 = some st ∧
        st.Walks = [[root, next]] ∧ st.LightningSegments = [root, next] ∧
        root.Diameter = 0 ∧ 0 < root.MinDiameter := by
    intro e hp
    obtain ⟨st, next, hrun, hW, hL⟩ := c10_run e sampleDraws hp
    have r := rootSegment_fields e c10Model sampleDraws
    refine ⟨st, rootSegment e c10Model sampleDraws, next, hrun, hW, hL, ?_, ?_⟩
    · rw [r.2.1]
      simp [c10Model]
    · rw [r.2.2.2.2]
      exact c10_minDiameter_pos e _ (clampA_pos _) hp _ (by simp [c10Model])
  refine ⟨key sampleEngine rfl, ?_⟩
  rintro ⟨e, hp, hall⟩
  obtain ⟨st, root, next, hrun, hW, -, hD, hM⟩ := key e hp
  have h := hall 3 st hrun [root, next] (by rw [hW]; simp) root (by simp)
  rw [hD] at h
  exact absurd h (not_lt.mpr (le_of_lt hM))

theorem sample_run_returns :
    (GenerateSegmentsTrace sampleEngine defaults sampleDraws 20).isSome = true := by
  decide!

theorem sample_run_walk_lengths :
    (GenerateSegmentsTrace sampleEngine defaults sampleDraws 20).map
      (fun st => st.Walks.map List.length) = some [9, 1, 1] := by
  decide!

/-- C9 on an example: the sample run returns with three walks, of 9, 1 and 1
segments, each of them connected. -/
theorem C9_walk_segments_connected_witness :
    ∃ st, GenerateSegmentsTrace sampleEngine defaults sampleDraws 20 = some st ∧
      st.Walks.map List.length = [9, 1, 1] ∧
      ∀ w ∈ st.Walks, List.Chain' (fun a b : Segment => b.StartPos = a.EndPos) w := by
  obtain ⟨st, hst⟩ := Option.isSome_iff_exists.mp sample_run_returns
  have hlen := sample_run_walk_lengths
  rw [hst] at hlen
  exact ⟨st, hst, by simpa using hlen,
    (C9_walk_segments_connected sampleEngine defaults sampleDraws 20 st hst).1⟩

/-- C10 (amended) on an example: the sample run returns with a first walk of 9
segments; those after the root that are followed by another one are viable. -/
theorem C10_non_terminal_viable_witness :
    ∃ st w0 rest, GenerateSegmentsTrace sampleEngine defaults sampleDraws 20 = some st ∧
      st.Walks = w0 :: rest ∧ w0.length = 9 ∧
      ∀ s ∈ w0.tail.dropLast, s.MinDiameter < s.Diameter := by
  obtain ⟨st, hst⟩ := Option.isSome_iff_exists.mp sample_run_returns
  have hlen := sample_run_walk_lengths
  rw [hst] at hlen
  simp only [Option.map_some', Option.some.injEq] at hlen
  cases hW : st.Walks with
  | nil => rw [hW] at hlen; simp at hlen
  | cons w0 rest =>
    rw [hW] at hlen
    simp only [List.map_cons, List.cons.injEq] at hlen
    exact ⟨st, w0, rest, hst, hW, hlen.1,
      ((C10_non_terminal_viable sampleEngine defaults sampleDraws 20 st hst).1 w0 rest hW).1⟩

/-! ## Claims C15 to C17 -/

theorem FString_Equals_single (p : FString) (c : Char) :
    FString.Equals p [c] = true ↔ ∃ x, p = [x] ∧ lowerAscii x = lowerAscii c := by
  simp only [FString.Equals, decide_eq_true_eq, List.map_cons, List.map_nil]
  constructor
  · intro h
    cases p with
    | nil => simp at h
    | cons x t =>
      cases t with
      | nil => exact ⟨x, rfl, by simpa using h⟩
      | cons y u => simp at h
  · rintro ⟨x, rfl, hx⟩
    simp [hx]

theorem selectRule_least : ∀ (rules : List LRule) (r : ℚ), rules ≠ [] →
    r ≤ (rules.map LRule.Probability).sum →
    ∃ k, rules[k]? = some (LGrammar.selectRule rules r) ∧ r ≤ weightUpTo rules k ∧
      ∀ j, j < k → ¬ r ≤ weightUpTo rules j := by
  intro rules
  induction rules with
  | nil => intro r h; exact absurd rfl h
  | cons rule rest ih =>
    intro r _ hr
    by_cases h0 : r ≤ rule.Probability
    · refine ⟨0, by simp [LGrammar.selectRule, h0], by simpa [weightUpTo] using h0, ?_⟩
      intro j hj
      omega
    · have hrest : rest ≠ [] := by
        rintro rfl
        simp at hr
        exact h0 hr
      have hr2 : r - rule.Probability ≤ (rest.map LRule.Probability).sum := by
        simp only [List.map_cons, List.sum_cons] at hr
        linarith
      obtain ⟨k, hk1, hk2, hk3⟩ := ih (r - rule.Probability) hrest hr2
      refine ⟨k + 1, by simpa [LGrammar.selectRule, h0] using hk1, ?_, ?_⟩
      · simp only [weightUpTo, List.take_succ_cons, List.map_cons, List.sum_cons]
        simp only [weightUpTo] at hk2
        linarith
      · intro j hj
        cases j with
        | zero => simpa [weightUpTo] using h0
        | succ j =>
          have := hk3 j (by omega)
          simp only [weightUpTo, List.take_succ_cons, List.map_cons, List.sum_cons]
          simp only [weightUpTo] at this
          intro hle
          exact this (by linarith)

/-- C15, as stated, fails in its last part: with the single rule for `F` of
weight 1 and the draw 0, the rule is selected and the character `f` is
replaced, although the pattern `F` of the selected rule is not that character. -/
theorem C15_counterexample :
    LGrammar.rewriteChar c15Rules 0 'f' = branchToken ∧
    (LGrammar.selectRule c15Rules 0).ToReplace = ['F'] ∧
    (LGrammar.selectRule c15Rules 0).ToReplace ≠ ['f'] := by
  decide!

/-- C15 (amended): for a non-empty rule list and a draw `r` not above the sum of
the weights, the selection loop selects a rule of the list, the one with the
least index `k` such that `r ≤ w_0 + ... + w_k`; the character at the position
is replaced by `F[+F]` if and only if the pattern of the selected rule is one
character equal to it up to ASCII case, and is copied otherwise, whatever the
other rules of the list are. -/
theorem C15_selection (rules : List LRule) (r : ℚ) (c : Char) (hne : rules ≠ [])
    (hr : r ≤ (rules.map LRule.Probability).sum) :
    (∃ k, rules[k]? = some (LGrammar.selectRule rules r) ∧ r ≤ weightUpTo rules k ∧
      ∀ j, j < k → ¬ r ≤ weightUpTo rules j) ∧
    (LGrammar.rewriteChar rules r c = branchToken ↔
      ∃ x, (LGrammar.selectRule rules r).ToReplace = [x] ∧ lowerAscii x = lowerAscii c) ∧
    (LGrammar.rewriteChar rules r c ≠ branchToken → LGrammar.rewriteChar rules r c = [c]) := by
  refine ⟨selectRule_least rules r hne hr, ?_, ?_⟩
  · rw [← FString_Equals_single]
    simp only [LGrammar.rewriteChar]
    split_ifs with h
    · simp [h]
    · simp only [h, iff_false]
      simp [branchToken]
  · intro h
    simp only [LGrammar.rewriteChar] at h ⊢
    split_ifs at h ⊢ with h1
    · exact absurd rfl h
    · rfl

/-- C15 (amended) on an example: with rules for `A` and `B` of weight 1 each and
the draw `1 / 2`, the rule for `A` is selected, so the character `B` is copied
although the second rule matches it. -/
theorem C15_selection_witness :
    (LGrammar.rewriteChar abRules (1 / 2) 'B' ≠ branchToken →
      LGrammar.rewriteChar abRules (1 / 2) 'B' = ['B']) ∧
    LGrammar.selectRule abRules (1 / 2) = LRule.create ['A'] ['x'] 1 ∧
    LGrammar.rewriteChar abRules (1 / 2) 'B' = ['B'] :=
  ⟨(C15_selection abRules (1 / 2) 'B' (by simp [abRules])
      (by norm_num [abRules, LRule.create])).2.2, by decide!, by decide!⟩

theorem Find_of_FirstAt (sub s : FString) (i : Nat) (h : FirstAt sub s i) :
    s.Find sub = (i : Int) := by
  obtain ⟨h1, h2, h3⟩ := h
  have hin : sub <:+: s := by
    obtain ⟨t, ht⟩ := h1
    exact ⟨s.take i, t, by rw [List.append_assoc, ht, List.take_append_drop]⟩
  obtain ⟨k, hk1, hk2, _, hk4⟩ := Find_found s sub hin
  rw [hk1]
  have : k = i := by
    rcases Nat.lt_trichotomy k i with hlt | heq | hgt
    · exact absurd hk2 (h3 k hlt)
    · exact heq
    · exact absurd h1 (hk4 i hgt)
  rw [this]

theorem Mid_nat (s : FString) (a c : Nat) (ha : a ≤ s.length) :
    s.Mid (a : Int) (c : Int) = (s.drop a).take c := by
  have h0 : (0 : Int) ≤ (c : Int) := by omega
  have hstart : clampInt (a : Int) 0 (s.length : Int) = (a : Int) := by
    unfold clampInt
    split_ifs <;> omega
  simp only [FString.Mid, h0, if_true, hstart, Int.toNat_ofNat]
  by_cases hc : (c : Int) + (a : Int) < (s.length : Int)
  · have hstop : clampInt ((c : Int) + (a : Int)) (a : Int) (s.length : Int)
        = (c : Int) + (a : Int) := by
      unfold clampInt
      split_ifs <;> omega
    rw [hstop]
    congr 1
    omega
  · have hstop : clampInt ((c : Int) + (a : Int)) (a : Int) (s.length : Int)
        = (s.length : Int) := by
      unfold clampInt
      split_ifs <;> omega
    rw [hstop]
    have hlen : (s.drop a).length = s.length - a := List.length_drop a s
    rw [List.take_of_length_le (by rw [hlen]; omega), List.take_of_length_le (by rw [hlen]; omega)]

theorem Mid_negative (s : FString) (a c : Int) (hc : c < 0) : s.Mid a c = [] := by
  have : ¬ (0 ≤ c) := by omega
  simp [FString.Mid, this]

/-- C16, as stated, fails: in `A (x) => B (0.5)` the text between the end of the
first ` => ` and the next ` (` is `B`, but the constructor stores the empty
template, since it takes the first ` (` of the whole description, which here
lies in the pattern symbol. -/
theorem C16_counterexample :
    c16Desc = "A (x)".toList ++ sepArrow ++ ['B'] ++ sepOpen ++ "0.5)".toList ∧
    c16Desc.Find sepArrow = 5 ∧ c16Desc.Find sepOpen = 1 ∧
    (LGrammar.ctor ['F'] [c16Desc]).RulesArray.map LRule.Rule = [[]] ∧
    (LGrammar.ctor ['F'] [c16Desc]).RulesArray.map LRule.ToReplace = ["A (x)".toList] := by
  decide!

/-- C16 (amended): for a description whose first ` => ` starts at index `k1` and
whose first ` (` starts at index `k2`, the template of the added rule is the
text between the end of that ` => ` and that ` (` when the ` (` comes after the
separator (`k1 + 4 ≤ k2`), and is empty when the first ` (` of the description
comes earlier. -/
theorem C16_template (ax d : FString) (k1 k2 : Nat) (h1 : FirstAt sepArrow d k1)
    (h2 : FirstAt sepOpen d k2) :
    (LGrammar.ctor ax [d]).RulesArray.map LRule.Rule =
      [if k1 + 4 ≤ k2 then (d.drop (k1 + 4)).take (k2 - (k1 + 4)) else []] ∧
    (k1 + 4 ≤ k2 → ∃ rest,
      d = d.take k1 ++ sepArrow ++ (d.drop (k1 + 4)).take (k2 - (k1 + 4)) ++ sepOpen ++ rest) := by
  have hf1 := Find_of_FirstAt _ _ _ h1
  have hf2 := Find_of_FirstAt _ _ _ h2
  have hin1 : sepArrow <:+: d := by
    obtain ⟨t, ht⟩ := h1.1
    exact ⟨d.take k1, t, by rw [List.append_assoc, ht, List.take_append_drop]⟩
  have hin2 : sepOpen <:+: d := by
    obtain ⟨t, ht⟩ := h2.1
    exact ⟨d.take k2, t, by rw [List.append_assoc, ht, List.take_append_drop]⟩
  have hk1len : k1 + 4 ≤ d.length := by
    obtain ⟨t, ht⟩ := h1.1
    have := congrArg List.length ht
    simp only [List.length_append, List.length_drop, sepArrow, List.length_cons,
      List.length_nil] at this
    omega
  constructor
  · rw [ctor_eq]
    have hs : hasSeparators d = true := by simp [hasSeparators, hin1, hin2]
    simp only [List.filter_cons, hs, if_true, List.filter_nil, List.map_cons, List.map_nil,
      parsedRule, LRule.create, hf1, hf2]
    by_cases hle : k1 + 4 ≤ k2
    · simp only [hle, if_true]
      have e1 : ((k1 : Int) + 4) = ((k1 + 4 : Nat) : Int) := by push_cast; ring
      have e2 : ((k2 : Int) - (k1 : Int) - 4) = ((k2 - (k1 + 4) : Nat) : Int) := by omega
      rw [e1, e2, Mid_nat d _ _ hk1len]
    · simp only [hle, if_false]
      rw [Mid_negative _ _ _ (by omega)]
  · intro hle
    obtain ⟨t1, ht1⟩ := h1.1
    obtain ⟨t2, ht2⟩ := h2.1
    refine ⟨t2, ?_⟩
    have hd1 : d.drop (k1 + 4) = t1 := by
      have : d.drop (k1 + 4) = (d.drop k1).drop 4 := by rw [List.drop_drop, Nat.add_comm]
      rw [this, ← ht1]
      simp [sepArrow]
    have hsplit : d.drop (k1 + 4) =
        (d.drop (k1 + 4)).take (k2 - (k1 + 4)) ++ (d.drop (k1 + 4)).drop (k2 - (k1 + 4)) :=
      (List.take_append_drop _ _).symm
    have hdd : (d.drop (k1 + 4)).drop (k2 - (k1 + 4)) = d.drop k2 := by
      rw [List.drop_drop]
      congr 1
      omega
    calc d = d.take k1 ++ d.drop k1 := (List.take_append_drop _ _).symm
      _ = d.take k1 ++ (sepArrow ++ t1) := by rw [ht1]
      _ = d.take k1 ++ (sepArrow ++ d.drop (k1 + 4)) := by rw [hd1]
      _ = d.take k1 ++ (sepArrow ++ ((d.drop (k1 + 4)).take (k2 - (k1 + 4)) ++ d.drop k2)) := by
          rw [← hdd, ← hsplit]
      _ = d.take k1 ++ sepArrow ++ (d.drop (k1 + 4)).take (k2 - (k1 + 4)) ++ sepOpen ++ t2 := by
          rw [← ht2]
          simp [List.append_assoc]

/-- C16 (amended) on the description `X => Y (0.5)`: the template is `Y`. -/
theorem C16_template_witness :
    (LGrammar.ctor ['F'] [exampleDesc]).RulesArray.map LRule.Rule =
      [if 1 + 4 ≤ 6 then (exampleDesc.drop (1 + 4)).take (6 - (1 + 4)) else []] ∧
    (exampleDesc.drop (1 + 4)).take (6 - (1 + 4)) = ['Y'] :=
  ⟨(C16_template ['F'] exampleDesc 1 6 (by unfold FirstAt; decide) (by unfold FirstAt; decide)).1, by decide⟩

theorem selectRule_SameButTemplates (rs1 rs2 : List LRule) (h : SameButTemplates rs1 rs2) :
    ∀ r : ℚ, (LGrammar.selectRule rs1 r).ToReplace = (LGrammar.selectRule rs2 r).ToReplace := by
  unfold SameButTemplates at h
  induction h with
  | nil => intro r; rfl
  | cons hab _ ih =>
    intro r
    simp only [LGrammar.selectRule, hab.2]
    split_ifs
    · exact hab.1
    · exact ih _

theorem rewriteFrom_SameButTemplates (rs1 rs2 : List LRule) (h : SameButTemplates rs1 rs2)
    (draws : Nat → ℚ) :
    ∀ (s : FString) (k : Nat),
      LGrammar.rewriteFrom rs1 draws s k = LGrammar.rewriteFrom rs2 draws s k := by
  intro s
  induction s with
  | nil => intro k; rfl
  | cons c cs ih =>
    intro k
    simp only [LGrammar.rewriteFrom, LGrammar.rewriteChar, ih,
      selectRule_SameButTemplates rs1 rs2 h]

theorem passes_SameButTemplates (draws : Nat → ℚ) :
    ∀ (n : Nat) (g1 g2 : LGrammar) (k : Nat), g1.Condition = g2.Condition →
      SameButTemplates g1.RulesArray g2.RulesArray →
      (LGrammar.passes draws n g1 k).1.Condition = (LGrammar.passes draws n g2 k).1.Condition := by
  intro n
  induction n with
  | zero => intro g1 g2 k hc _; exact hc
  | succ n ih =>
    intro g1 g2 k hc hr
    simp only [LGrammar.passes]
    have hp : (g1.pass draws k).1.Condition = (g2.pass draws k).1.Condition := by
      simp only [LGrammar.pass, hc, rewriteFrom_SameButTemplates _ _ hr]
    have hk : (g1.pass draws k).2 = (g2.pass draws k).2 := by
      simp only [LGrammar.pass, hc]
    rw [hk]
    exact ih _ _ _ hp hr

/-- C17: two grammars with the same string whose rule lists agree in every
pattern symbol and weight, whatever their templates, have the same result
after `Iterate(n)`, for every iteration count and sequence of draws. -/
theorem C17_templates_irrelevant (g1 g2 : LGrammar) (draws : Nat → ℚ) (n : Int)
    (hc : g1.Condition = g2.Condition) (hr : SameButTemplates g1.RulesArray g2.RulesArray) :
    (g1.Iterate draws n).GetResult = (g2.Iterate draws n).GetResult :=
  passes_SameButTemplates draws n.toNat g1 g2 0 hc hr

/-- C17 on an example: the rule for `F` with the template `F[+F]` and with the
template `anything` give the same string after two passes. -/
theorem C17_templates_irrelevant_witness :
    (({ Condition := "F+F".toList, RulesArray := [LRule.create ['F'] branchToken 1],
        TotalProbability := 1 } : LGrammar).Iterate (fun _ => 1 / 2) 2).GetResult =
    (({ Condition := "F+F".toList, RulesArray := [LRule.create ['F'] "anything".toList 1],
        TotalProbability := 1 } : LGrammar).Iterate (fun _ => 1 / 2) 2).GetResult :=
  C17_templates_irrelevant _ _ (fun _ => 1 / 2) 2 rfl
    (List.Forall₂.cons ⟨rfl, rfl⟩ List.Forall₂.nil)

/-! ## Claims C12, C13 and C19 -/

theorem GenerateSegments_of_setup_eq (e : Engine) (m1 m2 : PhysicsModel) (d : Draws)
    (fuel : Nat) (h : setup m1 = setup m2) :
    GenerateSegments e m1 d fuel = GenerateSegments e m2 d fuel := by
  simp only [GenerateSegments, GenerateSegmentsTrace, h]

/-- C12: the loop appends to the member list, which lines 40-43 empty first, so
the result of a call does not depend on what the instance had stored: a call
on an instance with any stored list gives what a call on the instance with an
empty list gives; the list it stores is a prefix of the walks of that call
laid end to end, so it holds none of the earlier segments; and the second of
two calls gives what a single call with the second draws gives on the
original instance. -/
theorem C12_no_accumulation (e : Engine) (m : PhysicsModel) (d d2 : Draws) (fuel fuel2 : Nat)
    (prev : List Segment) :
    GenerateSegments e { m with LightningSegments := prev } d fuel =
      GenerateSegments e { m with LightningSegments := [] } d fuel ∧
    (∀ st, GenerateSegmentsTrace e { m with LightningSegments := prev } d fuel = some st →
      st.LightningSegments <+: st.Walks.flatten) ∧
    (GenerateSegments e m d fuel).bind (fun m1 => GenerateSegments e m1 d2 fuel2) =
      (GenerateSegments e m d fuel).bind (fun _ => GenerateSegments e m d2 fuel2) := by
  refine ⟨?_, ?_, ?_⟩
  · exact GenerateSegments_of_setup_eq e _ _ d fuel rfl
  · intro st h
    exact (generateLoop_post e (setup { m with LightningSegments := prev }) d
      (clampA d.constA) fuel _ st
      (show LoopInv (startState (setup { m with LightningSegments := prev })) from
        LoopInv_initialState) h).2.2
  · cases h : GenerateSegments e m d fuel with
    | none => rfl
    | some m1 =>
      simp only [Option.some_bind]
      simp only [GenerateSegments, Option.map_eq_some'] at h
      obtain ⟨st, _, rfl⟩ := h
      exact GenerateSegments_of_setup_eq e _ _ d2 fuel2 rfl

/-- C13: `CalculatePressure(0)` is `1.01325` when the engine's power of 1 is 1,
and for every height `h` the function returns
`101325 * (1 - 2.25577e-5 * h) ^ 5.25588 / 100000`, the powers being those of
the engine, when the engine's `Pow(10, -5)` is `1e-5`. -/
theorem C13_pressure (e : Engine) (h : ℚ) (hp1 : e.Pow 1 5.25588 = 1)
    (hp10 : e.Pow 10 (-5) = 1 / 100000) :
    CalculatePressure e 0 = 1.01325 ∧
    CalculatePressure e h = 101325 * e.Pow (1 - 2.25577e-5 * h) 5.25588 / 100000 := by
  constructor
  · simp only [CalculatePressure, mul_zero, sub_zero, hp1]
    norm_num
  · simp only [CalculatePressure, hp10]
    norm_num

/-- C13 on the engine `decimalEngine`, at height 1000. -/
theorem C13_pressure_witness :
    CalculatePressure decimalEngine 0 = 1.01325 ∧
    CalculatePressure decimalEngine 1000 =
      101325 * decimalEngine.Pow (1 - 2.25577e-5 * 1000) 5.25588 / 100000 :=
  C13_pressure decimalEngine 1000 (by decide!) (by decide!)

/-- A relation `R` between a segment and the next one of its walk, and a
property `U` of every segment, that the two ways of generating a segment
guarantee, hold in every walk of every run. -/
theorem walks_chain (e : Engine) (m : PhysicsModel) (d : Draws) (c : ℚ)
    (R : Segment → Segment → Prop) (U : Segment → Prop)
    (hroot : ∀ seg u sample, U (GenerateFirstSegment e m seg c u sample))
    (hU : ∀ st p, U (nextSegment e m d c st p))
    (hR : ∀ st p, R p (nextSegment e m d c st p)) :
    ∀ (fuel : Nat) (st st' : GenState),
      (∀ w ∈ st.Walks, List.Chain' R w ∧ ∀ s ∈ w, U s) →
      generateLoop e m d c fuel st = some st' →
      ∀ w ∈ st'.Walks, List.Chain' R w ∧ ∀ s ∈ w, U s := by
  have hwalk : ∀ (fuel : Nat) (st0 st1 : GenState), (st0.firstSegment = true → st0.currentBranch = []) →
      List.Chain' R st0.currentBranch → (∀ s ∈ st0.currentBranch, U s) →
      branchWalk e m d c fuel st0 = some st1 →
      st1.Walks = st0.Walks ∧ List.Chain' R st1.currentBranch ∧ ∀ s ∈ st1.currentBranch, U s := by
    intro fuel st0 st1 h1 h2 h3 hw
    refine branchWalk_rule e m d c
      (fun st => st.Walks = st0.Walks ∧ (st.firstSegment = true → st.currentBranch = []) ∧
        List.Chain' R st.currentBranch ∧ ∀ s ∈ st.currentBranch, U s)
      (fun st => st.Walks = st0.Walks ∧ List.Chain' R st.currentBranch ∧
        ∀ s ∈ st.currentBranch, U s)
      ?_ ?_ ?_ ?_ fuel st0 st1 ⟨rfl, h1, h2, h3⟩ hw
    · intro st ⟨a, _, b, c'⟩ _
      exact ⟨a, b, c'⟩
    · intro st ⟨a, _, b, c'⟩ _ _ _
      exact ⟨a, b, c'⟩
    · intro st ⟨a, hf, _, _⟩ _ hfirst
      have hcb := hf hfirst
      refine ⟨a, by intro hh; simp [generateRoot] at hh, ?_, ?_⟩
      · simp [generateRoot, hcb]
      · intro s hs
        simp only [generateRoot, hcb, List.nil_append, List.mem_singleton] at hs
        subst hs
        exact hroot _ _ _
    · intro st p s1 ⟨a, _, b, c'⟩ _ hfirst hsel
      have g := generateSegment_fields e m d c s1 p
      have hs1 : s1.currentBranch = st.currentBranch ∧ s1.Walks = st.Walks ∧
          s1.firstSegment = st.firstSegment ∧ (∀ x ∈ st.currentBranch.getLast?, x = p) := by
        rcases selectParent_some st s1 p hsel with ⟨hl, rfl⟩ | ⟨hl, _, rfl⟩
        · exact ⟨rfl, rfl, rfl, by intro x hx; rw [hl] at hx; simpa using hx.symm⟩
        · exact ⟨rfl, rfl, rfl, by intro x hx; rw [hl] at hx; simp at hx⟩
      obtain ⟨e1, e2, e3, e4⟩ := hs1
      refine ⟨by rw [g.2.2.2.1, e2, a], by intro hh; rw [g.2.2.2.2.1, e3, hfirst] at hh; simp at hh,
        ?_, ?_⟩
      · rw [g.1, e1, List.chain'_append]
        refine ⟨b, List.chain'_singleton _, ?_⟩
        intro x hx y hy
        simp only [List.head?_cons, Option.mem_def, Option.some.injEq] at hy
        subst hy
        rw [e4 x hx]
        exact hR s1 p
      · intro s hs
        rw [g.1, e1, List.mem_append, List.mem_singleton] at hs
        rcases hs with hs | hs
        · exact c' s hs
        · subst hs
          exact hU s1 p
  intro fuel st st' hP h
  refine generateLoop_rule e m d c
    (fun s => ∀ w ∈ s.Walks, List.Chain' R w ∧ ∀ x ∈ w, U x)
    (fun s => ∀ w ∈ s.Walks, List.Chain' R w ∧ ∀ x ∈ w, U x)
    (fun s => ∀ w ∈ s.Walks, List.Chain' R w ∧ ∀ x ∈ w, U x) ?_ ?_ ?_ ?_ fuel st st' hP h
  · intro s hs _; exact hs
  · intro f s s1 hs _ hw
    obtain ⟨hW, hC, hUs⟩ := hwalk f _ s1 (fun _ => rfl) (by simp) (by simp) hw
    simp only at hW
    intro w hw2
    simp only [appendBranch] at hw2
    split_ifs at hw2 with hemp
    · exact hs w (by rw [← hW]; exact hw2)
    · rw [List.mem_append, List.mem_singleton] at hw2
      rcases hw2 with hw2 | hw2
      · exact hs w (by rw [← hW]; exact hw2)
      · subst hw2
        exact ⟨hC, hUs⟩
  · intro s hs _ _ _; exact hs
  · intro s hs _; exact hs

theorem nextSegment_ambient (e : Engine) (m : PhysicsModel) (d : Draws) (c : ℚ)
    (st : GenState) (p : Segment) :
    MinDiameterLaw c (nextSegment e m d c st p) := by
  simp only [MinDiameterLaw, nextSegment, withExtent, headedSegment]
  repeat' split
  all_goals simp [startSegment, withAmbient, CalculateMinDiameter]

theorem GenerateFirstSegment_ambient (e : Engine) (m : PhysicsModel) (seg : Segment)
    (c u sample : ℚ) : MinDiameterLaw c (GenerateFirstSegment e m seg c u sample) := by
  simp [MinDiameterLaw, GenerateFirstSegment, withExtent, withAmbient, CalculateMinDiameter]

theorem nextSegment_DiameterStep (e : Engine) (m : PhysicsModel) (d : Draws) (c : ℚ)
    (st : GenState) (p : Segment) :
    DiameterStep (e.Sqrt (1 / 2)) p (nextSegment e m d c st p) := by
  have nx := nextSegment_fields e m d c st p
  refine ⟨by rw [nx.2.2.1, nx.2.1], ?_⟩
  intro hne
  rw [nx.2.2.1, nx.2.1]
  rw [nx.2.1] at hne
  rw [mul_div_cancel_right₀ _ hne]

/-- C19: in every walk of every run, every segment but the first of the walk
has the diameter `Sqrt(0.5) * (p.Diameter / p.MinDiameter) * MinDiameter`, with
`p` the segment before it in the walk, so its ratio of diameter to minimum
diameter is `Sqrt(0.5)` times that of `p` when its minimum diameter is not
zero; and every segment has the minimum diameter
`A * (temperature / 293) / pressure`, with `A` the constant of the run. -/
theorem C19_diameter_recurrence (e : Engine) (m : PhysicsModel) (d : Draws) (fuel : Nat)
    (st : GenState) (h : GenerateSegmentsTrace e m d fuel = some st) :
    ∀ w ∈ st.Walks,
      List.Chain' (DiameterStep (e.Sqrt (1 / 2))) w ∧
      ∀ s ∈ w, MinDiameterLaw (clampA d.constA) s :=
  walks_chain e (setup m) d (clampA d.constA) (DiameterStep (e.Sqrt (1 / 2)))
    (MinDiameterLaw (clampA d.constA))
    (fun seg u sample => GenerateFirstSegment_ambient e (setup m) seg _ u sample)
    (fun st p => nextSegment_ambient e (setup m) d _ st p)
    (fun st p => nextSegment_DiameterStep e (setup m) d _ st p)
    fuel initialState st (by intro w hw; simp [initialState] at hw) h

/-- C19 on an example: the sample run returns with walks of 9, 1 and 1
segments, in which the recurrence holds. -/
theorem C19_diameter_recurrence_witness :
    ∃ st, GenerateSegmentsTrace sampleEngine defaults sampleDraws 20 = some st ∧
      st.Walks.map List.length = [9, 1, 1] ∧
      ∀ w ∈ st.Walks,
        List.Chain' (DiameterStep (sampleEngine.Sqrt (1 / 2))) w ∧
        ∀ s ∈ w, MinDiameterLaw (clampA sampleDraws.constA) s := by
  obtain ⟨st, hst⟩ := Option.isSome_iff_exists.mp sample_run_returns
  have hlen := sample_run_walk_lengths
  rw [hst] at hlen
  exact ⟨st, hst, by simpa using hlen,
    C19_diameter_recurrence sampleEngine defaults sampleDraws 20 st hst⟩

/-! ## Facts about the runs step by step -/

theorem runSteps_add (e : Engine) (m : PhysicsModel) (d : Draws) (c : ℚ) (a : Nat)
    (x : Point × GenState) : ∀ b : Nat,
    runSteps e m d c (a + b) x = (runSteps e m d c a x).bind (runSteps e m d c b) := by
  intro b
  induction b with
  | zero =>
    simp only [Nat.add_zero]
    cases runSteps e m d c a x <;> rfl
  | succ k ih =>
    rw [← Nat.add_assoc, runSteps, ih]
    cases runSteps e m d c a x with
    | none => rfl
    | some y => simp [runSteps]

theorem runSteps_succ_left (e : Engine) (m : PhysicsModel) (d : Draws) (c : ℚ) (n : Nat)
    (x : Point × GenState) :
    runSteps e m d c (n + 1) x = (step e m d c x).bind (runSteps e m d c n) := by
  rw [Nat.add_comm, runSteps_add]
  simp [runSteps]

/-- A branch walk that ends is a run of steps from the head of the inner loop
to its exit. -/
theorem branchWalk_runSteps (e : Engine) (m : PhysicsModel) (d : Draws) (c : ℚ) :
    ∀ (fuel : Nat) (st st' : GenState), branchWalk e m d c fuel st = some st' →
      ∃ n, runSteps e m d c n (Point.walkHead, st) = some (Point.walkExit, st') := by
  intro fuel
  induction fuel with
  | zero => intro st st' h; simp [branchWalk] at h
  | succ k ih =>
    intro st st' h
    rw [branchWalk] at h
    by_cases hf : st.bIsBranchFinished = true
    · rw [if_pos hf] at h
      cases h
      exact ⟨1, by simp [runSteps, step, hf]⟩
    · rw [if_neg hf] at h
      by_cases h1 : st.firstSegment = true
      · rw [if_pos h1] at h
        obtain ⟨n, hn⟩ := ih _ _ h
        exact ⟨n + 1, by rw [runSteps_succ_left]; simp [step, hf, h1, hn]⟩
      · rw [if_neg h1] at h
        cases hs : selectParent st with
        | none =>
          rw [hs] at h
          cases h
          exact ⟨1, by simp [runSteps, step, hf, h1, hs]⟩
        | some ps =>
          obtain ⟨p, st1⟩ := ps
          rw [hs] at h
          obtain ⟨n, hn⟩ := ih _ _ h
          exact ⟨n + 1, by rw [runSteps_succ_left]; simp [step, hf, h1, hs, hn]⟩

/-- A run of the outer loop that returns is a run of steps to the return. -/
theorem generateLoop_runSteps (e : Engine) (m : PhysicsModel) (d : Draws) (c : ℚ) :
    ∀ (fuel : Nat) (st st' : GenState), generateLoop e m d c fuel st = some st' →
      ∃ n, runSteps e m d c n (Point.loopHead, st) = some (Point.returned, st') := by
  intro fuel
  induction fuel with
  | zero => intro st st' h; simp [generateLoop] at h
  | succ k ih =>
    intro st st' h
    rw [generateLoop] at h
    by_cases hg : st.bIsGenerating = true
    · rw [if_pos hg] at h
      cases hw : branchWalk e m d c (k + 1)
          { st with currentBranch := [], bIsBranchFinished := false } with
      | none => rw [hw] at h; simp at h
      | some st1 =>
        rw [hw] at h
        simp only at h
        obtain ⟨n1, hn1⟩ := branchWalk_runSteps e m d c _ _ _ hw
        have hfirst : runSteps e m d c (1 + n1) (Point.loopHead, st) =
            some (Point.walkExit, st1) := by
          have h1 : runSteps e m d c 1 (Point.loopHead, st) =
              some (Point.walkHead,
                { st with currentBranch := [], bIsBranchFinished := false }) := by
            simp only [runSteps, Option.some_bind, step]
            rw [if_pos hg]
          rw [runSteps_add, h1]
          exact hn1
        by_cases hl : m.bUseSegmentLimit = true ∧
            m.MaxSegments ≤ ((appendBranch st1).LightningSegments.length : Int)
        · rw [if_pos hl] at h
          by_cases h2 : m.MaxSegments < 0
          · rw [if_pos h2] at h
            simp at h
          · rw [if_neg h2] at h
            cases h
            refine ⟨(1 + n1) + 1, ?_⟩
            rw [runSteps, hfirst]
            simp only [Option.some_bind, step]
            rw [if_pos hl, if_neg h2]
        · rw [if_neg hl] at h
          obtain ⟨n2, hn2⟩ := ih _ _ h
          refine ⟨((1 + n1) + 1) + n2, ?_⟩
          rw [runSteps_add, runSteps, hfirst]
          simp only [Option.some_bind, step]
          rw [if_neg hl]
          exact hn2
    · rw [if_neg hg] at h
      cases h
      exact ⟨1, by simp [runSteps, step, hg]⟩

/-- The state at the return of a call is reached by the steps of the call. -/
theorem GenerateSegmentsTrace_reached (e : Engine) (m : PhysicsModel) (d : Draws) (fuel : Nat)
    (st : GenState) (h : GenerateSegmentsTrace e m d fuel = some st) :
    ∃ n, ReachedAt e m d n Point.returned st :=
  generateLoop_runSteps e (setup m) d (clampA d.constA) fuel initialState st h

/-- The rule for the runs step by step: a property that holds at the start and
is kept by each kind of step, taken from a point the run has got to, holds
wherever the run gets. -/
theorem runSteps_rule (e : Engine) (m : PhysicsModel) (d : Draws) (c : ℚ)
    (x0 : Point × GenState) (P : Nat → Point → GenState → Prop)
    (hloop : ∀ n st, runSteps e m d c n x0 = some (Point.loopHead, st) →
      P n Point.loopHead st → st.bIsGenerating = true →
      P (n + 1) Point.walkHead { st with currentBranch := [], bIsBranchFinished := false })
    (hret : ∀ n st, runSteps e m d c n x0 = some (Point.loopHead, st) →
      P n Point.loopHead st → st.bIsGenerating = false → P (n + 1) Point.returned st)
    (hdone : ∀ n st, runSteps e m d c n x0 = some (Point.walkHead, st) →
      P n Point.walkHead st → st.bIsBranchFinished = true → P (n + 1) Point.walkExit st)
    (hroot : ∀ n st, runSteps e m d c n x0 = some (Point.walkHead, st) →
      P n Point.walkHead st → st.bIsBranchFinished = false → st.firstSegment = true →
      P (n + 1) Point.walkHead (generateRoot e m d c st))
    (hbreak : ∀ n st, runSteps e m d c n x0 = some (Point.walkHead, st) →
      P n Point.walkHead st → st.bIsBranchFinished = false → st.firstSegment = false →
      selectParent st = none → P (n + 1) Point.walkExit { st with bIsGenerating := false })
    (hseg : ∀ n st p st1, runSteps e m d c n x0 = some (Point.walkHead, st) →
      P n Point.walkHead st → st.bIsBranchFinished = false → st.firstSegment = false →
      selectParent st = some (p, st1) →
      P (n + 1) Point.walkHead (generateSegment e m d c st1 p))
    (htrim : ∀ n st, runSteps e m d c n x0 = some (Point.walkExit, st) →
      P n Point.walkExit st → m.bUseSegmentLimit = true →
      m.MaxSegments ≤ ((appendBranch st).LightningSegments.length : Int) → 0 ≤ m.MaxSegments →
      P (n + 1) Point.returned { appendBranch st with
        bIsGenerating := false,
        LightningSegments := (appendBranch st).LightningSegments.take m.MaxSegments.toNat })
    (hcont : ∀ n st, runSteps e m d c n x0 = some (Point.walkExit, st) →
      P n Point.walkExit st →
      ¬ (m.bUseSegmentLimit = true ∧
        m.MaxSegments ≤ ((appendBranch st).LightningSegments.length : Int)) →
      P (n + 1) Point.loopHead (appendBranch st))
    (h0 : P 0 x0.1 x0.2) :
    ∀ (n : Nat) (pt : Point) (st : GenState),
      runSteps e m d c n x0 = some (pt, st) → P n pt st := by
  intro n
  induction n with
  | zero =>
    intro pt st h
    simp only [runSteps, Option.some.injEq] at h
    rw [h] at h0
    exact h0
  | succ k ih =>
    intro pt st h
    rw [runSteps] at h
    cases hk : runSteps e m d c k x0 with
    | none => rw [hk] at h; simp at h
    | some y =>
      obtain ⟨pt0, s0⟩ := y
      rw [hk] at h
      simp only [Option.some_bind] at h
      have hP := ih pt0 s0 hk
      cases pt0 with
      | loopHead =>
        simp only [step] at h
        by_cases hg : s0.bIsGenerating = true
        · rw [if_pos hg] at h
          have hh := Prod.mk.inj (Option.some.inj h)
          rw [← hh.1, ← hh.2]
          exact hloop k s0 hk hP hg
        · rw [if_neg hg] at h
          have hh := Prod.mk.inj (Option.some.inj h)
          rw [← hh.1, ← hh.2]
          exact hret k s0 hk hP (by simpa using hg)
      | walkHead =>
        simp only [step] at h
        by_cases hf : s0.bIsBranchFinished = true
        · rw [if_pos hf] at h
          have hh := Prod.mk.inj (Option.some.inj h)
          rw [← hh.1, ← hh.2]
          exact hdone k s0 hk hP hf
        · rw [if_neg hf] at h
          have hf2 : s0.bIsBranchFinished = false := by simpa using hf
          by_cases h1 : s0.firstSegment = true
          · rw [if_pos h1] at h
            have hh := Prod.mk.inj (Option.some.inj h)
            rw [← hh.1, ← hh.2]
            exact hroot k s0 hk hP hf2 h1
          · rw [if_neg h1] at h
            have h12 : s0.firstSegment = false := by simpa using h1
            cases hs : selectParent s0 with
            | none =>
              rw [hs] at h
              have hh := Prod.mk.inj (Option.some.inj h)
              rw [← hh.1, ← hh.2]
              exact hbreak k s0 hk hP hf2 h12 hs
            | some ps =>
              obtain ⟨p, st1⟩ := ps
              rw [hs] at h
              have hh := Prod.mk.inj (Option.some.inj h)
              rw [← hh.1, ← hh.2]
              exact hseg k s0 p st1 hk hP hf2 h12 hs
      | walkExit =>
        simp only [step] at h
        by_cases hl : m.bUseSegmentLimit = true ∧
            m.MaxSegments ≤ ((appendBranch s0).LightningSegments.length : Int)
        · rw [if_pos hl] at h
          by_cases h2 : m.MaxSegments < 0
          · rw [if_pos h2] at h
            simp at h
          · rw [if_neg h2] at h
            have hh := Prod.mk.inj (Option.some.inj h)
            rw [← hh.1, ← hh.2]
            exact htrim k s0 hk hP hl.1 hl.2 (by omega)
        · rw [if_neg hl] at h
          have hh := Prod.mk.inj (Option.some.inj h)
          rw [← hh.1, ← hh.2]
          exact hcont k s0 hk hP hl
      | returned => simp [step] at h

/-! ## Facts about the recording of branch points -/

theorem BranchLogic_branch (e : Engine) (m : PhysicsModel) (d : Draws) (st : GenState)
    (segment parent : Segment) (a b dia : ℚ) (hv : segment.MinDiameter < dia)
    (hc : FRandRange 0 1 (d.frand st.FRands) < m.BranchChance) :
    (BranchLogic e m d st segment parent a b dia).branchPoints =
      st.branchPoints ++
        (if st.secondSegment && m.bPackagedBuildFix then [segment, segment] else [segment]) ∧
    (BranchLogic e m d st segment parent a b dia).branchDirection =
      st.branchDirection ++ [e.RotateVector (branchRotation m a b) parent.Direction] ∧
    (BranchLogic e m d st segment parent a b dia).secondSegment =
      (st.secondSegment && !m.bPackagedBuildFix) := by
  simp only [BranchLogic, branchRotation, if_pos hv, if_pos hc]
  cases h2 : st.secondSegment <;> cases hf : m.bPackagedBuildFix <;> simp

theorem BranchLogic_no_branch (e : Engine) (m : PhysicsModel) (d : Draws) (st : GenState)
    (segment parent : Segment) (a b dia : ℚ)
    (h : ¬ (segment.MinDiameter < dia ∧ FRandRange 0 1 (d.frand st.FRands) < m.BranchChance)) :
    (BranchLogic e m d st segment parent a b dia).branchPoints = st.branchPoints ∧
    (BranchLogic e m d st segment parent a b dia).branchDirection = st.branchDirection ∧
    (BranchLogic e m d st segment parent a b dia).secondSegment =
      (st.secondSegment && !decide (segment.MinDiameter < dia)) := by
  by_cases hv : segment.MinDiameter < dia
  · have hc : ¬ FRandRange 0 1 (d.frand st.FRands) < m.BranchChance := fun hc => h ⟨hv, hc⟩
    simp only [BranchLogic, if_pos hv, if_neg hc]
    cases h2 : st.secondSegment <;> simp [hv]
  · simp [BranchLogic, hv]

theorem Branches_iff (e : Engine) (m : PhysicsModel) (d : Draws) (c : ℚ) (st : GenState)
    (p : Segment) :
    Branches e m d c st p ↔
      ((headedSegment e m d c st p).MinDiameter < CalculateDiameter e (startSegment e m d c st p) p ∧
        FRandRange 0 1 (d.frand (st.FRands + 1)) < m.BranchChance) := by
  have n := nextSegment_fields e m d c st p
  have h := headedSegment_fields e m d c st p
  simp only [Branches, n.2.1, n.2.2.1, h.2, CalculateDiameter]

/-- The stacks and the counters after the iteration that generates a segment
that branches. -/
theorem generateSegment_branch (e : Engine) (m : PhysicsModel) (d : Draws) (c : ℚ)
    (st : GenState) (p : Segment) (h : Branches e m d c st p) :
    (generateSegment e m d c st p).branchPoints =
      st.branchPoints ++
        (if st.secondSegment && m.bPackagedBuildFix
          then [headedSegment e m d c st p, headedSegment e m d c st p]
          else [headedSegment e m d c st p]) ∧
    (generateSegment e m d c st p).branchDirection =
      (if st.currentBranch.isEmpty then st.branchDirection.dropLast else st.branchDirection) ++
        [storedDirection e m d c st p] ∧
    (generateSegment e m d c st p).secondSegment =
      (st.secondSegment && !m.bPackagedBuildFix) ∧
    (generateSegment e m d c st p).Steps = st.Steps + 1 := by
  rw [Branches_iff] at h
  have b := BranchLogic_branch e m d
    { st with
      FRands := st.FRands + 1,
      branchDirection :=
        if st.currentBranch.isEmpty then st.branchDirection.dropLast else st.branchDirection }
    (headedSegment e m d c st p) (parentAtPush e m d c st p) (splitAngle d st)
    (splitAngleOffset d st)
    (CalculateDiameter e (startSegment e m d c st p) p) h.1 h.2
  have f := BranchLogic_frame e m d
    { st with
      FRands := st.FRands + 1,
      branchDirection :=
        if st.currentBranch.isEmpty then st.branchDirection.dropLast else st.branchDirection }
    (headedSegment e m d c st p) (parentAtPush e m d c st p) (splitAngle d st)
    (splitAngleOffset d st)
    (CalculateDiameter e (startSegment e m d c st p) p)
  refine ⟨?_, ?_, ?_, ?_⟩
  · simp only [generateSegment, b.1]
  · simp only [generateSegment, b.2.1, storedDirection]
  · simp only [generateSegment, b.2.2]
  · simp only [generateSegment, f.2.2.2.2.2]

/-- The stacks and the counters after the iteration that generates a segment
that does not branch. -/
theorem generateSegment_no_branch (e : Engine) (m : PhysicsModel) (d : Draws) (c : ℚ)
    (st : GenState) (p : Segment) (h : ¬ Branches e m d c st p) :
    (generateSegment e m d c st p).branchPoints = st.branchPoints ∧
    (generateSegment e m d c st p).branchDirection =
      (if st.currentBranch.isEmpty then st.branchDirection.dropLast else st.branchDirection) ∧
    (generateSegment e m d c st p).secondSegment =
      (st.secondSegment &&
        !decide ((nextSegment e m d c st p).MinDiameter < (nextSegment e m d c st p).Diameter)) ∧
    (generateSegment e m d c st p).Steps = st.Steps + 1 := by
  have hv : ((nextSegment e m d c st p).MinDiameter < (nextSegment e m d c st p).Diameter) ↔
      ((headedSegment e m d c st p).MinDiameter <
        CalculateDiameter e (startSegment e m d c st p) p) := by
    have n := nextSegment_fields e m d c st p
    have hh := headedSegment_fields e m d c st p
    simp only [n.2.1, n.2.2.1, hh.2, CalculateDiameter]
  rw [Branches_iff] at h
  have b := BranchLogic_no_branch e m d
    { st with
      FRands := st.FRands + 1,
      branchDirection :=
        if st.currentBranch.isEmpty then st.branchDirection.dropLast else st.branchDirection }
    (headedSegment e m d c st p) (parentAtPush e m d c st p) (splitAngle d st)
    (splitAngleOffset d st)
    (CalculateDiameter e (startSegment e m d c st p) p) h
  have f := BranchLogic_frame e m d
    { st with
      FRands := st.FRands + 1,
      branchDirection :=
        if st.currentBranch.isEmpty then st.branchDirection.dropLast else st.branchDirection }
    (headedSegment e m d c st p) (parentAtPush e m d c st p) (splitAngle d st)
    (splitAngleOffset d st)
    (CalculateDiameter e (startSegment e m d c st p) p)
  refine ⟨?_, ?_, ?_, ?_⟩
  · simp only [generateSegment, b.1]
  · simp only [generateSegment, b.2.1]
  · simp only [generateSegment, b.2.2, hv]
  · simp only [generateSegment, f.2.2.2.2.2]

theorem not_Branches_of_no_chance (e : Engine) (m : PhysicsModel) (d : Draws) (c : ℚ)
    (hB : m.BranchChance ≤ 0) (hd : ∀ k, 0 ≤ d.frand k ∧ d.frand k ≤ 1)
    (st : GenState) (p : Segment) : ¬ Branches e m d c st p := by
  intro h
  have h2 := h.2
  simp only [FRandRange] at h2
  have := (hd (st.FRands + 1)).1
  linarith

/-- With no chance to branch, every point of a run is in the shape
`SingleWalk`. -/
theorem SingleWalk_reached (e : Engine) (m : PhysicsModel) (d : Draws)
    (hB : m.BranchChance ≤ 0) (hd : ∀ k, 0 ≤ d.frand k ∧ d.frand k ≤ 1) :
    ∀ (n : Nat) (pt : Point) (st : GenState), ReachedAt e m d n pt st →
      SingleWalk m (rootSegment e m d) pt st := by
  have hB2 : (setup m).BranchChance ≤ 0 := hB
  refine runSteps_rule e (setup m) d (clampA d.constA) (Point.loopHead, initialState)
    (fun _ pt st => SingleWalk m (rootSegment e m d) pt st) ?_ ?_ ?_ ?_ ?_ ?_ ?_ ?_ ?_
  · -- the outer loop goes on
    rintro _ st _ ⟨hbp, hbd, hA | ⟨w, hW, hh, hc, hl, hf, _, _, h9⟩⟩ _
    · obtain ⟨a1, a2, a3, _, a5, a6⟩ := hA
      refine ⟨hbp, hbd, Or.inl ⟨a1, a2, a3, by simp, ?_, ?_⟩⟩
      · intro hfs
        obtain ⟨_, b2, b3, _, _⟩ := a5 hfs
        exact ⟨rfl, b2, b3, rfl, by simp⟩
      · intro hfs
        exact absurd rfl (a6 hfs).1
    · exact ⟨hbp, hbd, Or.inr ⟨w, hW, hh, hc, hl, hf, fun _ => ⟨rfl, rfl⟩, by simp, h9⟩⟩
  · -- the outer loop ends
    rintro _ st _ ⟨hbp, hbd, hA | ⟨w, hW, hh, hc, hl, hf, _, _, h9⟩⟩ hg
    · rw [hA.2.2.1] at hg
      simp at hg
    · exact ⟨hbp, hbd, Or.inr ⟨w, hW, hh, hc, hl, hf, by simp, by simp, h9⟩⟩
  · -- the inner loop ends by its condition
    rintro _ st _ ⟨hbp, hbd, hA | ⟨w, hW, hh, hc, hl, hf, h7, _, h9⟩⟩ hfin
    · obtain ⟨a1, a2, a3, _, a5, a6⟩ := hA
      have hfs : st.firstSegment = false := by
        cases hfs : st.firstSegment with
        | false => rfl
        | true => have := (a5 hfs).2.2.2.1; rw [hfin] at this; simp at this
      refine ⟨hbp, hbd, Or.inl ⟨a1, a2, a3, by simp, ?_, ?_⟩⟩
      · intro h; rw [hfs] at h; simp at h
      · intro _; exact ⟨by simp, (a6 hfs).2⟩
    · have := (h7 rfl).2
      rw [hfin] at this
      simp at this
  · -- the root segment
    rintro _ st _ ⟨hbp, hbd, hA | ⟨w, hW, hh, hc, hl, hf, h7, _, h9⟩⟩ _ hfs
    · obtain ⟨a1, a2, a3, _, a5, _⟩ := hA
      obtain ⟨b1, b2, b3, _, _⟩ := a5 hfs
      refine ⟨hbp, hbd, Or.inl ⟨a1, a2, a3, by simp, ?_, ?_⟩⟩
      · intro h; simp [generateRoot] at h
      · intro _
        refine ⟨by simp, ?_, ?_⟩
        · simp [generateRoot, b1, b2, b3, rootSegment]
        · simp [generateRoot, b1, Connected]
    · rw [hf] at hfs
      simp at hfs
  · -- the break
    rintro _ st _ ⟨hbp, hbd, hA | ⟨w, hW, hh, hc, hl, hf, h7, _, h9⟩⟩ _ hfs hsel
    · have := (hA.2.2.2.2.2 hfs).2.1
      rw [(selectParent_none st hsel).1] at this
      simp at this
    · exact ⟨hbp, hbd, Or.inr ⟨w, hW, hh, hc, hl, hf, by simp, fun _ => (h7 rfl).1, h9⟩⟩
  · -- a segment after the root
    rintro _ st p st1 _ ⟨hbp, hbd, hA | ⟨w, hW, hh, hc, hl, hf, h7, _, h9⟩⟩ _ hfs hsel
    · obtain ⟨a1, a2, a3, _, _, a6⟩ := hA
      obtain ⟨_, c2, c3⟩ := a6 hfs
      have hne : st.currentBranch ≠ [] := by
        intro h0; rw [h0] at c2; simp at c2
      have hst1 : st1 = st ∧ st.currentBranch.getLast? = some p := by
        rcases selectParent_some st st1 p hsel with ⟨hl, h1⟩ | ⟨hl, _, _⟩
        · exact ⟨h1, hl⟩
        · exact absurd hl hne
      obtain ⟨rfl, hlast⟩ := hst1
      have g := generateSegment_fields e (setup m) d (clampA d.constA) st1 p
      have nb := generateSegment_no_branch e (setup m) d (clampA d.constA) st1 p
        (not_Branches_of_no_chance e (setup m) d _ hB2 hd st1 p)
      have hemp : st1.currentBranch.isEmpty = false := by
        cases hcb : st1.currentBranch with
        | nil => exact absurd hcb hne
        | cons a l => rfl
      refine ⟨by rw [nb.1, hbp], by rw [nb.2.1, hemp]; simpa using hbd,
        Or.inl ⟨by rw [g.2.2.2.1, a1], by rw [g.2.2.1, a2], by rw [g.2.2.2.2.2, a3], by simp,
          ?_, ?_⟩⟩
      · intro h; rw [g.2.2.2.2.1, hfs] at h; simp at h
      · intro _
        refine ⟨by simp, ?_, ?_⟩
        · rw [g.1]
          cases hcb : st1.currentBranch with
          | nil => exact absurd hcb hne
          | cons a l => rw [hcb] at c2; simpa using c2
        · rw [g.1]
          refine Connected_append_singleton _ _ c3 ?_
          intro x hx
          rw [hlast] at hx
          simp only [Option.mem_def, Option.some.injEq] at hx
          rw [← hx]
          exact (nextSegment_fields e (setup m) d (clampA d.constA) st1 p).1
    · rcases selectParent_some st st1 p hsel with ⟨hl, _⟩ | ⟨_, hl, _⟩
      · rw [(h7 rfl).1] at hl; simp at hl
      · rw [hbp] at hl; simp at hl
  · -- the return by the segment limit
    rintro _ st _ ⟨hbp, hbd, hA | ⟨w, hW, hh, hc, hl, hf, _, h8, h9⟩⟩ hu hmax _
    · obtain ⟨a1, a2, a3, _, a5, a6⟩ := hA
      have hfs : st.firstSegment = false := by
        cases hfs : st.firstSegment with
        | false => rfl
        | true => exact absurd rfl (a5 hfs).2.2.2.2
      obtain ⟨_, c2, c3⟩ := a6 hfs
      have hemp : st.currentBranch.isEmpty = false := by
        cases hcb : st.currentBranch with
        | nil => rw [hcb] at c2; simp at c2
        | cons a l => rfl
      refine ⟨hbp, hbd, Or.inr ⟨st.currentBranch, ?_, c2, c3, ?_, hfs, by simp, by simp, ?_⟩⟩
      · simp [appendBranch, hemp, a1]
      · simp only [appendBranch, a2, List.nil_append]
        exact List.take_prefix _ _
      · intro hno
        simp only [appendBranch, a2, List.nil_append] at hmax
        exact absurd ⟨hu, hmax⟩ hno
    · refine ⟨hbp, hbd, Or.inr ⟨w, ?_, hh, hc, ?_, hf, by simp, by simp, ?_⟩⟩
      · simp [appendBranch, h8 rfl, hW]
      · simp only [appendBranch, h8 rfl, List.append_nil]
        exact (List.take_prefix _ _).trans hl
      · intro hno
        simp only [appendBranch, h8 rfl, List.append_nil, h9 hno] at hmax
        exact absurd ⟨hu, hmax⟩ hno
  · -- the outer loop is entered again
    rintro _ st _ ⟨hbp, hbd, hA | ⟨w, hW, hh, hc, hl, hf, _, h8, h9⟩⟩ _
    · obtain ⟨a1, a2, a3, _, a5, a6⟩ := hA
      have hfs : st.firstSegment = false := by
        cases hfs : st.firstSegment with
        | false => rfl
        | true => exact absurd rfl (a5 hfs).2.2.2.2
      obtain ⟨_, c2, c3⟩ := a6 hfs
      have hemp : st.currentBranch.isEmpty = false := by
        cases hcb : st.currentBranch with
        | nil => rw [hcb] at c2; simp at c2
        | cons a l => rfl
      refine ⟨hbp, hbd, Or.inr ⟨st.currentBranch, ?_, c2, c3, ?_, hfs, by simp, by simp, ?_⟩⟩
      · simp [appendBranch, hemp, a1]
      · simp [appendBranch, a2]
      · intro _
        simp [appendBranch, a2]
    · refine ⟨hbp, hbd, Or.inr ⟨w, ?_, hh, hc, ?_, hf, by simp, by simp, ?_⟩⟩
      · simp [appendBranch, h8 rfl, hW]
      · simpa [appendBranch, h8 rfl] using hl
      · intro hno
        simpa [appendBranch, h8 rfl] using h9 hno
  · -- the start
    exact ⟨rfl, rfl, Or.inl ⟨rfl, rfl, rfl, by simp, fun _ => ⟨rfl, rfl, rfl, rfl, by simp⟩,
      fun h => by simp [initialState] at h⟩⟩

/-- C20: a segment is recorded as a branch point only if its diameter exceeds
its minimum diameter and the draw of `FRandRange(0, 1)` is below `BranchChance`;
with `BranchChance <= 0` and draws of `FRand()` in `[0, 1]`, no point of a run has
a pending branch point or direction, and a run that returns has walked one
branch only: it starts with the root segment, each of its segments starts where
the one before it ends, and the stored list is that walk (its first
`MaxSegments` segments under the segment limit). -/
theorem C20_no_branch_without_chance (e : Engine) (m : PhysicsModel) (d : Draws)
    (hB : m.BranchChance ≤ 0) (hd : ∀ k, 0 ≤ d.frand k ∧ d.frand k ≤ 1) :
    (∀ (m1 : PhysicsModel) (c : ℚ) (st : GenState) (p : Segment),
      (generateSegment e m1 d c st p).branchPoints ≠ st.branchPoints →
        (nextSegment e m1 d c st p).MinDiameter < (nextSegment e m1 d c st p).Diameter ∧
          FRandRange 0 1 (d.frand (st.FRands + 1)) < m1.BranchChance) ∧
    (∀ (n : Nat) (pt : Point) (st : GenState), ReachedAt e m d n pt st →
      st.branchPoints = [] ∧ st.branchDirection = []) ∧
    (∀ (fuel : Nat) (st : GenState), GenerateSegmentsTrace e m d fuel = some st →
      ∃ w, st.Walks = [w] ∧ w.head? = some (rootSegment e m d) ∧
        List.Chain' (fun a b : Segment => b.StartPos = a.EndPos) w ∧
        st.LightningSegments <+: w ∧
        (¬ (m.bUseSegmentLimit = true ∧ m.MaxSegments ≤ (w.length : Int)) →
          st.LightningSegments = w) ∧
        List.Chain' (fun a b : Segment => b.StartPos = a.EndPos) st.LightningSegments) := by
  refine ⟨?_, ?_, ?_⟩
  · intro m1 c st p hne
    by_contra hnb
    exact hne (generateSegment_no_branch e m1 d c st p hnb).1
  · intro n pt st hr
    have h := SingleWalk_reached e m d hB hd n pt st hr
    exact ⟨h.1, h.2.1⟩
  · intro fuel st hst
    obtain ⟨n, hr⟩ := GenerateSegmentsTrace_reached e m d fuel st hst
    obtain ⟨_, _, hA | ⟨w, hW, hh, hc, hl, _, _, _, h9⟩⟩ :=
      SingleWalk_reached e m d hB hd n _ st hr
    · exact absurd rfl hA.2.2.2.1
    · exact ⟨w, hW, hh, hc, hl, h9, List.Chain'.prefix hc hl⟩


theorem sampleDraws_frand_unit : ∀ k, 0 ≤ sampleDraws.frand k ∧ sampleDraws.frand k ≤ 1 := by
  intro k
  simp only [sampleDraws]
  split <;> norm_num

theorem c20_run_returns :
    (GenerateSegmentsTrace sampleEngine c20Model sampleDraws 20).isSome = true := by
  decide!

theorem c20_run_walk_lengths :
    (GenerateSegmentsTrace sampleEngine c20Model sampleDraws 20).map
      (fun st => st.Walks.map List.length) = some [9] := by
  decide!

/-- C20 on an example: with `BranchChance` 0 the sample run returns with one walk
of 9 segments that starts with the root segment, the whole of which is
stored, and with no branch point pending. -/
theorem C20_no_branch_without_chance_witness :
    (c20Model.BranchChance ≤ 0 ∧
      ∀ k, 0 ≤ sampleDraws.frand k ∧ sampleDraws.frand k ≤ 1) ∧
    ∃ st, GenerateSegmentsTrace sampleEngine c20Model sampleDraws 20 = some st ∧
      st.branchPoints = [] ∧
      ∃ w, st.Walks = [w] ∧ w.length = 9 ∧
        w.head? = some (rootSegment sampleEngine c20Model sampleDraws) ∧
        List.Chain' (fun a b : Segment => b.StartPos = a.EndPos) w ∧
        st.LightningSegments = w := by
  have hB : c20Model.BranchChance ≤ 0 := by decide!
  have h := C20_no_branch_without_chance sampleEngine c20Model sampleDraws hB
    sampleDraws_frand_unit
  refine ⟨⟨hB, sampleDraws_frand_unit⟩, ?_⟩
  obtain ⟨st, hst⟩ := Option.isSome_iff_exists.mp c20_run_returns
  obtain ⟨n, hn⟩ := GenerateSegmentsTrace_reached _ _ _ _ _ hst
  obtain ⟨w, hW, hh, hc, _, hfull, _⟩ := h.2.2 20 st hst
  have hlen := c20_run_walk_lengths
  rw [hst] at hlen
  simp only [Option.map_some', Option.some.injEq, hW, List.map_cons, List.map_nil,
    List.cons.injEq, and_true] at hlen
  refine ⟨st, hst, (h.2.1 n _ st hn).1, w, hW, hlen, hh, hc, hfull ?_⟩
  rw [hlen]
  intro hlim
  have := hlim.2
  simp [c20Model, defaults] at this

/-! ## Facts about the two stacks -/

theorem forall₂_snoc {α β : Type} {R : α → β → Prop} {l1 : List α} {l2 : List β} {a : α}
    {b : β} (h : List.Forall₂ R l1 l2) (hab : R a b) :
    List.Forall₂ R (l1 ++ [a]) (l2 ++ [b]) :=
  List.rel_append h (List.Forall₂.cons hab List.Forall₂.nil)

theorem forall₂_snoc_left {α β : Type} {R : α → β → Prop} {l1 : List α} {l2 : List β} {a : α}
    (h : List.Forall₂ R (l1 ++ [a]) l2) :
    ∃ l2' b, l2 = l2' ++ [b] ∧ List.Forall₂ R l1 l2' ∧ R a b := by
  have h' := List.forall₂_reverse_iff.mpr h
  rw [List.reverse_append, List.reverse_singleton, List.singleton_append] at h'
  obtain ⟨b, u, hab, hu, hl2⟩ := List.forall₂_cons_left_iff.mp h'
  refine ⟨u.reverse, b, ?_, ?_, hab⟩
  · have := congrArg List.reverse hl2
    simpa using this
  · exact List.forall₂_reverse_iff.mp (by simpa using hu)

theorem forall₂_mem_left {α β : Type} {R : α → β → Prop} {l1 : List α} {l2 : List β}
    (h : List.Forall₂ R l1 l2) : ∀ a ∈ l1, ∃ b, R a b := by
  induction h with
  | nil => intro a ha; simp at ha
  | cons hab _ ih =>
    intro a ha
    rcases List.mem_cons.mp ha with rfl | ha
    · exact ⟨_, hab⟩
    · exact ih a ha

theorem Stacked_nil (PT : Segment → FVector → Prop) (fix : Bool) (dup : Segment) :
    Stacked PT fix dup [] [] :=
  Or.inl List.Forall₂.nil

theorem Stacked_push {PT : Segment → FVector → Prop} {fix : Bool} {dup : Segment}
    {bp : List Segment} {bd : List FVector} (h : Stacked PT fix dup bp bd) {s : Segment}
    {dir : FVector} (hs : PT s dir) : Stacked PT fix dup (bp ++ [s]) (bd ++ [dir]) := by
  rcases h with h | ⟨hfix, paired, hbp, hp, hd⟩
  · exact Or.inl (forall₂_snoc h hs)
  · exact Or.inr ⟨hfix, paired ++ [s], by simp [hbp], forall₂_snoc hp hs, hd⟩

theorem Stacked_pop {PT : Segment → FVector → Prop} {fix : Bool} {dup : Segment}
    {bp : List Segment} {bd : List FVector} (h : Stacked PT fix dup bp bd) :
    Stacked PT fix dup bp.dropLast bd.dropLast := by
  rcases h with h | ⟨hfix, paired, hbp, hp, hd⟩
  · rw [List.dropLast_eq_take, List.dropLast_eq_take, ← h.length_eq]
    exact Or.inl (List.forall₂_take _ h)
  · rcases List.eq_nil_or_concat paired with rfl | ⟨paired', q, hpq⟩
    · have hbd : bd = [] := List.forall₂_nil_left_iff.mp hp
      rw [hbp, hbd]
      exact Or.inl List.Forall₂.nil
    · rw [List.concat_eq_append] at hpq
      subst hpq
      obtain ⟨bd', b, hbd, hp', _⟩ := forall₂_snoc_left hp
      rw [hbp, hbd, ← List.cons_append, List.dropLast_concat, List.dropLast_concat]
      exact Or.inr ⟨hfix, paired', rfl, hp', hd⟩

theorem Stacked_last {PT : Segment → FVector → Prop} {fix : Bool} {dup : Segment}
    {bp : List Segment} {bd : List FVector} (h : Stacked PT fix dup bp bd) {p : Segment}
    (hl : bp.getLast? = some p) :
    (∃ dir, bd.getLast? = some dir ∧ PT p dir) ∨
      (fix = true ∧ bd = [] ∧ bp = [p] ∧ p = dup) := by
  obtain ⟨ys, hys⟩ := List.getLast?_eq_some_iff.mp hl
  rcases h with h | ⟨hfix, paired, hbp, hp, _⟩
  · rw [hys] at h
    obtain ⟨bd', b, hbd, _, hpb⟩ := forall₂_snoc_left h
    exact Or.inl ⟨b, by rw [hbd, List.getLast?_concat], hpb⟩
  · rcases List.eq_nil_or_concat paired with rfl | ⟨paired', q, hpq⟩
    · have hbd : bd = [] := List.forall₂_nil_left_iff.mp hp
      rw [hbp] at hl
      simp only [List.getLast?_singleton, Option.some.injEq] at hl
      exact Or.inr ⟨hfix, hbd, by rw [hbp, hl], hl.symm⟩
    · rw [List.concat_eq_append] at hpq
      subst hpq
      obtain ⟨bd', b, hbd, _, hqb⟩ := forall₂_snoc_left hp
      have hq : q = p := by
        rw [hbp, ← List.cons_append, List.getLast?_concat] at hl
        exact Option.some.inj hl
      rw [hq] at hqb
      exact Or.inl ⟨b, by rw [hbd, List.getLast?_concat], hqb⟩

theorem Stacked_length {PT : Segment → FVector → Prop} {fix : Bool} {dup : Segment}
    {bp : List Segment} {bd : List FVector} (h : Stacked PT fix dup bp bd) :
    (fix = false → bp.length = bd.length) ∧
    (bp.length = bd.length ∨ (bp.length = bd.length + 1 ∧ bp.head? = some dup)) := by
  rcases h with h | ⟨hfix, paired, hbp, hp, _⟩
  · exact ⟨fun _ => h.length_eq, Or.inl h.length_eq⟩
  · refine ⟨fun hf => by rw [hfix] at hf; simp at hf, Or.inr ⟨?_, ?_⟩⟩
    · rw [hbp, List.length_cons, hp.length_eq]
    · rw [hbp, List.head?_cons]

theorem Stacked_mem {PT : Segment → FVector → Prop} {fix : Bool} {dup : Segment}
    {bp : List Segment} {bd : List FVector} (h : Stacked PT fix dup bp bd) :
    ∀ s ∈ bp, ∃ dir, PT s dir := by
  rcases h with h | ⟨_, paired, hbp, hp, hd⟩
  · exact forall₂_mem_left h
  · intro s hs
    rw [hbp] at hs
    rcases List.mem_cons.mp hs with rfl | hs
    · exact hd
    · exact forall₂_mem_left hp s hs

theorem rootState_fields (e : Engine) (m : PhysicsModel) (d : Draws) :
    (rootState e m d).currentBranch = [rootSegment e m d] ∧
    (rootState e m d).bIsBranchFinished = false ∧
    (rootState e m d).firstSegment = false ∧
    (rootState e m d).secondSegment = true ∧
    (rootState e m d).branchPoints = [] ∧
    (rootState e m d).branchDirection = [] ∧
    (rootState e m d).Steps = 1 :=
  ⟨rfl, rfl, rfl, rfl, rfl, rfl, rfl⟩

theorem selectParent_rootState (e : Engine) (m : PhysicsModel) (d : Draws) (p : Segment)
    (st1 : GenState) (h : selectParent (rootState e m d) = some (p, st1)) :
    p = rootSegment e m d ∧ st1 = rootState e m d := by
  rcases selectParent_some _ _ _ h with ⟨hl, h1⟩ | ⟨hl, _, _⟩
  · rw [(rootState_fields e m d).1] at hl
    simp only [List.getLast?_singleton, Option.some.injEq] at hl
    exact ⟨hl.symm, h1⟩
  · rw [(rootState_fields e m d).1] at hl
    simp at hl

/-- What the selection of the parent leaves as it is, and what it pops. -/
theorem selectParent_stacks (st st1 : GenState) (p : Segment)
    (h : selectParent st = some (p, st1)) :
    st1.Steps = st.Steps ∧ st1.secondSegment = st.secondSegment ∧
    st1.currentBranch = st.currentBranch ∧ st1.branchDirection = st.branchDirection ∧
    st1.FRands = st.FRands ∧
    ((st.currentBranch.isEmpty = false ∧ st1.branchPoints = st.branchPoints ∧
        st.currentBranch.getLast? = some p) ∨
      (st.currentBranch.isEmpty = true ∧ st1.branchPoints = st.branchPoints.dropLast ∧
        st.branchPoints.getLast? = some p)) := by
  rcases selectParent_some _ _ _ h with ⟨hl, rfl⟩ | ⟨hl, hb, rfl⟩
  · refine ⟨rfl, rfl, rfl, rfl, rfl, Or.inl ⟨?_, rfl, hl⟩⟩
    cases hcb : st1.currentBranch with
    | nil => rw [hcb] at hl; simp at hl
    | cons a l => rfl
  · exact ⟨rfl, rfl, rfl, rfl, rfl, Or.inr ⟨by rw [hl]; rfl, rfl, hb⟩⟩

/-- From the third step on, no iteration of the inner loop runs with the flag
`secondSegment` set under `bPackagedBuildFix`. -/
theorem LateInv_no_second (e : Engine) (m : PhysicsModel) (d : Draws) (st st1 : GenState)
    (p : Segment) (h : LateInv e m d Point.walkHead st) (hfin : st.bIsBranchFinished = false)
    (hsel : selectParent st = some (p, st1)) :
    (st.secondSegment && m.bPackagedBuildFix) = false := by
  cases hfix : m.bPackagedBuildFix with
  | false => simp
  | true =>
    cases hsec : st.secondSegment with
    | false => rfl
    | true =>
      exfalso
      obtain ⟨hbp, hor⟩ := h.2.2.2 hfix hsec
      rcases hor rfl with hf | hcb
      · rw [hfin] at hf; simp at hf
      · rcases selectParent_some _ _ _ hsel with ⟨hl, _⟩ | ⟨_, hl, _⟩
        · rw [hcb] at hl; simp at hl
        · rw [hbp] at hl; simp at hl

/-- Every point of a run is in the shape `StackInv`. -/
theorem StackInv_reached (e : Engine) (m : PhysicsModel) (d : Draws) :
    ∀ (n : Nat) (pt : Point) (st : GenState), ReachedAt e m d n pt st →
      StackInv e m d n pt st := by
  have hfix : (setup m).bPackagedBuildFix = m.bPackagedBuildFix := rfl
  refine runSteps_rule e (setup m) d (clampA d.constA) (Point.loopHead, initialState)
    (fun n pt st => StackInv e m d n pt st) ?_ ?_ ?_ ?_ ?_ ?_ ?_ ?_ ?_
  · -- the outer loop goes on
    rintro n st _ (⟨rfl, _, rfl⟩ | ⟨_, hpt, _⟩ | ⟨_, hpt, _⟩ | ⟨hn, h1, h2, h3, h4⟩) _
    · exact Or.inr (Or.inl ⟨rfl, rfl, rfl⟩)
    · cases hpt
    · cases hpt
    · exact Or.inr (Or.inr (Or.inr ⟨by omega, h1, h2, h3,
        fun hf hs => ⟨(h4 hf hs).1, fun _ => Or.inr rfl⟩⟩))
  · -- the outer loop ends
    rintro n st _ (⟨rfl, _, rfl⟩ | ⟨_, hpt, _⟩ | ⟨_, hpt, _⟩ | ⟨hn, h1, h2, h3, h4⟩) hg
    · simp [initialState] at hg
    · cases hpt
    · cases hpt
    · exact Or.inr (Or.inr (Or.inr ⟨by omega, h1, h2, h3,
        fun hf hs => ⟨(h4 hf hs).1, fun hp => by cases hp⟩⟩))
  · -- the inner loop ends by its condition
    rintro n st _ (⟨_, hpt, _⟩ | ⟨_, _, rfl⟩ | ⟨_, _, rfl⟩ | ⟨hn, h1, h2, h3, h4⟩) hfin
    · cases hpt
    · simp [initialState] at hfin
    · rw [(rootState_fields e m d).2.1] at hfin
      simp at hfin
    · exact Or.inr (Or.inr (Or.inr ⟨by omega, h1, h2, h3,
        fun hf hs => ⟨(h4 hf hs).1, fun hp => by cases hp⟩⟩))
  · -- the root segment
    rintro n st _ (⟨_, hpt, _⟩ | ⟨rfl, _, rfl⟩ | ⟨_, _, rfl⟩ | ⟨hn, h1, h2, h3, h4⟩) _ hfs
    · cases hpt
    · exact Or.inr (Or.inr (Or.inl ⟨rfl, rfl, rfl⟩))
    · rw [(rootState_fields e m d).2.2.1] at hfs
      simp at hfs
    · rw [h2] at hfs
      simp at hfs
  · -- the break
    rintro n st _ (⟨_, hpt, _⟩ | ⟨_, _, rfl⟩ | ⟨_, _, rfl⟩ | ⟨hn, h1, h2, h3, h4⟩) _ hfs hsel
    · cases hpt
    · simp [initialState] at hfs
    · have := (selectParent_none _ hsel).1
      rw [(rootState_fields e m d).1] at this
      simp at this
    · exact Or.inr (Or.inr (Or.inr ⟨by omega, h1, h2, h3,
        fun hf hs => ⟨(h4 hf hs).1, fun hp => by cases hp⟩⟩))
  · -- a segment after the root
    rintro n st p st1 hr (⟨_, hpt, _⟩ | ⟨_, _, rfl⟩ | ⟨rfl, _, rfl⟩ | ⟨hn, hI⟩) hfin hfs hsel
    · cases hpt
    · simp [initialState] at hfs
    · -- the segment right after the root
      obtain ⟨rfl, rfl⟩ := selectParent_rootState e m d p st1 hsel
      obtain ⟨r1, r2, r3, r4, r5, r6, r7⟩ := rootState_fields e m d
      have g := generateSegment_fields e (setup m) d (clampA d.constA) (rootState e m d)
        (rootSegment e m d)
      have hemp : (rootState e m d).currentBranch.isEmpty = false := by rw [r1]; rfl
      refine Or.inr (Or.inr (Or.inr ⟨le_refl _, ?_⟩))
      by_cases hb : Branches e (setup m) d (clampA d.constA) (rootState e m d)
          (rootSegment e m d)
      · have b := generateSegment_branch e (setup m) d (clampA d.constA) _ _ hb
        have hPT : PushedTogether e m d (secondSegmentCopy e m d)
            (storedDirection e (setup m) d (clampA d.constA) (rootState e m d)
              (rootSegment e m d)) :=
          ⟨_, _, 2, rootState e m d, rootSegment e m d, rootState e m d, hr, hfin, hfs, hsel, hb,
            rfl, rfl, rfl, rfl⟩
        refine ⟨by rw [b.2.2.2, r7], by rw [g.2.2.2.2.1, r3], ?_, ?_⟩
        · rw [b.1, b.2.1, r4, r5, r6, hemp, hfix]
          cases hf : m.bPackagedBuildFix with
          | false => exact Or.inl (forall₂_snoc List.Forall₂.nil hPT)
          | true =>
            exact Or.inr ⟨rfl, [secondSegmentCopy e m d], rfl,
              forall₂_snoc List.Forall₂.nil hPT, _, hPT⟩
        · intro hf hs
          rw [b.2.2.1, hfix, hf] at hs
          simp at hs
      · have b := generateSegment_no_branch e (setup m) d (clampA d.constA) _ _ hb
        refine ⟨by rw [b.2.2.2, r7], by rw [g.2.2.2.2.1, r3], ?_, ?_⟩
        · rw [b.1, b.2.1, r5, r6, hemp]
          exact Stacked_nil _ _ _
        · intro _ hs
          rw [b.2.2.1] at hs
          refine ⟨by rw [b.1, r5], fun _ => Or.inl ?_⟩
          rw [g.2.1]
          simp only [Bool.and_eq_true] at hs
          rw [hs.2]
          simp
    · -- a later segment
      have hns := LateInv_no_second e m d st st1 p hI hfin hsel
      obtain ⟨h1, h2, h3, h4⟩ := hI
      obtain ⟨s1, s2, s3, s4, _, s6⟩ := selectParent_stacks st st1 p hsel
      have g := generateSegment_fields e (setup m) d (clampA d.constA) st1 p
      have hbase : Stacked (PushedTogether e m d) m.bPackagedBuildFix (secondSegmentCopy e m d)
          st1.branchPoints
          (if st1.currentBranch.isEmpty then st1.branchDirection.dropLast
            else st1.branchDirection) := by
        rcases s6 with ⟨hemp, hbp, _⟩ | ⟨hemp, hbp, _⟩
        · rw [s3, hemp, hbp, s4]
          exact h3
        · rw [s3, hemp, hbp, s4]
          exact Stacked_pop h3
      have hfirst1 : st1.firstSegment = false := by
        rcases selectParent_some _ _ _ hsel with ⟨_, rfl⟩ | ⟨_, _, rfl⟩
        · exact hfs
        · exact hfs
      refine Or.inr (Or.inr (Or.inr ⟨by omega, ?_⟩))
      by_cases hb : Branches e (setup m) d (clampA d.constA) st1 p
      · have b := generateSegment_branch e (setup m) d (clampA d.constA) _ _ hb
        have hPT : PushedTogether e m d (headedSegment e (setup m) d (clampA d.constA) st1 p)
            (storedDirection e (setup m) d (clampA d.constA) st1 p) :=
          ⟨_, _, n, st, p, st1, hr, hfin, hfs, hsel, hb, rfl, rfl, rfl, rfl⟩
        refine ⟨by rw [b.2.2.2, s1]; omega, by rw [g.2.2.2.2.1, hfirst1], ?_, ?_⟩
        · rw [b.1, b.2.1, s2, hfix, hns]
          exact Stacked_push hbase hPT
        · intro hf hs
          rw [b.2.2.1, hfix, hf] at hs
          simp at hs
      · have b := generateSegment_no_branch e (setup m) d (clampA d.constA) _ _ hb
        refine ⟨by rw [b.2.2.2, s1]; omega, by rw [g.2.2.2.2.1, hfirst1], ?_, ?_⟩
        · rw [b.1, b.2.1]
          exact hbase
        · intro hf hs
          rw [b.2.2.1, s2] at hs
          simp only [Bool.and_eq_true] at hs
          rw [hs.1, hf] at hns
          simp at hns
  · -- the return by the segment limit
    rintro n st _ (⟨_, hpt, _⟩ | ⟨_, hpt, _⟩ | ⟨_, hpt, _⟩ | ⟨hn, h1, h2, h3, h4⟩) _ _ _
    · cases hpt
    · cases hpt
    · cases hpt
    · exact Or.inr (Or.inr (Or.inr ⟨by omega, h1, h2, h3,
        fun hf hs => ⟨(h4 hf hs).1, fun hp => by cases hp⟩⟩))
  · -- the outer loop is entered again
    rintro n st _ (⟨_, hpt, _⟩ | ⟨_, hpt, _⟩ | ⟨_, hpt, _⟩ | ⟨hn, h1, h2, h3, h4⟩) _
    · cases hpt
    · cases hpt
    · cases hpt
    · exact Or.inr (Or.inr (Or.inr ⟨by omega, h1, h2, h3,
        fun hf hs => ⟨(h4 hf hs).1, fun hp => by cases hp⟩⟩))
  · exact Or.inl ⟨rfl, rfl, rfl⟩

/-! ## Claims C18, C11 and C14 -/

/-- The balance of the two stacks at the tests of the loop conditions, after
the inner loop and at the return, and the one iteration that pushes two
branch points. -/
theorem stack_balance (e : Engine) (m : PhysicsModel) (d : Draws) (n : Nat) (pt : Point)
    (st : GenState) (h : ReachedAt e m d n pt st) :
    (m.bPackagedBuildFix = false → st.branchPoints.length = st.branchDirection.length) ∧
    (m.bPackagedBuildFix = true →
      st.branchPoints.length = st.branchDirection.length ∨
      st.branchPoints.length = st.branchDirection.length + 1) ∧
    (st.branchPoints.length = st.branchDirection.length + 1 →
      st.branchPoints.head? = some (secondSegmentCopy e m d)) ∧
    (∀ p st1, pt = Point.walkHead → st.bIsBranchFinished = false → st.firstSegment = false →
      selectParent st = some (p, st1) →
      (generateSegment e (setup m) d (clampA d.constA) st1 p).branchPoints.length =
          st1.branchPoints.length + 2 →
        m.bPackagedBuildFix = true ∧ n = 2 ∧ st = rootState e m d ∧ p = rootSegment e m d ∧
        Branches e (setup m) d (clampA d.constA) st1 p ∧
        (generateSegment e (setup m) d (clampA d.constA) st1 p).branchPoints =
          [secondSegmentCopy e m d, secondSegmentCopy e m d]) := by
  have hfix : (setup m).bPackagedBuildFix = m.bPackagedBuildFix := rfl
  rcases StackInv_reached e m d n pt st h with
    ⟨_, hpt, rfl⟩ | ⟨_, _, rfl⟩ | ⟨hn, _, rfl⟩ | ⟨hn, hI⟩
  · refine ⟨fun _ => rfl, fun _ => Or.inl rfl, fun h1 => by simp [initialState] at h1, ?_⟩
    intro p st1 hp
    rw [hpt] at hp
    cases hp
  · refine ⟨fun _ => rfl, fun _ => Or.inl rfl, fun h1 => by simp [initialState] at h1, ?_⟩
    intro p st1 _ _ hfs
    simp [initialState] at hfs
  · obtain ⟨r1, r2, r3, r4, r5, r6, r7⟩ := rootState_fields e m d
    refine ⟨fun _ => by simp [r5, r6], fun _ => Or.inl (by simp [r5, r6]),
      fun h1 => by rw [r5, r6] at h1; simp at h1, ?_⟩
    intro p st1 _ _ _ hsel hlen
    obtain ⟨rfl, rfl⟩ := selectParent_rootState e m d p st1 hsel
    by_cases hb : Branches e (setup m) d (clampA d.constA) (rootState e m d)
        (rootSegment e m d)
    · have b := generateSegment_branch e (setup m) d (clampA d.constA) _ _ hb
      rw [b.1, r4, r5, hfix] at hlen ⊢
      cases hf : m.bPackagedBuildFix with
      | false => rw [hf] at hlen; simp at hlen
      | true => exact ⟨rfl, hn, rfl, rfl, hb, rfl⟩
    · have b := generateSegment_no_branch e (setup m) d (clampA d.constA) _ _ hb
      rw [b.1] at hlen
      omega
  · have hl := Stacked_length hI.2.2.1
    refine ⟨hl.1, fun _ => hl.2.imp id (fun x => x.1), ?_, ?_⟩
    · intro h1
      rcases hl.2 with h0 | h2
      · omega
      · exact h2.2
    · intro p st1 hp hfin _ hsel hlen
      rw [hp] at hI
      have hns := LateInv_no_second e m d st st1 p hI hfin hsel
      have s2 := (selectParent_stacks st st1 p hsel).2.1
      exfalso
      by_cases hb : Branches e (setup m) d (clampA d.constA) st1 p
      · have b := generateSegment_branch e (setup m) d (clampA d.constA) _ _ hb
        rw [b.1, s2, hfix, hns] at hlen
        simp at hlen
      · have b := generateSegment_no_branch e (setup m) d (clampA d.constA) _ _ hb
        rw [b.1] at hlen
        omega

/-- The pop of line 104 alone: right after it one branch point fewer is
pending, and the directions are as before. -/
theorem pop_sizes (st st1 : GenState) (p : Segment) (hcb : st.currentBranch = [])
    (hsel : selectParent st = some (p, st1)) :
    st1.branchPoints.length + 1 = st.branchPoints.length ∧
    st1.branchDirection = st.branchDirection := by
  obtain ⟨_, _, _, s4, _, s6⟩ := selectParent_stacks st st1 p hsel
  rcases s6 with ⟨hemp, _, _⟩ | ⟨_, hbp, hl⟩
  · rw [hcb] at hemp
    simp at hemp
  · have hne : st.branchPoints ≠ [] := by
      intro h0
      rw [h0] at hl
      simp at hl
    have hpos : 0 < st.branchPoints.length := List.length_pos.mpr hne
    refine ⟨?_, s4⟩
    rw [hbp, List.length_dropLast]
    omega

/-- C18 (amended): at every test of a loop condition of `GenerateSegments`,
after its inner loop and at its return, the number of pending branch points
minus the number of pending directions is 0 when `bPackagedBuildFix` is false
and 0 or 1 when it is true; while it is 1, the bottom of the branch-point
stack is the copy of the segment generated right after the root. An
iteration that pushes two branch points is the one taken from the state in
which only the root has been generated (the third step of the run, so there
is one at most): the flag is set, the segment generated from the root
branches, and the stack becomes that copy twice. Inside the iteration that
starts a branch, right after the pop of line 104, one branch point fewer is
pending and the directions are as before, so the difference is one less
there. -/
theorem C18_stack_balance (e : Engine) (m : PhysicsModel) (d : Draws) (n : Nat) (pt : Point)
    (st : GenState) (h : ReachedAt e m d n pt st) :
    (m.bPackagedBuildFix = false → st.branchPoints.length = st.branchDirection.length) ∧
    (m.bPackagedBuildFix = true →
      st.branchPoints.length = st.branchDirection.length ∨
      st.branchPoints.length = st.branchDirection.length + 1) ∧
    (st.branchPoints.length = st.branchDirection.length + 1 →
      st.branchPoints.head? = some (secondSegmentCopy e m d)) ∧
    (∀ p st1, pt = Point.walkHead → st.bIsBranchFinished = false → st.firstSegment = false →
      selectParent st = some (p, st1) →
      (generateSegment e (setup m) d (clampA d.constA) st1 p).branchPoints.length =
          st1.branchPoints.length + 2 →
        m.bPackagedBuildFix = true ∧ n = 2 ∧ st = rootState e m d ∧ p = rootSegment e m d ∧
        Branches e (setup m) d (clampA d.constA) st1 p ∧
        (generateSegment e (setup m) d (clampA d.constA) st1 p).branchPoints =
          [secondSegmentCopy e m d, secondSegmentCopy e m d]) ∧
    (∀ p st1, pt = Point.walkHead → st.firstSegment = false → st.currentBranch = [] →
      selectParent st = some (p, st1) →
      st1.branchPoints.length + 1 = st.branchPoints.length ∧
        st1.branchDirection = st.branchDirection) := by
  obtain ⟨h1, h2, h3, h4⟩ := stack_balance e m d n pt st h
  exact ⟨h1, h2, h3, h4, fun p st1 _ _ hcb hsel => pop_sizes st st1 p hcb hsel⟩

theorem nextSegment_first_Direction (e : Engine) (m : PhysicsModel) (d : Draws) (c : ℚ)
    (st : GenState) (p : Segment) (hcb : st.currentBranch = []) :
    (nextSegment e m d c st p).Direction =
      match st.branchDirection.getLast? with
      | some dir => dir
      | none => (d.fresh st.Steps).Direction := by
  cases hbd : st.branchDirection.getLast? with
  | none => simp [nextSegment, withExtent, headedSegment, hcb, hbd, startSegment, withAmbient]
  | some dir => simp [nextSegment, withExtent, headedSegment, hcb, hbd]

theorem headedSegment_unset (e : Engine) (m : PhysicsModel) (d : Draws) (c : ℚ)
    (st : GenState) (p : Segment) :
    (headedSegment e m d c st p).EndPos = (d.fresh st.Steps).EndPos ∧
    (headedSegment e m d c st p).Diameter = (d.fresh st.Steps).Diameter ∧
    (headedSegment e m d c st p).Length = (d.fresh st.Steps).Length := by
  simp only [headedSegment]
  repeat' split
  all_goals simp [startSegment, withAmbient]

/-- The state of the stacks when a new branch is started by popping `p`. -/
theorem pop_Stacked (e : Engine) (m : PhysicsModel) (d : Draws) (n : Nat) (st : GenState)
    (p : Segment) (st1 : GenState) (h : ReachedAt e m d n Point.walkHead st)
    (hfirst : st.firstSegment = false) (hcb : st.currentBranch = [])
    (hsel : selectParent st = some (p, st1)) :
    Stacked (PushedTogether e m d) m.bPackagedBuildFix (secondSegmentCopy e m d)
      st.branchPoints st.branchDirection ∧
    st.branchPoints.getLast? = some p ∧ st1.currentBranch = [] ∧
    st1.branchDirection = st.branchDirection ∧ st1.Steps = st.Steps := by
  obtain ⟨s1, _, s3, s4, _, s6⟩ := selectParent_stacks st st1 p hsel
  have hl : st.branchPoints.getLast? = some p := by
    rcases s6 with ⟨hemp, _, _⟩ | ⟨_, _, hl⟩
    · rw [hcb] at hemp; simp at hemp
    · exact hl
  rcases StackInv_reached e m d n _ st h with
    ⟨_, hpt, _⟩ | ⟨_, _, rfl⟩ | ⟨_, _, rfl⟩ | ⟨_, hI⟩
  · cases hpt
  · simp [initialState] at hfirst
  · rw [(rootState_fields e m d).1] at hcb
    simp at hcb
  · exact ⟨hI.2.2.1, hl, by rw [s3, hcb], s4, s1⟩

/-- C11 (amended): a branch started by popping a branch point takes as the
heading of its first segment the direction that was pushed together with that
branch point, which is then the top of the direction stack; but for the branch
started from the last pending branch point when `bPackagedBuildFix` is true and
the direction stack is already empty: that branch point is the second copy of
the segment generated right after the root, and the heading of the first
segment is what the unset local holds. With `bPackagedBuildFix` false the first
case is the only one. -/
theorem C11_heading_of_new_branch (e : Engine) (m : PhysicsModel) (d : Draws) (n : Nat)
    (st : GenState) (p : Segment) (st1 : GenState)
    (h : ReachedAt e m d n Point.walkHead st) (hfirst : st.firstSegment = false)
    (hcb : st.currentBranch = []) (hsel : selectParent st = some (p, st1)) :
    st.branchPoints.getLast? = some p ∧
    ((∃ dir, st.branchDirection.getLast? = some dir ∧ PushedTogether e m d p dir ∧
        (nextSegment e (setup m) d (clampA d.constA) st1 p).Direction = dir) ∨
      (m.bPackagedBuildFix = true ∧ st.branchDirection = [] ∧ st.branchPoints = [p] ∧
        p = secondSegmentCopy e m d ∧ (∃ dir, PushedTogether e m d p dir) ∧
        (nextSegment e (setup m) d (clampA d.constA) st1 p).Direction =
          (d.fresh st.Steps).Direction)) ∧
    (m.bPackagedBuildFix = false →
      ∃ dir, st.branchDirection.getLast? = some dir ∧ PushedTogether e m d p dir ∧
        (nextSegment e (setup m) d (clampA d.constA) st1 p).Direction = dir) := by
  obtain ⟨hS, hl, hcb1, hbd1, hsteps⟩ := pop_Stacked e m d n st p st1 h hfirst hcb hsel
  have hdir := nextSegment_first_Direction e (setup m) d (clampA d.constA) st1 p hcb1
  rw [hbd1, hsteps] at hdir
  have hmem : p ∈ st.branchPoints := by
    obtain ⟨ys, hys⟩ := List.getLast?_eq_some_iff.mp hl
    rw [hys]
    simp
  have key : (∃ dir, st.branchDirection.getLast? = some dir ∧ PushedTogether e m d p dir ∧
        (nextSegment e (setup m) d (clampA d.constA) st1 p).Direction = dir) ∨
      (m.bPackagedBuildFix = true ∧ st.branchDirection = [] ∧ st.branchPoints = [p] ∧
        p = secondSegmentCopy e m d ∧ (∃ dir, PushedTogether e m d p dir) ∧
        (nextSegment e (setup m) d (clampA d.constA) st1 p).Direction =
          (d.fresh st.Steps).Direction) := by
    rcases Stacked_last hS hl with ⟨dir, hd, hPT⟩ | ⟨hf, hbd, hbp, hp⟩
    · rw [hd] at hdir
      exact Or.inl ⟨dir, hd, hPT, hdir⟩
    · rw [hbd] at hdir
      exact Or.inr ⟨hf, hbd, hbp, hp, Stacked_mem hS p hmem, hdir⟩
  refine ⟨hl, key, ?_⟩
  intro hf
  rcases key with k | k
  · exact k
  · rw [k.1] at hf
    simp at hf

/-- C14: a branch started by popping a branch point starts at the end position
that the branch point holds, and the branch point is the copy that `BranchLogic`
recorded before the diameter, the length and the end position of the segment
were set: its end position, diameter and length are those of the unset local
of the iteration that recorded it, whereas the segment of that iteration in
the result ends at its start plus its heading times its length. -/
theorem C14_branch_starts_at_unset_end (e : Engine) (m : PhysicsModel) (d : Draws) (n : Nat)
    (st : GenState) (p : Segment) (st1 : GenState)
    (h : ReachedAt e m d n Point.walkHead st) (hfirst : st.firstSegment = false)
    (hcb : st.currentBranch = []) (hsel : selectParent st = some (p, st1)) :
    ∃ dir seg k, Recorded e m d p dir seg k ∧
      (nextSegment e (setup m) d (clampA d.constA) st1 p).StartPos = (d.fresh k).EndPos ∧
      p.EndPos = (d.fresh k).EndPos ∧ p.Diameter = (d.fresh k).Diameter ∧
      p.Length = (d.fresh k).Length ∧
      seg.EndPos = seg.StartPos.add (seg.Direction.scale seg.Length) := by
  obtain ⟨hS, hl, _, _, _⟩ := pop_Stacked e m d n st p st1 h hfirst hcb hsel
  have hmem : p ∈ st.branchPoints := by
    obtain ⟨ys, hys⟩ := List.getLast?_eq_some_iff.mp hl
    rw [hys]
    simp
  obtain ⟨dir, seg, k, hR⟩ := Stacked_mem hS p hmem
  have hR2 := hR
  obtain ⟨n0, st0, p0, st10, _, _, _, _, _, hp, _, hseg, hk⟩ := hR2
  have hu := headedSegment_unset e (setup m) d (clampA d.constA) st10 p0
  rw [← hp, ← hk] at hu
  refine ⟨dir, seg, k, hR, ?_, hu.1, hu.2.1, hu.2.2, ?_⟩
  · rw [(nextSegment_fields e (setup m) d (clampA d.constA) st1 p).1, hu.1]
  · rw [hseg]
    exact (nextSegment_fields e (setup m) d (clampA d.constA) st10 p0).2.2.2

/-! ## The example run with a branching second segment -/

theorem c11_state_at_3 :
    (runSteps sampleEngine (setup c11Model) c11Draws (clampA c11Draws.constA) 3
        (Point.loopHead, startState (setup c11Model))).map
      (fun x => (x.1, x.2.branchPoints.length, x.2.branchDirection.length)) =
      some (Point.walkHead, 2, 1) := by
  decide!

theorem c11_state_at_7 :
    (runSteps sampleEngine (setup c11Model) c11Draws (clampA c11Draws.constA) 7
        (Point.loopHead, startState (setup c11Model))).map
      (fun x => (x.1, x.2.firstSegment, x.2.currentBranch, (selectParent x.2).isSome,
        x.2.branchDirection.length)) =
      some (Point.walkHead, false, [], true, 1) := by
  decide!

/-- C11 (amended) on an example: after 7 steps of the example run a branch is
started by popping a branch point while one direction is pending; its first
segment takes that direction, which was pushed together with the branch
point. -/
theorem C11_heading_of_new_branch_witness :
    ∃ st p st1, ReachedAt sampleEngine c11Model c11Draws 7 Point.walkHead st ∧
      st.firstSegment = false ∧ st.currentBranch = [] ∧ selectParent st = some (p, st1) ∧
      st.branchDirection.length = 1 ∧
      ∃ dir, st.branchDirection.getLast? = some dir ∧
        PushedTogether sampleEngine c11Model c11Draws p dir ∧
        (nextSegment sampleEngine (setup c11Model) c11Draws (clampA c11Draws.constA)
          st1 p).Direction = dir := by
  obtain ⟨⟨pt, st⟩, hx, hobs⟩ := Option.map_eq_some'.mp c11_state_at_7
  simp only [Prod.mk.injEq] at hobs
  obtain ⟨rfl, h1, h2, h3, h5⟩ := hobs
  obtain ⟨⟨p, st1⟩, hsel⟩ := Option.isSome_iff_exists.mp h3
  have hc := C11_heading_of_new_branch sampleEngine c11Model c11Draws 7 st p st1 hx h1 h2 hsel
  rcases hc.2.1 with k | k
  · exact ⟨st, p, st1, hx, h1, h2, hsel, h5, k⟩
  · rw [k.2.1] at h5
    simp at h5

/-- C18 on an example: after 3 steps of the example run, two branch points and
one direction are pending, and the bottom of the branch-point stack is the
copy of the segment generated right after the root. -/
theorem C18_stack_balance_witness :
    ∃ st, ReachedAt sampleEngine c11Model c11Draws 3 Point.walkHead st ∧
      st.branchPoints.length = 2 ∧ st.branchDirection.length = 1 ∧
      st.branchPoints.head? = some (secondSegmentCopy sampleEngine c11Model c11Draws) := by
  obtain ⟨⟨pt, st⟩, hx, hobs⟩ := Option.map_eq_some'.mp c11_state_at_3
  simp only [Prod.mk.injEq] at hobs
  obtain ⟨rfl, h1, h2⟩ := hobs
  have hc := C18_stack_balance sampleEngine c11Model c11Draws 3 Point.walkHead st hx
  exact ⟨st, hx, h1, h2, hc.2.2.1 (by rw [h1, h2])⟩

/-- C14 on an example: after 7 steps of the example run a branch is started by
popping a branch point; its first segment starts at the end position of the
unset local of the iteration that recorded the branch point. The run returns
with three walks; the two branches start at `(0, 0, 0)`, where no segment of
the first walk ends. -/
theorem C14_branch_starts_at_unset_end_witness :
    (∃ st p st1, ReachedAt sampleEngine c11Model c11Draws 7 Point.walkHead st ∧
      st.firstSegment = false ∧ st.currentBranch = [] ∧ selectParent st = some (p, st1) ∧
      ∃ dir seg k, Recorded sampleEngine c11Model c11Draws p dir seg k ∧
        (nextSegment sampleEngine (setup c11Model) c11Draws (clampA c11Draws.constA)
          st1 p).StartPos = (c11Draws.fresh k).EndPos ∧
        p.EndPos = (c11Draws.fresh k).EndPos ∧ p.Diameter = (c11Draws.fresh k).Diameter ∧
        p.Length = (c11Draws.fresh k).Length ∧
        seg.EndPos = seg.StartPos.add (seg.Direction.scale seg.Length)) ∧
    (GenerateSegmentsTrace sampleEngine c11Model c11Draws 5).map
      (fun st => (st.Walks.map (fun w => w.head?.map Segment.StartPos),
        st.Walks.map (fun w => w.map
          (fun s => decide (s.EndPos = ({ X := 0, Y := 0, Z := 0 } : FVector)))))) =
      some ([some { X := 0, Y := 0, Z := 2000 }, some { X := 0, Y := 0, Z := 0 },
          some { X := 0, Y := 0, Z := 0 }],
        [[false, false, false], [true], [true]]) := by
  refine ⟨?_, by decide!⟩
  obtain ⟨⟨pt, st⟩, hx, hobs⟩ := Option.map_eq_some'.mp c11_state_at_7
  simp only [Prod.mk.injEq] at hobs
  obtain ⟨rfl, h1, h2, h3, _⟩ := hobs
  obtain ⟨⟨p, st1⟩, hsel⟩ := Option.isSome_iff_exists.mp h3
  exact ⟨st, p, st1, hx, h1, h2, hsel,
    C14_branch_starts_at_unset_end sampleEngine c11Model c11Draws 7 st p st1 hx h1 h2 hsel⟩

/-! ## Claims C21 and C23 -/

theorem CalculateTemp_wide (m : PhysicsModel)
    (hwide : 1 / 100000000 < |m.StartHeight - m.SeaLevelHeight|) (seg : Segment) :
    CalculateTemp (setup m) seg = calibrationLine m seg.StartPos.Z := by
  have hn : ¬ |m.StartHeight - m.SeaLevelHeight| ≤ 1 / 100000000 := not_le.mpr hwide
  have hne : m.StartHeight - m.SeaLevelHeight ≠ 0 := by
    intro h0
    rw [h0, abs_zero] at hwide
    norm_num at hwide
  simp only [CalculateTemp, setup, GetMappedRangeValueUnclamped, Lerp, GetRangePct, hn, if_false,
    calibrationLine]
  field_simp
  ring

theorem CalculateTemp_narrow (m : PhysicsModel)
    (hnarrow : |m.StartHeight - m.SeaLevelHeight| ≤ 1 / 100000000) (seg : Segment) :
    CalculateTemp (setup m) seg =
      if m.StartHeight ≤ seg.StartPos.Z then m.SeaLevelTemp - m.StartHeight / 1000 * 6.5
      else m.SeaLevelTemp := by
  simp only [CalculateTemp, setup, GetMappedRangeValueUnclamped, Lerp, GetRangePct, hnarrow,
    if_true]
  split_ifs <;> ring

theorem withAmbient_Temp (e : Engine) (m : PhysicsModel) (c : ℚ) (seg : Segment) :
    (withAmbient e m c seg).Temp = CalculateTemp m seg ∧
    (withAmbient e m c seg).StartPos = seg.StartPos := by
  simp [withAmbient, CalculateTemp]

theorem nextSegment_Temp (e : Engine) (m : PhysicsModel) (d : Draws) (c : ℚ) (st : GenState)
    (p : Segment) :
    (nextSegment e m d c st p).Temp = CalculateTemp m (nextSegment e m d c st p) := by
  simp only [nextSegment, withExtent, headedSegment]
  repeat' split
  all_goals simp [startSegment, withAmbient, CalculateTemp]

theorem GenerateFirstSegment_Temp (e : Engine) (m : PhysicsModel) (seg : Segment)
    (c u sample : ℚ) :
    (GenerateFirstSegment e m seg c u sample).Temp =
      CalculateTemp m (GenerateFirstSegment e m seg c u sample) := by
  simp [GenerateFirstSegment, withExtent, withAmbient, CalculateTemp]

theorem CalculateTemp_stored (m : PhysicsModel)
    (hwide : 1 / 100000000 < |m.heightRange.2 - m.heightRange.1|) (seg : Segment) :
    CalculateTemp m seg = rangeLine m.heightRange m.tempRange seg.StartPos.Z := by
  have hn : ¬ |m.heightRange.2 - m.heightRange.1| ≤ 1 / 100000000 := not_le.mpr hwide
  have hne : m.heightRange.2 - m.heightRange.1 ≠ 0 := by
    intro h0
    rw [h0, abs_zero] at hwide
    norm_num at hwide
  simp only [CalculateTemp, GetMappedRangeValueUnclamped, Lerp, GetRangePct, hn, if_false,
    rangeLine]
  field_simp
  ring

/-- Counterexample to C21: with `SeaLevelHeight = 0` and `StartHeight = 1e-9` the two
heights differ, but the temperature at the height 1000 is that of the second
calibration point as stored, `310 - 6.5e-12` in exact arithmetic and in any
case above `309`, where the line through the two points gives `303.5`. -/
theorem C21_counterexample :
    c21Model.SeaLevelHeight ≠ c21Model.StartHeight ∧
    CalculateTemp (setup c21Model) (segmentAt 1000) = (setup c21Model).tempRange.2 ∧
    CalculateTemp (setup c21Model) (segmentAt 1000) = 310 - 13 / 2000000000000 ∧
    309 < CalculateTemp (setup c21Model) (segmentAt 1000) ∧
    calibrationLine c21Model 1000 = 607 / 2 := by
  decide!

/-- C21 (amended), over exact arithmetic (every `float` operation read as the
operation on rationals, without rounding): when `StartHeight` and
`SeaLevelHeight` differ by more than `1e-8`, the temperature of a segment that
starts at the height `h` is the value at `h` of the line through
`(SeaLevelHeight, SeaLevelTemp)` and
`(StartHeight, SeaLevelTemp - StartHeight / 1000 * 6.5)`, for `CalculateTemp`, for
the segment both kinds of generation build, and for every segment of every
walk of a run; the line passes through the two points. When the heights
differ by at most `1e-8`, the temperature is that of the second point from
`StartHeight` up and `SeaLevelTemp` below. Whatever the two ranges hold when
`CalculateTemp` is called (so also with a second temperature that line 50 has
rounded), if the stored heights differ by more than `1e-8` the temperature is
the value at `h` of the line through the two stored points. -/
theorem C21_temperature_line (e : Engine) (m : PhysicsModel) (c : ℚ)
    (hwide : 1 / 100000000 < |m.StartHeight - m.SeaLevelHeight|) :
    (∀ seg : Segment, CalculateTemp (setup m) seg = calibrationLine m seg.StartPos.Z) ∧
    (∀ seg : Segment,
      (withAmbient e (setup m) c seg).Temp = calibrationLine m seg.StartPos.Z) ∧
    (∀ (d : Draws) (fuel : Nat) (st : GenState), GenerateSegmentsTrace e m d fuel = some st →
      ∀ w ∈ st.Walks, ∀ s ∈ w, s.Temp = calibrationLine m s.StartPos.Z) ∧
    calibrationLine m m.SeaLevelHeight = m.SeaLevelTemp ∧
    calibrationLine m m.StartHeight = m.SeaLevelTemp - m.StartHeight / 1000 * 6.5 ∧
    (∀ (m2 : PhysicsModel) (seg : Segment),
      |m2.StartHeight - m2.SeaLevelHeight| ≤ 1 / 100000000 →
      CalculateTemp (setup m2) seg =
        if m2.StartHeight ≤ seg.StartPos.Z then m2.SeaLevelTemp - m2.StartHeight / 1000 * 6.5
        else m2.SeaLevelTemp) ∧
    (∀ (m0 : PhysicsModel) (seg : Segment),
      1 / 100000000 < |m0.heightRange.2 - m0.heightRange.1| →
      CalculateTemp m0 seg = rangeLine m0.heightRange m0.tempRange seg.StartPos.Z) := by
  have hne : m.StartHeight - m.SeaLevelHeight ≠ 0 := by
    intro h0
    rw [h0, abs_zero] at hwide
    norm_num at hwide
  refine ⟨CalculateTemp_wide m hwide, ?_, ?_, ?_, ?_,
    fun m2 seg h => CalculateTemp_narrow m2 h seg, fun m0 seg h => CalculateTemp_stored m0 h seg⟩
  · intro seg
    rw [(withAmbient_Temp e (setup m) c seg).1]
    exact CalculateTemp_wide m hwide seg
  · intro d fuel st hst w hw s hs
    have h := walks_chain e (setup m) d (clampA d.constA) (fun _ _ => True)
      (fun s => s.Temp = calibrationLine m s.StartPos.Z)
      (fun seg u sample => by
        beta_reduce
        rw [GenerateFirstSegment_Temp]
        exact CalculateTemp_wide m hwide _)
      (fun st p => by
        beta_reduce
        rw [nextSegment_Temp]
        exact CalculateTemp_wide m hwide _)
      (fun _ _ => trivial) fuel initialState st
      (by intro w hw; simp [initialState] at hw) hst w hw
    exact h.2 s hs
  · simp only [calibrationLine]
    field_simp
  · simp only [calibrationLine]
    field_simp
    ring

/-- C21 (amended) on the default configuration, at the height 1000: the
temperature is `303.5`, half-way between `310` and `297`. On the ranges that
single precision stores for the start height `1 / 1000`, the temperature at
the height 1000 is `310`, the value of the line through the two stored
points, where the line through the two calibration points gives `303.5`. -/
theorem C21_temperature_line_witness :
    1 / 100000000 < |defaults.StartHeight - defaults.SeaLevelHeight| ∧
    CalculateTemp (setup defaults) (segmentAt 1000) = calibrationLine defaults 1000 ∧
    calibrationLine defaults 1000 = 607 / 2 ∧
    CalculateTemp roundedModel (segmentAt 1000) =
      rangeLine roundedModel.heightRange roundedModel.tempRange 1000 ∧
    rangeLine roundedModel.heightRange roundedModel.tempRange 1000 = 310 ∧
    calibrationLine roundedModel 1000 = 607 / 2 :=
  ⟨by decide!,
    (C21_temperature_line sampleEngine defaults 1 (by decide!)).1 (segmentAt 1000),
    by decide!,
    (C21_temperature_line sampleEngine defaults 1 (by decide!)).2.2.2.2.2.2 roundedModel
      (segmentAt 1000) (by decide!),
    by decide!, by decide!⟩

theorem selectRule_mem_or_blank : ∀ (rules : List LRule) (r : ℚ),
    LGrammar.selectRule rules r ∈ rules ∨ LGrammar.selectRule rules r = LRule.blank := by
  intro rules
  induction rules with
  | nil => intro r; right; rfl
  | cons rule rest ih =>
    intro r
    simp only [LGrammar.selectRule]
    split_ifs
    · left; simp
    · rcases ih (r - rule.Probability) with h | h
      · left; exact List.mem_cons_of_mem _ h
      · right; exact h

theorem rewriteChar_of_length_ne_one (rules : List LRule) (random : ℚ) (c : Char)
    (h : (LGrammar.selectRule rules random).ToReplace.length ≠ 1) :
    LGrammar.rewriteChar rules random c = [c] := by
  have hne : ¬ FString.Equals (LGrammar.selectRule rules random).ToReplace [c] = true := by
    rw [FString_Equals_single]
    rintro ⟨x, hx, _⟩
    rw [hx] at h
    exact h rfl
  simp only [LGrammar.rewriteChar]
  rw [if_neg hne]

theorem rewriteFrom_of_length_ne_one (rules : List LRule) (draws : Nat → ℚ)
    (h : ∀ r ∈ rules, r.ToReplace.length ≠ 1) :
    ∀ (s : FString) (k : Nat), LGrammar.rewriteFrom rules draws s k = s := by
  intro s
  induction s with
  | nil => intro k; rfl
  | cons x xs ih =>
    intro k
    have hsel : (LGrammar.selectRule rules (draws k)).ToReplace.length ≠ 1 := by
      rcases selectRule_mem_or_blank rules (draws k) with hm | hb
      · exact h _ hm
      · rw [hb]; simp [LRule.blank]
    simp only [LGrammar.rewriteFrom, ih, rewriteChar_of_length_ne_one rules _ x hsel]
    rfl

theorem passes_of_length_ne_one (draws : Nat → ℚ) :
    ∀ (n : Nat) (g : LGrammar) (k : Nat), (∀ r ∈ g.RulesArray, r.ToReplace.length ≠ 1) →
      (LGrammar.passes draws n g k).1 = g := by
  intro n
  induction n with
  | zero => intro g k _; rfl
  | succ n ih =>
    intro g k h
    have hp : (g.pass draws k).1 = g := by
      simp only [LGrammar.pass, rewriteFrom_of_length_ne_one g.RulesArray draws h]
    simp only [LGrammar.passes]
    rw [hp]
    exact ih g _ h

/-- C23: a selected rule whose pattern is not exactly one character long causes
no replacement, whatever the character is; a grammar all of whose rules have
such a pattern is left as it is by `Iterate`, for every iteration count and
sequence of draws, so `GetResult` returns the string it had, and a grammar
built from an axiom and rule descriptions returns the axiom, also through
`LSystem::Build`. -/
theorem C23_other_length_patterns_copy (g : LGrammar) (draws : Nat → ℚ) (n : Int)
    (h : ∀ r ∈ g.RulesArray, r.ToReplace.length ≠ 1) :
    (∀ (rules : List LRule) (random : ℚ) (c : Char),
      (LGrammar.selectRule rules random).ToReplace.length ≠ 1 →
        LGrammar.rewriteChar rules random c = [c]) ∧
    g.Iterate draws n = g ∧
    (g.Iterate draws n).GetResult = g.GetResult ∧
    (∀ (ax : FString) (rules : List FString) (self : LSystem),
      g = LGrammar.ctor ax rules →
        (g.Iterate draws n).GetResult = ax ∧ (self.Build ax rules n draws).GetResult = ax) := by
  have hI : g.Iterate draws n = g := passes_of_length_ne_one draws n.toNat g 0 h
  refine ⟨rewriteChar_of_length_ne_one, hI, by rw [hI], ?_⟩
  intro ax rules self hg
  have hc : g.GetResult = ax := by
    rw [hg, ctor_eq]
    rfl
  refine ⟨by rw [hI, hc], ?_⟩
  simp only [LSystem.GetResult, LSystem.Build]
  rw [← hg, hI, hc]

/-- C23 on an example: the grammar built from the axiom `FF+F` and rules with
the patterns `FF` and the empty string returns `FF+F` after three passes. -/
theorem C23_other_length_patterns_copy_witness :
    (LGrammar.ctor c23Axiom c23Rules).RulesArray.map LRule.ToReplace = [['F', 'F'], []] ∧
    ((LGrammar.ctor c23Axiom c23Rules).Iterate (fun _ => 1 / 2) 3).GetResult = c23Axiom :=
  ⟨by decide!,
    ((C23_other_length_patterns_copy (LGrammar.ctor c23Axiom c23Rules) (fun _ => 1 / 2) 3
      (by decide!)).2.2.2 c23Axiom c23Rules { Result := [] } rfl).1⟩

/-! ## Claim C22 -/

theorem walkPrefix_succ_left (e : Engine) (m : PhysicsModel) (d : Draws) (c : ℚ) :
    ∀ (k : Nat) (st : GenState),
      walkPrefix e m d c (k + 1) st = (walkStep e m d c st).bind (walkPrefix e m d c k) := by
  intro k
  induction k with
  | zero =>
    intro st
    simp only [walkPrefix, Option.some_bind]
    cases walkStep e m d c st <;> rfl
  | succ k ih =>
    intro st
    rw [walkPrefix, ih]
    cases walkStep e m d c st with
    | none => rfl
    | some g => simp [walkPrefix]

theorem MinDiametersPositive_step (e : Engine) (m : PhysicsModel) (d : Draws) (c : ℚ)
    (st g : GenState) (hstep : walkStep e m d c st = some g)
    (h : MinDiametersPositive e m d c st) : MinDiametersPositive e m d c g := by
  intro k st' p st1 hk
  apply h (k + 1) st' p st1
  rw [walkPrefix_succ_left, hstep]
  exact hk

theorem branchWalk_ends (e : Engine) (m : PhysicsModel) (d : Draws) (c : ℚ) :
    ∀ (n : Nat) (st : GenState) (p : Segment) (st1 : GenState),
      st.bIsBranchFinished = false → st.firstSegment = false →
      selectParent st = some (p, st1) → MinDiametersPositive e m d c st →
      e.Sqrt (1 / 2) ^ (n + 1) * ratio p ≤ 1 →
      ∃ st' segs, branchWalk e m d c (n + 2) st = some st' ∧ st'.bIsBranchFinished = true ∧
        st'.currentBranch = st1.currentBranch ++ segs ∧ segs ≠ [] ∧ segs.length ≤ n + 1 ∧
        List.Chain' (RatioStep (e.Sqrt (1 / 2))) (p :: segs) ∧
        (∀ s ∈ segs.dropLast, s.MinDiameter < s.Diameter) ∧
        (∀ s ∈ segs.getLast?, s.Diameter ≤ s.MinDiameter) := by
  have prelude : ∀ (st : GenState) (p : Segment) (st1 : GenState),
      st.bIsBranchFinished = false → st.firstSegment = false →
      selectParent st = some (p, st1) → MinDiametersPositive e m d c st →
      (∀ f, branchWalk e m d c (f + 1) st = branchWalk e m d c f (generateSegment e m d c st1 p)) ∧
      walkStep e m d c st = some (generateSegment e m d c st1 p) ∧
      (generateSegment e m d c st1 p).currentBranch =
        st1.currentBranch ++ [nextSegment e m d c st1 p] ∧
      (generateSegment e m d c st1 p).firstSegment = false ∧
      ((generateSegment e m d c st1 p).bIsBranchFinished = true ↔
        (nextSegment e m d c st1 p).Diameter ≤ (nextSegment e m d c st1 p).MinDiameter) ∧
      ratio (nextSegment e m d c st1 p) = e.Sqrt (1 / 2) * ratio p ∧
      0 < (nextSegment e m d c st1 p).MinDiameter := by
    intro st p st1 hfin hfirst hsel hmd
    have g := generateSegment_fields e m d c st1 p
    have nx := nextSegment_fields e m d c st1 p
    obtain ⟨_, hpos⟩ := hmd 0 st p st1 rfl hfin hfirst hsel
    have hst1 : st1.bIsBranchFinished = false ∧ st1.firstSegment = false := by
      rcases selectParent_some _ _ _ hsel with ⟨_, rfl⟩ | ⟨_, _, rfl⟩
      · exact ⟨hfin, hfirst⟩
      · exact ⟨hfin, hfirst⟩
    refine ⟨?_, ?_, g.1, by rw [g.2.2.2.2.1, hst1.2], ?_, ?_, hpos⟩
    · intro f
      rw [branchWalk]
      simp only [hfin, Bool.false_eq_true, if_false, hfirst, hsel]
    · simp only [walkStep, hfin, Bool.false_eq_true, if_false, hfirst, hsel]
    · rw [g.2.1, hst1.1]
      simp
    · unfold ratio
      rw [nx.2.2.1, ← nx.2.1, mul_div_cancel_right₀ _ (ne_of_gt hpos)]
  intro n
  induction n with
  | zero =>
    intro st p st1 hfin hfirst hsel hmd hr
    obtain ⟨hw, _, hcb, _, hfin2, hratio, hpos⟩ := prelude st p st1 hfin hfirst hsel hmd
    have hle : (nextSegment e m d c st1 p).Diameter ≤ (nextSegment e m d c st1 p).MinDiameter := by
      have h1 : ratio (nextSegment e m d c st1 p) ≤ 1 := by
        rw [hratio]
        simpa using hr
      unfold ratio at h1
      exact (div_le_one hpos).mp h1
    refine ⟨generateSegment e m d c st1 p, [nextSegment e m d c st1 p], ?_, hfin2.mpr hle, hcb,
      by simp, by simp, ?_, by simp, ?_⟩
    · rw [hw, branchWalk, if_pos (hfin2.mpr hle)]
    · exact List.Chain'.cons hratio (List.chain'_singleton _)
    · intro s hs
      simp only [List.getLast?_singleton, Option.mem_def, Option.some.injEq] at hs
      rw [← hs]
      exact hle
  | succ n ih =>
    intro st p st1 hfin hfirst hsel hmd hr
    obtain ⟨hw, hstep, hcb, hfirst2, hfin2, hratio, hpos⟩ :=
      prelude st p st1 hfin hfirst hsel hmd
    by_cases hle : (nextSegment e m d c st1 p).Diameter ≤ (nextSegment e m d c st1 p).MinDiameter
    · refine ⟨generateSegment e m d c st1 p, [nextSegment e m d c st1 p], ?_, hfin2.mpr hle, hcb,
        by simp, by simp, ?_, by simp, ?_⟩
      · rw [hw, branchWalk, if_pos (hfin2.mpr hle)]
      · exact List.Chain'.cons hratio (List.chain'_singleton _)
      · intro s hs
        simp only [List.getLast?_singleton, Option.mem_def, Option.some.injEq] at hs
        rw [← hs]
        exact hle
    · have hnf : (generateSegment e m d c st1 p).bIsBranchFinished = false := by
        cases hb : (generateSegment e m d c st1 p).bIsBranchFinished with
        | false => rfl
        | true => exact absurd (hfin2.mp hb) hle
      have hsel2 : selectParent (generateSegment e m d c st1 p) =
          some (nextSegment e m d c st1 p, generateSegment e m d c st1 p) :=
        selectParent_of_getLast _ _ (by rw [hcb, List.getLast?_concat])
      have hr2 : e.Sqrt (1 / 2) ^ (n + 1) * ratio (nextSegment e m d c st1 p) ≤ 1 := by
        rw [hratio]
        calc e.Sqrt (1 / 2) ^ (n + 1) * (e.Sqrt (1 / 2) * ratio p)
            = e.Sqrt (1 / 2) ^ (n + 1 + 1) * ratio p := by ring
          _ ≤ 1 := hr
      obtain ⟨st', segs, hrun, hend, hcb', hne, hlen, hchain, hvia, hlast⟩ :=
        ih _ _ _ hnf hfirst2 hsel2 (MinDiametersPositive_step e m d c _ _ hstep hmd) hr2
      refine ⟨st', nextSegment e m d c st1 p :: segs, ?_, hend, ?_, by simp, ?_, ?_, ?_, ?_⟩
      · rw [hw]
        exact hrun
      · rw [hcb', hcb]
        simp
      · simp only [List.length_cons]
        omega
      · exact List.Chain'.cons hratio hchain
      · intro s hs
        rw [List.dropLast_cons_of_ne_nil hne] at hs
        rcases List.mem_cons.mp hs with rfl | hs
        · exact lt_of_not_ge hle
        · exact hvia s hs
      · intro s hs
        obtain ⟨a, l, hal⟩ := List.exists_cons_of_ne_nil hne
        rw [hal, List.getLast?_cons_cons, ← hal] at hs
        exact hlast s hs


theorem walkPrefix_none_add (e : Engine) (m : PhysicsModel) (d : Draws) (c : ℚ) (k : Nat)
    (st : GenState) (h : walkPrefix e m d c k st = none) :
    ∀ j, walkPrefix e m d c (k + j) st = none := by
  intro j
  induction j with
  | zero => exact h
  | succ j ih => rw [← Nat.add_assoc, walkPrefix, ih]; rfl

/-- A walk that ends within `K` iterations has positive minimum diameters when
the test passes at each of them. -/
theorem MinDiametersPositive_of_check (e : Engine) (m : PhysicsModel) (d : Draws) (c : ℚ)
    (st : GenState) (K : Nat) (h1 : ∀ k, k < K → minDiametersCheck e m d c k st = true)
    (h2 : (walkPrefix e m d c K st).isSome = false) : MinDiametersPositive e m d c st := by
  intro k st' p st1 hk hf hfs hsel
  by_cases hlt : k < K
  · have h := h1 k hlt
    simp only [minDiametersCheck, hk, hf, hfs, hsel, Bool.false_or, decide_eq_true_eq] at h
    exact h
  · exfalso
    have hK : walkPrefix e m d c K st = none := by
      cases hx : walkPrefix e m d c K st with
      | none => rfl
      | some x => rw [hx] at h2; simp at h2
    have := walkPrefix_none_add e m d c K st hK (k - K)
    rw [Nat.add_sub_cancel' (Nat.le_of_not_lt hlt), hk] at this
    simp at this

/-- The inner loop started with an empty branch ends, in the way `WalkEnded`
says, when the value of `Sqrt(0.5)` lies in `[0, 1)` and every minimum diameter
it reads or computes is positive. -/
theorem branchWalk_ended (e : Engine) (m : PhysicsModel) (d : Draws) (c : ℚ)
    (st : GenState) (hcb : st.currentBranch = []) (hfin : st.bIsBranchFinished = false)
    (hs0 : 0 ≤ e.Sqrt (1 / 2)) (hs1 : e.Sqrt (1 / 2) < 1)
    (hmd : MinDiametersPositive e m d c st) :
    ∃ fuel st', branchWalk e m d c fuel st = some st' ∧ WalkEnded e m d c st st' := by
  by_cases hfirst : st.firstSegment = true
  · have hstep : walkStep e m d c st = some (generateRoot e m d c st) := by
      simp [walkStep, hfin, hfirst]
    have hrcb : (generateRoot e m d c st).currentBranch =
        [GenerateFirstSegment e m (d.fresh st.Steps) c (d.frand st.FRands)
          (d.normalLen st.Steps)] := by
      simp [generateRoot, hcb]
    have hsel : selectParent (generateRoot e m d c st) =
        some (GenerateFirstSegment e m (d.fresh st.Steps) c (d.frand st.FRands)
          (d.normalLen st.Steps), generateRoot e m d c st) :=
      selectParent_of_getLast _ _ (by rw [hrcb]; rfl)
    have hex := exists_pow_mul_le_one (e.Sqrt (1 / 2))
      (ratio (GenerateFirstSegment e m (d.fresh st.Steps) c (d.frand st.FRands)
        (d.normalLen st.Steps))) hs0 hs1
    obtain ⟨st', segs, hrun, hend, hcb', hne, hlen, hchain, hvia, hlast⟩ :=
      branchWalk_ends e m d c (Nat.find hex) (generateRoot e m d c st) _ _
        (show (generateRoot e m d c st).bIsBranchFinished = false from hfin) rfl hsel
        (MinDiametersPositive_step e m d c _ _ hstep hmd) (Nat.find_spec hex)
    refine ⟨Nat.find hex + 3, st', ?_, Or.inr ⟨_, segs, Or.inl ⟨hfirst, rfl⟩, hend, ?_, hne,
      hchain, hvia, hlast, ?_⟩⟩
    · rw [branchWalk]
      simp only [hfin, Bool.false_eq_true, if_false, hfirst, if_true]
      exact hrun
    · rw [hcb', hrcb, hfirst]
      simp
    · intro n hn
      have := Nat.find_min' hex hn
      omega
  · have hfirst2 : st.firstSegment = false := by simpa using hfirst
    cases hs : selectParent st with
    | none =>
      refine ⟨1, { st with bIsGenerating := false }, ?_,
        Or.inl ⟨hfirst2, (selectParent_none st hs).2, rfl⟩⟩
      rw [branchWalk]
      simp only [hfin, Bool.false_eq_true, if_false, hfirst2, hs]
    | some ps =>
      obtain ⟨p, st1⟩ := ps
      have hp : st.branchPoints.getLast? = some p ∧ st1.currentBranch = [] := by
        rcases selectParent_some _ _ _ hs with ⟨hl, _⟩ | ⟨_, hl, rfl⟩
        · rw [hcb] at hl; simp at hl
        · exact ⟨hl, hcb⟩
      have hex := exists_pow_mul_le_one (e.Sqrt (1 / 2)) (ratio p) hs0 hs1
      obtain ⟨st', segs, hrun, hend, hcb', hne, hlen, hchain, hvia, hlast⟩ :=
        branchWalk_ends e m d c (Nat.find hex) st p st1 hfin hfirst2 hs hmd (Nat.find_spec hex)
      refine ⟨Nat.find hex + 2, st', hrun, Or.inr ⟨p, segs, Or.inr ⟨hfirst2, hp.1⟩, hend, ?_, hne,
        hchain, hvia, hlast, ?_⟩⟩
      · rw [hcb', hp.2, hfirst2]
        simp
      · intro n hn
        have := Nat.find_min' hex hn
        omega

/-- C22: the inner loop started with an empty branch ends, when the value of
`Sqrt(0.5)` lies in `[0, 1)` and every minimum diameter it reads or computes is
positive. It ends at once when no branch point is left; otherwise the ratio
of diameter to minimum diameter of each segment it generates is `Sqrt(0.5)`
times that of the segment before (of the first parent, for the first one),
every segment but the last has a diameter above its minimum diameter, the
last one has not, and at most `n + 1` segments are generated after the first
parent for every `n` with `Sqrt(0.5) ^ (n + 1) * ratio ≤ 1`, the ratio being that
of the first parent. -/
theorem C22_branch_walk_terminates (e : Engine) (m : PhysicsModel) (d : Draws) (c : ℚ)
    (st : GenState) (hcb : st.currentBranch = []) (hfin : st.bIsBranchFinished = false)
    (hs0 : 0 ≤ e.Sqrt (1 / 2)) (hs1 : e.Sqrt (1 / 2) < 1)
    (hmd : MinDiametersPositive e m d c st) :
    ∃ fuel st', branchWalk e m d c fuel st = some st' ∧ WalkEnded e m d c st st' :=
  branchWalk_ended e m d c st hcb hfin hs0 hs1 hmd

/-- C22 on an example: the first walk of the example run ends; it is the root
and two more segments. -/
theorem C22_branch_walk_terminates_witness :
    (∃ fuel st', branchWalk sampleEngine (setup c11Model) c11Draws (clampA c11Draws.constA)
        fuel initialState = some st' ∧
      WalkEnded sampleEngine (setup c11Model) c11Draws (clampA c11Draws.constA)
        initialState st') ∧
    (branchWalk sampleEngine (setup c11Model) c11Draws (clampA c11Draws.constA) 5
        initialState).map (fun st => st.currentBranch.length) = some 3 :=
  ⟨C22_branch_walk_terminates sampleEngine (setup c11Model) c11Draws (clampA c11Draws.constA)
    initialState rfl rfl (by norm_num [sampleEngine]) (by norm_num [sampleEngine])
    (MinDiametersPositive_of_check _ _ _ _ _ 4 (by decide!) (by decide!)), by decide!⟩

/-! ## The unpaired branch point -/

theorem reached_two (e : Engine) (m : PhysicsModel) (d : Draws) (pt : Point) (st : GenState)
    (h : ReachedAt e m d 2 pt st) : pt = Point.walkHead ∧ st = rootState e m d := by
  rcases StackInv_reached e m d 2 pt st h with ⟨h0, _⟩ | ⟨h1, _⟩ | ⟨_, hpt, hst⟩ | ⟨h3, _⟩
  · omega
  · omega
  · exact ⟨hpt, hst⟩
  · omega

theorem reached_late (e : Engine) (m : PhysicsModel) (d : Draws) (n : Nat) (pt : Point)
    (st : GenState) (h : ReachedAt e m d n pt st) (hn : 3 ≤ n) : LateInv e m d pt st := by
  rcases StackInv_reached e m d n pt st h with ⟨h0, _⟩ | ⟨h1, _⟩ | ⟨h2, _⟩ | ⟨_, hI⟩
  · omega
  · omega
  · omega
  · exact hI

/-- With `bPackagedBuildFix` set and a second segment that branches, from the
third step on either one more branch point than directions is pending, or a
branch has been started with no direction pending. -/
theorem unpaired_or_popped (e : Engine) (m : PhysicsModel) (d : Draws)
    (hfix : m.bPackagedBuildFix = true)
    (hb : Branches e (setup m) d (clampA d.constA) (rootState e m d) (rootSegment e m d)) :
    ∀ (n : Nat) (pt : Point) (st : GenState), ReachedAt e m d n pt st → 3 ≤ n →
      st.branchPoints.length = st.branchDirection.length + 1 ∨ UnpairedPop e m d := by
  have hfix2 : (setup m).bPackagedBuildFix = true := hfix
  have frame : ∀ (n : Nat) (pt : Point) (st st' : GenState),
      ReachedAt e m d n pt st →
      (3 ≤ n → st.branchPoints.length = st.branchDirection.length + 1 ∨ UnpairedPop e m d) →
      st'.branchPoints = st.branchPoints → st'.branchDirection = st.branchDirection →
      n ≠ 2 → 3 ≤ n + 1 →
      st'.branchPoints.length = st'.branchDirection.length + 1 ∨ UnpairedPop e m d := by
    intro n pt st st' _ hP h1 h2 hne h3
    rw [h1, h2]
    exact hP (by omega)
  refine runSteps_rule e (setup m) d (clampA d.constA) (Point.loopHead, startState (setup m))
    (fun n _ st => 3 ≤ n →
      st.branchPoints.length = st.branchDirection.length + 1 ∨ UnpairedPop e m d)
    ?_ ?_ ?_ ?_ ?_ ?_ ?_ ?_ ?_
  · intro n st hr hP _
    refine frame n _ st _ hr hP rfl rfl ?_
    rintro rfl
    have := (reached_two e m d _ st hr).1
    cases this
  · intro n st hr hP _
    refine frame n _ st _ hr hP rfl rfl ?_
    rintro rfl
    have := (reached_two e m d _ st hr).1
    cases this
  · intro n st hr hP hfin
    refine frame n _ st _ hr hP rfl rfl ?_
    rintro rfl
    have := (reached_two e m d _ st hr).2
    rw [this, (rootState_fields e m d).2.1] at hfin
    simp at hfin
  · intro n st hr hP _ hfs
    refine frame n _ st _ hr hP rfl rfl ?_
    rintro rfl
    have := (reached_two e m d _ st hr).2
    rw [this, (rootState_fields e m d).2.2.1] at hfs
    simp at hfs
  · intro n st hr hP _ _ hsel
    refine frame n _ st _ hr hP rfl rfl ?_
    rintro rfl
    have := (reached_two e m d _ st hr).2
    rw [this] at hsel
    have hnil := (selectParent_none _ hsel).1
    rw [(rootState_fields e m d).1] at hnil
    simp at hnil
  · intro n st p st1 hr hP hfin hfs hsel h3
    by_cases h2 : n = 2
    · subst h2
      obtain ⟨_, rfl⟩ := reached_two e m d _ st hr
      obtain ⟨rfl, rfl⟩ := selectParent_rootState e m d p st1 hsel
      obtain ⟨r1, _, _, r4, r5, r6, _⟩ := rootState_fields e m d
      have b := generateSegment_branch e (setup m) d (clampA d.constA) _ _ hb
      left
      rw [b.1, b.2.1, r1, r4, r5, r6, hfix2]
      simp
    · have hn3 : 3 ≤ n := by omega
      rcases hP hn3 with hD | hU
      · have hI := reached_late e m d n _ st hr hn3
        have hns := LateInv_no_second e m d st st1 p hI hfin hsel
        obtain ⟨s1, s2, s3, s4, _, s6⟩ := selectParent_stacks st st1 p hsel
        by_cases hev : st.currentBranch = [] ∧ st.branchDirection = []
        · right
          have hcb1 : st1.currentBranch = [] := by rw [s3, hev.1]
          have hdir := nextSegment_first_Direction e (setup m) d (clampA d.constA) st1 p hcb1
          rw [s4, hev.2, s1] at hdir
          exact ⟨n, st, p, st1, hr, hfin, hfs, hev.1, hsel, hev.2, hdir⟩
        · left
          have hbase : st1.branchPoints.length =
              (if st1.currentBranch.isEmpty then st1.branchDirection.dropLast
                else st1.branchDirection).length + 1 := by
            rcases s6 with ⟨hemp, hbp, _⟩ | ⟨hemp, hbp, _⟩
            · rw [s3, hemp, hbp, s4]
              simpa using hD
            · have hcb : st.currentBranch = [] := List.isEmpty_iff.mp hemp
              have hbd : st.branchDirection ≠ [] := fun h0 => hev ⟨hcb, h0⟩
              have hpos : 0 < st.branchDirection.length := List.length_pos.mpr hbd
              rw [s3, hemp, hbp, s4]
              simp only [if_true, List.length_dropLast]
              omega
          by_cases hbr : Branches e (setup m) d (clampA d.constA) st1 p
          · have b := generateSegment_branch e (setup m) d (clampA d.constA) _ _ hbr
            rw [b.1, b.2.1, s2, hfix2]
            rw [hfix] at hns
            rw [hns]
            simp only [Bool.false_eq_true, if_false, List.length_append, List.length_singleton]
            omega
          · have b := generateSegment_no_branch e (setup m) d (clampA d.constA) _ _ hbr
            rw [b.1, b.2.1]
            exact hbase
      · exact Or.inr hU
  · intro n st hr hP _ _ _
    refine frame n _ st _ hr hP rfl rfl ?_
    rintro rfl
    have := (reached_two e m d _ st hr).1
    cases this
  · intro n st hr hP _
    refine frame n _ st _ hr hP rfl rfl ?_
    rintro rfl
    have := (reached_two e m d _ st hr).1
    cases this
  · intro h
    omega

theorem reached_three (e : Engine) (m : PhysicsModel) (d : Draws) :
    ReachedAt e m d 3 Point.walkHead
      (generateSegment e (setup m) d (clampA d.constA) (rootState e m d) (rootSegment e m d)) :=
  rfl

/-- Counterexample to C11. In every run with `bPackagedBuildFix` set (the
default) in which the segment generated right after the root branches,
whatever the engine and the draws: after three steps two branch points and
one direction are pending, and whenever the branch-point stack is empty
later in the run, some branch has been started by popping a branch point with
no direction pending, its first segment keeping the heading of the unset
local (first part). The configuration `c11Model` with every `FRand()` equal to
`1 / 2` gives such a run on the sample engine: the second segment branches and
the run returns after 18 steps with no branch point pending (second part). -/
theorem C11_counterexample :
    (∀ (e : Engine) (m : PhysicsModel) (d : Draws), m.bPackagedBuildFix = true →
      Branches e (setup m) d (clampA d.constA) (rootState e m d) (rootSegment e m d) →
      (∃ st, ReachedAt e m d 3 Point.walkHead st ∧
        st.branchPoints = [secondSegmentCopy e m d, secondSegmentCopy e m d] ∧
        st.branchDirection.length = 1) ∧
      (∀ (n : Nat) (pt : Point) (st : GenState), ReachedAt e m d n pt st → 3 ≤ n →
        st.branchPoints = [] → UnpairedPop e m d)) ∧
    (c11Model.bPackagedBuildFix = true ∧
      Branches sampleEngine (setup c11Model) c11Draws (clampA c11Draws.constA)
        (rootState sampleEngine c11Model c11Draws)
        (rootSegment sampleEngine c11Model c11Draws) ∧
      (runSteps sampleEngine (setup c11Model) c11Draws (clampA c11Draws.constA) 18
          (Point.loopHead, startState (setup c11Model))).map
        (fun x => (x.1, x.2.branchPoints.length)) = some (Point.returned, 0)) := by
  refine ⟨?_, rfl, by unfold Branches; decide!, by decide!⟩
  intro e m d hfix hb
  have hfix2 : (setup m).bPackagedBuildFix = true := hfix
  obtain ⟨r1, _, _, r4, r5, r6, _⟩ := rootState_fields e m d
  have b := generateSegment_branch e (setup m) d (clampA d.constA) _ _ hb
  refine ⟨⟨_, reached_three e m d, ?_, ?_⟩, ?_⟩
  · rw [b.1, r4, r5, hfix2]
    rfl
  · rw [b.2.1, r1, r6]
    simp
  · intro n pt st hr hn hbp
    rcases unpaired_or_popped e m d hfix hb n pt st hr hn with h | h
    · rw [hbp] at h
      simp at h
    · exact h

/-! ## The stacks inside an iteration -/

/-- Counterexample to C18. With `bPackagedBuildFix` off, whatever the engine,
the configuration and the draws: at every start of a branch, right after the
pop of line 104 and before the pop of line 176, one branch point fewer than
directions is pending, so the difference is `-1` (first part). The
configuration `fixOffModel` with every `FRand()` equal to `1 / 2` reaches such a
point after 7 steps on the sample engine: no branch point and one direction
are pending there (second part). -/
theorem C18_counterexample :
    (∀ (e : Engine) (m : PhysicsModel) (d : Draws) (n : Nat) (st st1 : GenState) (p : Segment),
      m.bPackagedBuildFix = false → ReachedAt e m d n Point.walkHead st →
      st.firstSegment = false → st.currentBranch = [] → selectParent st = some (p, st1) →
      st1.branchPoints.length + 1 = st1.branchDirection.length) ∧
    (fixOffModel.bPackagedBuildFix = false ∧
      (runSteps sampleEngine (setup fixOffModel) c11Draws (clampA c11Draws.constA) 7
          (Point.loopHead, startState (setup fixOffModel))).map
        (fun x => (x.1, x.2.firstSegment, x.2.currentBranch.length,
          (selectParent x.2).map
            (fun y => (y.2.branchPoints.length, y.2.branchDirection.length)))) =
        some (Point.walkHead, false, 0, some (0, 1))) := by
  refine ⟨?_, rfl, by decide!⟩
  intro e m d n st st1 p hfix hr _ hcb hsel
  have hbal := (stack_balance e m d n Point.walkHead st hr).1 hfix
  obtain ⟨h1, h2⟩ := pop_sizes st st1 p hcb hsel
  rw [h2, ← hbal]
  exact h1

/-! ## Claim C8 -/

/-- With `MaxSegments = 1`, the call returns when the inner loop of the first
walk ends. -/
theorem GenerateSegments_limit_one_returns (e : Engine) (m : PhysicsModel) (d : Draws)
    (hlim : m.bUseSegmentLimit = true) (hmax : m.MaxSegments = 1)
    (hs0 : 0 ≤ e.Sqrt (1 / 2)) (hs1 : e.Sqrt (1 / 2) < 1)
    (hmd : MinDiametersPositive e (setup m) d (clampA d.constA) (startState (setup m))) :
    ∃ fuel m', GenerateSegments e m d fuel = some m' := by
  obtain ⟨fuel, st1, hw, _⟩ :=
    branchWalk_ended e (setup m) d (clampA d.constA) initialState rfl rfl hs0 hs1 hmd
  cases fuel with
  | zero => simp [branchWalk] at hw
  | succ n =>
    obtain ⟨s, tail, hcb⟩ := branchWalk_root_first e m d (n + 1) st1 hw
    have hLS := branchWalk_LightningSegments e (setup m) d (clampA d.constA) (n + 1) _ st1 hw
    have happ : (appendBranch st1).LightningSegments = rootSegment e m d :: s :: tail := by
      simp [appendBranch, hLS, hcb, initialState]
    have hl : (setup m).bUseSegmentLimit = true := hlim
    have hx : (setup m).MaxSegments = 1 := hmax
    have hloop : ∃ st, generateLoop e (setup m) d (clampA d.constA) (n + 1) initialState
        = some st := by
      rw [generateLoop]
      have hg : initialState.bIsGenerating = true := rfl
      rw [if_pos hg]
      have hinit : ({ initialState with currentBranch := [], bIsBranchFinished := false }
          : GenState) = initialState := rfl
      rw [hinit, hw]
      simp only [hl, hx, happ, List.length_cons, true_and]
      have h1 : (1 : Int) ≤ ((tail.length + 1 + 1 : Nat) : Int) := by omega
      rw [if_pos h1]
      have h2 : ¬ ((1 : Int) < 0) := by omega
      rw [if_neg h2]
      exact ⟨_, rfl⟩
    obtain ⟨st, hst⟩ := hloop
    refine ⟨n + 1, { setup m with LightningSegments := st.LightningSegments }, ?_⟩
    simp only [GenerateSegments, GenerateSegmentsTrace, startState_setup, hst, Option.map_some']

/-- C8 (amended): with the limit enabled and `MaxSegments = 1`, every call of
`GenerateSegments` that returns stores exactly one segment, the root segment,
which starts at `(0, 0, StartHeight)`, has diameter `Voltage * ConstantnV` and
ends at start + direction * length; and the call does return when the value of
`Sqrt(0.5)` lies in `[0, 1)` and every minimum diameter that the first walk
reads or computes is positive. -/
theorem C8_limit_one_stores_root (e : Engine) (m : PhysicsModel) (d : Draws)
    (hlim : m.bUseSegmentLimit = true) (hmax : m.MaxSegments = 1) :
    (∀ fuel m', GenerateSegments e m d fuel = some m' →
      m'.GetSegments = [rootSegment e m d]) ∧
    (rootSegment e m d).StartPos = { X := 0, Y := 0, Z := m.StartHeight } ∧
    (rootSegment e m d).Diameter = m.Voltage * m.ConstantnV ∧
    (rootSegment e m d).EndPos =
      (rootSegment e m d).StartPos.add
        ((rootSegment e m d).Direction.scale (rootSegment e m d).Length) ∧
    (0 ≤ e.Sqrt (1 / 2) → e.Sqrt (1 / 2) < 1 →
      MinDiametersPositive e (setup m) d (clampA d.constA) (startState (setup m)) →
      ∃ fuel m', GenerateSegments e m d fuel = some m' ∧
        m'.GetSegments = [rootSegment e m d]) := by
  have r := rootSegment_fields e m d
  have hres : ∀ fuel m', GenerateSegments e m d fuel = some m' →
      m'.GetSegments = [rootSegment e m d] := by
    intro fuel m' h
    simp only [GenerateSegments, GenerateSegmentsTrace, startState_setup, Option.map_eq_some'] at h
    obtain ⟨st, hst, rfl⟩ := h
    exact generateLoop_limit_one e m d fuel hlim hmax st hst
  refine ⟨hres, r.1, r.2.1, r.2.2.1, ?_⟩
  intro hs0 hs1 hmd
  obtain ⟨fuel, m', h⟩ := GenerateSegments_limit_one_returns e m d hlim hmax hs0 hs1 hmd
  exact ⟨fuel, m', h, hres fuel m' h⟩

/-- C8 (amended) on an example: the default configuration with the voltage
`4e7`, started at the height 2000 with the limit of one segment, on an engine
whose pressure falls with the height; the first walk is the root and two more
segments, and the root is stored. -/
theorem C8_limit_one_stores_root_witness :
    (∃ fuel m', GenerateSegments floorEngine limitOneModel sampleDraws fuel = some m' ∧
      m'.GetSegments = [rootSegment floorEngine limitOneModel sampleDraws]) ∧
    (GenerateSegmentsTrace floorEngine limitOneModel sampleDraws 5).map
      (fun st => (st.LightningSegments.length, st.Walks.map List.length)) = some (1, [3]) :=
  ⟨(C8_limit_one_stores_root floorEngine limitOneModel sampleDraws rfl rfl).2.2.2.2
    (by norm_num [floorEngine]) (by norm_num [floorEngine])
    (MinDiametersPositive_of_check _ _ _ _ _ 4 (by decide!) (by decide!)), by decide!⟩

end ProceduralLightning
